import Mathlib

/-!
# A shallow embedding of `ttt.go` (tic-tac-toe policy network)

The Go program keeps a 9-cell board of runes, a two-layer network with
flattened weight arrays, and a post-game learning pass.  The embedding below
follows the source function by function.

* Go fixed-size arrays `[N]T` are functions `Fin N → T`; an in-place write
  `a[i] = v` is `Function.update a i v`.
* A counted loop `for i := 0; i < n; i++ { body }` is `forLoop n body init`,
  a left fold over `0, 1, …, n-1` threading the variables the body mutates.
* `float64` arithmetic is taken over an arbitrary linearly ordered field `α`
  (the rationals for evaluation, the reals for the numerical claims);
  `math.Exp` is a parameter `exp : α → α`, instantiated with `Real.exp`.
* Runes are `Char`; Go `int` values are `Int` (or `Fin`/`Nat` where the code
  uses them as array indices or loop bounds).
-/

namespace TTT

/-! ## Constants (ttt.go, lines 10–15) -/

abbrev NN_INPUT_SIZE : Nat := 18
abbrev NN_HIDDEN_SIZE : Nat := 100
abbrev NN_OUTPUT_SIZE : Nat := 9

/-- The constant `LEARNING_RATE = 0.1`. -/
def LEARNING_RATE {α : Type} [LinearOrderedField α] : α := 0.1

/-! ## Loops and flat indices -/

/-- The loop `for i := 0; i < n; i++ { s = body i s }` started from `init`. -/
def forLoop {σ : Type} (n : Nat) (body : Fin n → σ → σ) (init : σ) : σ :=
  (List.finRange n).foldl (fun s i => body i s) init

/-- Flat index `j*NN_HIDDEN_SIZE + i` into `weightsIH` (input `j`, hidden `i`). -/
def idxIH (j : Fin NN_INPUT_SIZE) (i : Fin NN_HIDDEN_SIZE) :
    Fin (NN_INPUT_SIZE * NN_HIDDEN_SIZE) :=
  ⟨j.val * NN_HIDDEN_SIZE + i.val, by
    have hj := j.isLt
    have hi := i.isLt
    simp only [NN_INPUT_SIZE, NN_HIDDEN_SIZE] at *
    omega⟩

/-- Flat index `j*NN_OUTPUT_SIZE + i` into `weightsHO` (hidden `j`, output `i`). -/
def idxHO (j : Fin NN_HIDDEN_SIZE) (i : Fin NN_OUTPUT_SIZE) :
    Fin (NN_HIDDEN_SIZE * NN_OUTPUT_SIZE) :=
  ⟨j.val * NN_OUTPUT_SIZE + i.val, by
    have hj := j.isLt
    have hi := i.isLt
    simp only [NN_HIDDEN_SIZE, NN_OUTPUT_SIZE] at *
    omega⟩

/-! ## Data model (ttt.go, lines 17–33) -/

/-- The struct `GameState`. -/
structure GameState where
  board : Fin 9 → Char
  currentPlayer : Int

/-- The struct `NeuralNetwork`: four parameter arrays and four activation buffers. -/
structure NeuralNetwork (α : Type) where
  weightsIH : Fin (NN_INPUT_SIZE * NN_HIDDEN_SIZE) → α
  weightsHO : Fin (NN_HIDDEN_SIZE * NN_OUTPUT_SIZE) → α
  biasesH : Fin NN_HIDDEN_SIZE → α
  biasesO : Fin NN_OUTPUT_SIZE → α
  inputs : Fin NN_INPUT_SIZE → α
  hidden : Fin NN_HIDDEN_SIZE → α
  rawLogits : Fin NN_OUTPUT_SIZE → α
  outputs : Fin NN_OUTPUT_SIZE → α

section Network

variable {α : Type} [LinearOrderedField α]

/-! ## Activations (ttt.go, lines 35–49) -/

/-- The function `relu`. -/
def relu (x : α) : α := if x > 0 then x else 0

/-- The function `reluDerivative`. -/
def reluDerivative (x : α) : α := if x > 0 then 1 else 0

/-! ## Softmax and the forward pass (ttt.go, lines 67–108) -/

/-- The running maximum of `softmax` (lines 69–74): start from `input[0]`, scan `1 … size-1`. -/
def softmaxMax {size : Nat} (hsize : 0 < size) (input : Fin size → α) : α :=
  (List.finRange size).tail.foldl (fun maxVal i => if input i > maxVal then input i else maxVal)
    (input ⟨0, hsize⟩)

/-- The exponentiation loop of `softmax` (lines 75–79): writes `output[i]` and accumulates `sum`. -/
def softmaxExps (exp : α → α) {size : Nat} (maxVal : α) (input output : Fin size → α) :
    (Fin size → α) × α :=
  forLoop size (fun i (p : (Fin size → α) × α) =>
    let output := Function.update p.1 i (exp (input i - maxVal))
    (output, p.2 + output i)) (output, 0)

/-- The function `softmax`; the result is the final content of the `output` slice. -/
def softmax (exp : α → α) {size : Nat} (hsize : 0 < size) (input output : Fin size → α) :
    Fin size → α :=
  let maxVal := softmaxMax hsize input
  let p := softmaxExps exp maxVal input output
  let output := p.1
  let sum := p.2
  if sum > 0 then
    forLoop size (fun i output => Function.update output i (output i / sum)) output
  else
    forLoop size (fun i output => Function.update output i (1 / (size : α))) output

/-- Pre-activation of hidden unit `i` (lines 95–98): `biasesH[i]` plus the inputs times weights. -/
def hiddenSum (nn : NeuralNetwork α) (inputs : Fin NN_INPUT_SIZE → α) (i : Fin NN_HIDDEN_SIZE) : α :=
  forLoop NN_INPUT_SIZE (fun j sum => sum + inputs j * nn.weightsIH (idxIH j i)) (nn.biasesH i)

/-- The function `forwardPass`; returns the network with its four buffers overwritten. -/
def forwardPass (exp : α → α) (nn : NeuralNetwork α) (inputs : Fin NN_INPUT_SIZE → α) :
    NeuralNetwork α :=
  let hidden := forLoop NN_HIDDEN_SIZE
    (fun i hidden => Function.update hidden i (relu (hiddenSum nn inputs i))) nn.hidden
  let rawLogits := forLoop NN_OUTPUT_SIZE (fun i rawLogits =>
    let rawLogits := Function.update rawLogits i (nn.biasesO i)
    forLoop NN_HIDDEN_SIZE (fun j rawLogits =>
      Function.update rawLogits i (rawLogits i + hidden j * nn.weightsHO (idxHO j i))) rawLogits)
    nn.rawLogits
  { nn with
    inputs := inputs
    hidden := hidden
    rawLogits := rawLogits
    outputs := softmax exp (by decide) rawLogits nn.outputs }

end Network

/-! ## Game rules and encoding (ttt.go, lines 110–180) -/

/-- The function `initGame`. -/
def initGame (state : GameState) : GameState :=
  { board := forLoop 9 (fun i board => Function.update board i '.') state.board
    currentPlayer := 0 }

/-- The function `boardToInputs`; `inputs` is the 18-element slice it writes into. -/
def boardToInputs {α : Type} [LinearOrderedField α] (state : GameState)
    (inputs : Fin 18 → α) : Fin 18 → α :=
  forLoop 9 (fun i inputs =>
    if state.board i = '.' then
      Function.update (Function.update inputs ⟨i.val * 2, by omega⟩ 0) ⟨i.val * 2 + 1, by omega⟩ 0
    else if state.board i = 'X' then
      Function.update (Function.update inputs ⟨i.val * 2, by omega⟩ 1) ⟨i.val * 2 + 1, by omega⟩ 0
    else
      Function.update (Function.update inputs ⟨i.val * 2, by omega⟩ 0) ⟨i.val * 2 + 1, by omega⟩ 1)
    inputs

/-- Body of the row loop of `checkGameOver` (line 147): the winner written when row `i` matches. -/
def rowCheck (state : GameState) (i : Fin 3) : Option Char :=
  if state.board ⟨i.val * 3, by omega⟩ ≠ '.' ∧
      state.board ⟨i.val * 3, by omega⟩ = state.board ⟨i.val * 3 + 1, by omega⟩ ∧
      state.board ⟨i.val * 3 + 1, by omega⟩ = state.board ⟨i.val * 3 + 2, by omega⟩ then
    some (state.board ⟨i.val * 3, by omega⟩)
  else none

/-- Body of the column loop of `checkGameOver` (line 154). -/
def colCheck (state : GameState) (i : Fin 3) : Option Char :=
  if state.board ⟨i.val, by omega⟩ ≠ '.' ∧
      state.board ⟨i.val, by omega⟩ = state.board ⟨i.val + 3, by omega⟩ ∧
      state.board ⟨i.val + 3, by omega⟩ = state.board ⟨i.val + 6, by omega⟩ then
    some (state.board ⟨i.val, by omega⟩)
  else none

/-- The counter `emptyTiles` of `checkGameOver` (lines 169–174). -/
def emptyTiles (state : GameState) : Int :=
  forLoop 9 (fun i n => if state.board i = '.' then n + 1 else n) 0

/-- The function `checkGameOver`.  `some w` stands for `*winner = w; return true`,
`none` for `return false` (the winner variable is then left untouched). -/
def checkGameOver (state : GameState) : Option Char :=
  match (List.finRange 3).findSome? (rowCheck state) with
  | some w => some w
  | none =>
    match (List.finRange 3).findSome? (colCheck state) with
    | some w => some w
    | none =>
      if state.board 0 ≠ '.' ∧ state.board 0 = state.board 4 ∧ state.board 4 = state.board 8 then
        some (state.board 0)
      else if state.board 2 ≠ '.' ∧ state.board 2 = state.board 4 ∧
          state.board 4 = state.board 6 then
        some (state.board 2)
      else if emptyTiles state = 0 then some 'T'
      else none

/-- The eight lines of the board: three rows, three columns, two diagonals. -/
def winLines : List (Fin 9 × Fin 9 × Fin 9) :=
  [(0, 1, 2), (3, 4, 5), (6, 7, 8), (0, 3, 6), (1, 4, 7), (2, 5, 8), (0, 4, 8), (2, 4, 6)]

/-- Some row, column or diagonal of `board` holds the symbol `s` three times. -/
def HasLine (board : Fin 9 → Char) (s : Char) : Prop :=
  ∃ l ∈ winLines, board l.1 = s ∧ board l.2.1 = s ∧ board l.2.2 = s

instance (board : Fin 9 → Char) (s : Char) : Decidable (HasLine board s) := by
  unfold HasLine; infer_instance

/-- Every cell of the board is one of the three symbols the program writes. -/
def ValidBoard (board : Fin 9 → Char) : Prop :=
  ∀ i, board i = '.' ∨ board i = 'X' ∨ board i = 'O'

instance (board : Fin 9 → Char) : Decidable (ValidBoard board) := by
  unfold ValidBoard; infer_instance

/-- A board given by its nine cells, read left to right, top to bottom. -/
def boardOf (cells : List Char) : Fin 9 → Char := fun i => cells.getD i.val '.'

/-- The test the code applies to one line: first cell non-empty, all three equal. -/
def lineFull (b : Fin 9 → Char) (l : Fin 9 × Fin 9 × Fin 9) : Bool :=
  decide (b l.1 ≠ '.' ∧ b l.1 = b l.2.1 ∧ b l.2.1 = b l.2.2)

/-! ## Move selection (ttt.go, lines 182–227) -/

/-- The four variables the scan loop of `getComputerMove` updates (lines 188–191). -/
structure MoveScan (α : Type) where
  highestProb : α
  highestProbIdx : Int
  bestMove : Int
  bestLegalProb : α

section Learning

variable {α : Type} [LinearOrderedField α]

/-- One iteration of the scan loop of `getComputerMove` (lines 194–201) at cell `i`. -/
def scanStep (state : GameState) (outputs : Fin 9 → α) (i : Fin 9) (s : MoveScan α) :
    MoveScan α :=
  let s := if outputs i > s.highestProb then
    { s with highestProb := outputs i, highestProbIdx := (i.val : Int) } else s
  if state.board i = '.' ∧ (s.bestMove = -1 ∨ outputs i > s.bestLegalProb) then
    { s with bestMove := (i.val : Int), bestLegalProb := outputs i }
  else s

/-- The scan loop of `getComputerMove` (lines 188–202) over the probabilities `outputs`. -/
def scanMoves (state : GameState) (outputs : Fin 9 → α) : MoveScan α :=
  forLoop 9 (scanStep state outputs)
    { highestProb := -1, highestProbIdx := -1, bestMove := -1, bestLegalProb := -1 }

/-- The function `getComputerMove`: the network after the forward pass and the returned move.
The printing under `displayProbs` has no effect on either. -/
def getComputerMove (exp : α → α) (state : GameState) (nn : NeuralNetwork α)
    (_displayProbs : Bool) : NeuralNetwork α × Int :=
  let inputs := boardToInputs state (fun _ => 0)
  let nn := forwardPass exp nn inputs
  (nn, (scanMoves state nn.outputs).bestMove)

/-- What the scan loop knows after the cells of `l`: no empty cell seen and `bestMove = -1`,
or `bestMove` is the first empty cell of `l` with the largest probability. -/
def ScanInv (state : GameState) (outputs : Fin 9 → α) (l : List (Fin 9)) (s : MoveScan α) :
    Prop :=
  (s.bestMove = -1 ∧ ∀ i ∈ l, state.board i ≠ '.') ∨
  ∃ m : Fin 9, s.bestMove = (m.val : Int) ∧ m ∈ l ∧ state.board m = '.' ∧
    s.bestLegalProb = outputs m ∧
    (∀ i ∈ l, state.board i = '.' → outputs i ≤ outputs m) ∧
    (∀ i ∈ l, state.board i = '.' → i < m → outputs i < outputs m)

/-! ## Backpropagation (ttt.go, lines 229–264) -/

/-- The slice `outputDeltas` after its loop (lines 235–237). -/
def outputDeltas (nn : NeuralNetwork α) (targetProbs : Fin NN_OUTPUT_SIZE → α)
    (rewardScaling : α) : Fin NN_OUTPUT_SIZE → α :=
  forLoop NN_OUTPUT_SIZE (fun i outputDeltas =>
    Function.update outputDeltas i ((nn.outputs i - targetProbs i) * |rewardScaling|))
    (fun _ => 0)

/-- The slice `hiddenDeltas` after its loop (lines 239–245), read off the weights `weightsHO`
as they are before the update. -/
def hiddenDeltas (nn : NeuralNetwork α) (outputDeltas : Fin NN_OUTPUT_SIZE → α) :
    Fin NN_HIDDEN_SIZE → α :=
  forLoop NN_HIDDEN_SIZE (fun i hiddenDeltas =>
    let error := forLoop NN_OUTPUT_SIZE
      (fun j error => error + outputDeltas j * nn.weightsHO (idxHO i j)) 0
    Function.update hiddenDeltas i (error * reluDerivative (nn.hidden i)))
    (fun _ => 0)

/-- The function `backprop`. -/
def backprop (nn : NeuralNetwork α) (targetProbs : Fin NN_OUTPUT_SIZE → α)
    (learningRate rewardScaling : α) : NeuralNetwork α :=
  let outputDeltas := outputDeltas nn targetProbs rewardScaling
  let hiddenDeltas := hiddenDeltas nn outputDeltas
  let weightsHO := forLoop NN_HIDDEN_SIZE (fun i weightsHO =>
    forLoop NN_OUTPUT_SIZE (fun j weightsHO =>
      Function.update weightsHO (idxHO i j)
        (weightsHO (idxHO i j) - learningRate * outputDeltas j * nn.hidden i)) weightsHO)
    nn.weightsHO
  let biasesO := forLoop NN_OUTPUT_SIZE (fun j biasesO =>
    Function.update biasesO j (biasesO j - learningRate * outputDeltas j)) nn.biasesO
  let weightsIH := forLoop NN_INPUT_SIZE (fun i weightsIH =>
    forLoop NN_HIDDEN_SIZE (fun j weightsIH =>
      Function.update weightsIH (idxIH i j)
        (weightsIH (idxIH i j) - learningRate * hiddenDeltas j * nn.inputs i)) weightsIH)
    nn.weightsIH
  let biasesH := forLoop NN_HIDDEN_SIZE (fun j biasesH =>
    Function.update biasesH j (biasesH j - learningRate * hiddenDeltas j)) nn.biasesH
  { nn with
    weightsHO := weightsHO
    biasesO := biasesO
    weightsIH := weightsIH
    biasesH := biasesH }

/-! ## Learning from a finished game (ttt.go, lines 266–320) -/

/-- The local `nnSymbol` of `learnFromGame` (lines 269–272). -/
def nnSymbol (nnMovesEven : Bool) : Char := if !nnMovesEven then 'X' else 'O'

/-- The local `reward` of `learnFromGame` (lines 273–279). -/
def reward (nnMovesEven : Bool) (winner : Char) : α :=
  if winner = 'T' then 0.3
  else if winner = nnSymbol nnMovesEven then 1.0
  else -2.0

/-- Negation of the `continue` test of line 285: the move at `moveIdx` is trained on. -/
def isLearnerMove (nnMovesEven : Bool) (moveIdx : Nat) : Bool :=
  !((nnMovesEven && moveIdx % 2 != 1) || (!nnMovesEven && moveIdx % 2 != 0))

/-- The board rebuilt before move `moveIdx` (lines 288–295): `initGame`, then the first
`moveIdx` moves of the history replayed with 'X' on even and 'O' on odd positions. -/
def replayBoard (state : GameState) (moveHistory : Fin 9 → Fin 9) (moveIdx : Fin 9) :
    GameState :=
  let state := initGame state
  forLoop moveIdx.val (fun i (state : GameState) =>
    let symbol := if i.val % 2 = 1 then 'O' else 'X'
    { state with
      board := Function.update state.board (moveHistory ⟨i.val, by omega⟩) symbol }) state

/-- The local `moveImportance` (line 301). -/
def moveImportance (moveIdx numMoves : Nat) : α :=
  0.5 + 0.5 * (moveIdx : α) / (numMoves : α)

/-- The target distribution built in lines 304–317 from the previous content `targetProbs`
of the slice. -/
def buildTarget (targetProbs : Fin NN_OUTPUT_SIZE → α) (state : GameState) (move : Fin 9)
    (moveIdx : Nat) (scaledReward : α) : Fin NN_OUTPUT_SIZE → α :=
  let targetProbs := forLoop NN_OUTPUT_SIZE
    (fun i targetProbs => Function.update targetProbs i 0) targetProbs
  if scaledReward ≥ 0 then
    Function.update targetProbs move 1
  else
    let validMovesLeft : Int := 9 - (moveIdx : Int) - 1
    let otherProb : α := 1.0 / (validMovesLeft : α)
    forLoop 9 (fun i targetProbs =>
      if state.board i = '.' ∧ i ≠ move then Function.update targetProbs i otherProb
      else targetProbs) targetProbs

/-- The variables that live across iterations of the loop of `learnFromGame`. -/
structure LearnVars (α : Type) where
  nn : NeuralNetwork α
  state : GameState
  targetProbs : Fin NN_OUTPUT_SIZE → α

/-- One iteration of the loop of `learnFromGame` (lines 285–318) at move index `moveIdx`. -/
def learnStep (exp : α → α) (moveHistory : Fin 9 → Fin 9) (numMoves : Nat)
    (nnMovesEven : Bool) (reward : α) (moveIdx : Fin 9) (v : LearnVars α) : LearnVars α :=
  if isLearnerMove nnMovesEven moveIdx.val then
    let state := replayBoard v.state moveHistory moveIdx
    let inputs := boardToInputs state (fun _ => 0)
    let nn := forwardPass exp v.nn inputs
    let move := moveHistory moveIdx
    let scaledReward := reward * moveImportance moveIdx.val numMoves
    let targetProbs := buildTarget v.targetProbs state move moveIdx.val scaledReward
    { nn := backprop nn targetProbs LEARNING_RATE scaledReward
      state := state
      targetProbs := targetProbs }
  else v

/-- The body of the loop of `learnFromGame` past its `continue` test (lines 288–318): the
board before move `moveIdx` is rebuilt, one `forwardPass` is run on its encoding and one
`backprop` follows. -/
def trainOn (exp : α → α) (moveHistory : Fin 9 → Fin 9) (numMoves : Nat) (reward : α)
    (moveIdx : Fin 9) (v : LearnVars α) : LearnVars α :=
  let state := replayBoard v.state moveHistory moveIdx
  let inputs := boardToInputs state (fun _ => 0)
  let nn := forwardPass exp v.nn inputs
  let move := moveHistory moveIdx
  let scaledReward := reward * moveImportance moveIdx.val numMoves
  let targetProbs := buildTarget v.targetProbs state move moveIdx.val scaledReward
  { nn := backprop nn targetProbs LEARNING_RATE scaledReward
    state := state
    targetProbs := targetProbs }

/-- The function `learnFromGame`, for a history slice of 9 board cells and
`numMoves ≤ 9` (a longer game would index the history out of range). -/
def learnFromGame (exp : α → α) (nn : NeuralNetwork α) (moveHistory : Fin 9 → Fin 9)
    (numMoves : Nat) (hnum : numMoves ≤ 9) (nnMovesEven : Bool) (winner : Char) :
    NeuralNetwork α :=
  let reward : α := reward nnMovesEven winner
  let init : LearnVars α :=
    { nn := nn
      state := { board := fun _ => Char.ofNat 0, currentPlayer := 0 }
      targetProbs := fun _ => 0 }
  (forLoop numMoves (fun moveIdx v =>
    learnStep exp moveHistory numMoves nnMovesEven reward (Fin.castLE hnum moveIdx) v) init).nn

end Learning

/-! ## Playing a game against the random mover (ttt.go, lines 322–357) -/

/-- The function `getRandomMove`, run on the successive results `draws` of `rand.Intn(9)`:
the first draw that hits an empty cell is returned together with the draws left over; `none`
when the draws run out first, the loop being then still running. -/
def getRandomMove (state : GameState) : List (Fin 9) → Option (Fin 9 × List (Fin 9))
  | [] => none
  | move :: rest =>
    if state.board move = '.' then some (move, rest) else getRandomMove state rest

/-- Lines 346–350 and 353 of `playRandomGame`: the symbol of the side to move is written on
cell `move` and the turn passes to the other side. -/
def placeMove (state : GameState) (move : Fin 9) : GameState :=
  let symbol := if state.currentPlayer = 1 then 'O' else 'X'
  { board := Function.update state.board move symbol
    currentPlayer := 1 - state.currentPlayer }

/-- The variables of `playRandomGame` that its loop reads and writes, with the results of
`rand.Intn(9)` still to come. -/
structure PlayVars (α : Type) where
  nn : NeuralNetwork α
  state : GameState
  moveHistory : Fin 9 → Fin 9
  numMoves : Nat
  draws : List (Fin 9)

section Playing

variable {α : Type} [LinearOrderedField α]

/-- The move chosen in lines 340–345, as the Go `int` it is, with the network and the draws
after the choice; `none` when `getRandomMove` has not returned. -/
def chooseMove (exp : α → α) (v : PlayVars α) : Option (Int × NeuralNetwork α × List (Fin 9)) :=
  if v.state.currentPlayer = 0 then
    match getRandomMove v.state v.draws with
    | none => none
    | some (move, rest) => some ((move.val : Int), v.nn, rest)
  else
    let r := getComputerMove exp v.state v.nn false
    some (r.2, r.1, v.draws)

/-- One iteration of the loop of `playRandomGame` (lines 340–353).  `none` stands for a run
that does not reach the end of the iteration: `getRandomMove` has not returned, or one of the
writes `state.board[move]`, `moveHistory[*numMoves]` is out of range. -/
def playTurn (exp : α → α) (v : PlayVars α) : Option (PlayVars α) :=
  match chooseMove exp v with
  | none => none
  | some (move, nn, draws) =>
    if hmove : 0 ≤ move ∧ move < 9 then
      if hnum : v.numMoves < 9 then
        some
          { nn := nn
            state := placeMove v.state ⟨move.toNat, by omega⟩
            moveHistory := Function.update v.moveHistory ⟨v.numMoves, hnum⟩ ⟨move.toNat, by omega⟩
            numMoves := v.numMoves + 1
            draws := draws }
      else none
    else none

/-- The loop `for !checkGameOver(&state, &winner)` of `playRandomGame`, run for at most `fuel`
iterations: the variables and the winner when the loop has ended, `none` otherwise. -/
def playLoop (exp : α → α) : Nat → PlayVars α → Option (PlayVars α × Char)
  | 0, v =>
    match checkGameOver v.state with
    | some winner => some (v, winner)
    | none => none
  | fuel + 1, v =>
    match checkGameOver v.state with
    | some winner => some (v, winner)
    | none =>
      match playTurn exp v with
      | none => none
      | some v2 => playLoop exp fuel v2

/-- The variables of `playRandomGame` when its loop starts (lines 334–337). -/
def playStart (nn : NeuralNetwork α) (moveHistory : Fin 9 → Fin 9) (draws : List (Fin 9)) :
    PlayVars α :=
  { nn := nn
    state := initGame { board := fun _ => Char.ofNat 0, currentPlayer := 0 }
    moveHistory := moveHistory
    numMoves := 0
    draws := draws }

/-- The function `playRandomGame`: the network after learning, the history, `*numMoves`, the
draws left and the returned winner. -/
def playRandomGame (exp : α → α) (fuel : Nat) (nn : NeuralNetwork α)
    (moveHistory : Fin 9 → Fin 9) (draws : List (Fin 9)) :
    Option (NeuralNetwork α × (Fin 9 → Fin 9) × Nat × List (Fin 9) × Char) :=
  match playLoop exp fuel (playStart nn moveHistory draws) with
  | none => none
  | some (v, winner) =>
    if hnum : v.numMoves ≤ 9 then
      some (learnFromGame exp v.nn v.moveHistory v.numMoves hnum true winner,
        v.moveHistory, v.numMoves, v.draws, winner)
    else none

/-- The loop variables `v2` are those after `n` completed iterations started from `v`, the
terminal check having returned false before each of them. -/
inductive PlayRun (exp : α → α) (v : PlayVars α) : Nat → PlayVars α → Prop
  | refl : PlayRun exp v 0 v
  | step {n : Nat} {v2 v3 : PlayVars α} :
      PlayRun exp v n v2 → checkGameOver v2.state = none → playTurn exp v2 = some v3 →
      PlayRun exp v (n + 1) v3

end Playing

/-- Boards of a valid game: the empty board with X to move, and every board obtained from a
board of a valid game that is not over by the side to move placing its symbol on an empty
cell. -/
inductive Reachable : GameState → Prop
  | start : Reachable { board := fun _ => '.', currentPlayer := 0 }
  | move {state : GameState} (m : Fin 9) :
      Reachable state → checkGameOver state = none → state.board m = '.' →
      Reachable (placeMove state m)

/-- A terminal check that examines the lines in the order `lines` (first match wins) and
then tests for a tie, as `checkGameOver` does with rows, columns, diagonals. -/
def checkGameOverIn (lines : List (Fin 9 × Fin 9 × Fin 9)) (state : GameState) : Option Char :=
  match lines.find? (lineFull state.board) with
  | some l => some (state.board l.1)
  | none => if emptyTiles state = 0 then some 'T' else none

/-- The board after the moves `moves` are placed in turn on `state`. -/
def playMoves (state : GameState) (moves : List (Fin 9)) : GameState :=
  moves.foldl placeMove state

/-- Every move of `moves`, placed in turn from `state`, is made on an empty cell of a board
that the terminal check does not report as over. -/
def legalFrom (state : GameState) : List (Fin 9) → Bool
  | [] => true
  | m :: rest =>
    (checkGameOver state).isNone && decide (state.board m = '.') &&
      legalFrom (placeMove state m) rest

/-- The number of the eight lines that hold three equal non-empty symbols. -/
def fullLines (board : Fin 9 → Char) : Nat := (winLines.filter (lineFull board)).length

/-- Invariant of the loop of `playRandomGame`: the side to move is `numMoves mod 2`, the
non-empty cells are the `numMoves` pairwise distinct cells recorded in the history, with 'X'
on those of even and 'O' on those of odd history positions. -/
def PlayInv {α : Type} (v : PlayVars α) : Prop :=
  v.state.currentPlayer = ((v.numMoves % 2 : Nat) : Int) ∧
  v.numMoves ≤ 9 ∧
  (Finset.univ.filter (fun c => v.state.board c ≠ '.')).card = v.numMoves ∧
  (∀ c, v.state.board c ≠ '.' ↔ ∃ i : Fin 9, i.val < v.numMoves ∧ v.moveHistory i = c) ∧
  (∀ i : Fin 9, i.val < v.numMoves →
    v.state.board (v.moveHistory i) = if i.val % 2 = 0 then 'X' else 'O') ∧
  (∀ i j : Fin 9, i.val < v.numMoves → j.val < v.numMoves →
    v.moveHistory i = v.moveHistory j → i = j)

/-! ## Quantities of one gradient step, as functions of the learning rate -/

section StepQuantities

variable {α : Type} [LinearOrderedField α]

/-- Pre-activation of hidden unit `i` on the input `x`: `biasesH[i] + ∑ x[j]·W_IH[j,i]`. -/
def preAct (nn : NeuralNetwork α) (x : Fin NN_INPUT_SIZE → α) (i : Fin NN_HIDDEN_SIZE) : α :=
  nn.biasesH i + ∑ j, x j * nn.weightsIH (idxIH j i)

/-- Hidden-layer error of unit `i` for the output errors `d`: the errors sent back through
`W_HO`, gated by the sign of the pre-activation. -/
def hiddenErr (nn : NeuralNetwork α) (x : Fin NN_INPUT_SIZE → α) (d : Fin NN_OUTPUT_SIZE → α)
    (i : Fin NN_HIDDEN_SIZE) : α :=
  (∑ k, d k * nn.weightsHO (idxHO i k)) * (if preAct nn x i > 0 then 1 else 0)

/-- Hidden activation of unit `i` on `x` after one step of size `lr` for the output errors
`d`. -/
def hiddenAfter (nn : NeuralNetwork α) (x : Fin NN_INPUT_SIZE → α) (d : Fin NN_OUTPUT_SIZE → α)
    (lr : α) (i : Fin NN_HIDDEN_SIZE) : α :=
  relu (preAct nn x i - lr * hiddenErr nn x d i * (1 + ∑ j, x j * x j))

/-- Logit `k` on `x` after one step of size `lr` for the output errors `d`. -/
def logitsAfter (nn : NeuralNetwork α) (x : Fin NN_INPUT_SIZE → α) (d : Fin NN_OUTPUT_SIZE → α)
    (lr : α) (k : Fin NN_OUTPUT_SIZE) : α :=
  nn.biasesO k - lr * d k +
    ∑ i, hiddenAfter nn x d lr i * (nn.weightsHO (idxHO i k) - lr * d k * relu (preAct nn x i))

/-- Squared Euclidean distance of two 9-vectors. -/
def sqDist (a b : Fin NN_OUTPUT_SIZE → α) : α := ∑ k, (a k - b k) ^ 2

/-- Slope at `lr = 0` of logit `k` after one step, for the output errors `d`. -/
def logitSlope (nn : NeuralNetwork α) (x : Fin NN_INPUT_SIZE → α) (d : Fin NN_OUTPUT_SIZE → α)
    (k : Fin NN_OUTPUT_SIZE) : α :=
  -d k - ∑ i, (hiddenErr nn x d i * (1 + ∑ j, x j * x j) * nn.weightsHO (idxHO i k) +
    relu (preAct nn x i) * (d k * relu (preAct nn x i)))

/-- Output `k` on `x` after one step of size `lr`: the softmax of `logitsAfter`, written
without the shift by the maximum. -/
def stepOutputs (exp : α → α) (nn : NeuralNetwork α) (x : Fin NN_INPUT_SIZE → α)
    (d : Fin NN_OUTPUT_SIZE → α) (lr : α) (k : Fin NN_OUTPUT_SIZE) : α :=
  exp (logitsAfter nn x d lr k) / ∑ j, exp (logitsAfter nn x d lr j)

/-- Cross-entropy of the output distribution `o` against the target `t`, for a given
logarithm. -/
def crossEntropy (log : α → α) (t o : Fin NN_OUTPUT_SIZE → α) : α := -∑ k, t k * log (o k)

/-- A 9-vector with value `a` at index 0, `b` at index 1 and `c` elsewhere. -/
def threeCase (a b c : α) : Fin NN_OUTPUT_SIZE → α :=
  fun k => if k.val = 0 then a else if k.val = 1 then b else c

/-- A network with a single active hidden unit (unit 0, bias 1) that feeds output 0 with
weight 10; all other weights are zero and the output biases are `b0`, `b1`, `b2, …, b2`. -/
def descentNet (b0 b1 b2 : α) : NeuralNetwork α :=
  { weightsIH := fun _ => 0
    weightsHO := fun f => if f.val = 0 then 10 else 0
    biasesH := fun i => if i.val = 0 then 1 else 0
    biasesO := threeCase b0 b1 b2
    inputs := fun _ => 0
    hidden := fun _ => 0
    rawLogits := fun _ => 0
    outputs := fun _ => 0 }

/-- The target distribution `(1/20, 3/10, 13/140, …, 13/140)`. -/
def descentTarget : Fin NN_OUTPUT_SIZE → α := threeCase (1 / 20) (3 / 10) (13 / 140)

end StepQuantities

/-! ## Concrete inputs used to instantiate the statements -/

/-- The board `[X,X,.,.,O,.,.,.,.]` with O to move. -/
def sampleState : GameState :=
  { board := boardOf ['X', 'X', '.', '.', 'O', '.', '.', '.', '.'], currentPlayer := 1 }

/-- A network over the rationals with all parameters and buffers zero. -/
def zeroNet : NeuralNetwork ℚ :=
  { weightsIH := fun _ => 0, weightsHO := fun _ => 0, biasesH := fun _ => 0,
    biasesO := fun _ => 0, inputs := fun _ => 0, hidden := fun _ => 0,
    rawLogits := fun _ => 0, outputs := fun _ => 0 }

/-- The history of the game X:0, O:3, X:1, O:4, X:2 (won by X); later entries are unused. -/
def sampleHistory : Fin 9 → Fin 9 := ![0, 3, 1, 4, 2, 5, 6, 7, 8]

/-- Loop variables of `learnFromGame` over the rationals before an iteration. -/
def sampleVars : LearnVars ℚ :=
  { nn := zeroNet, state := sampleState, targetProbs := fun _ => 5 }

/-- A stand-in for `math.Exp` over the rationals: constant, positive. -/
def constExp : ℚ → ℚ := fun _ => 1

/-- A game of `playRandomGame` from the zero network with the draws 4, 3, 5: the start. -/
def sampleGame0 : PlayVars ℚ := playStart zeroNet sampleHistory [4, 3, 5]

/-- The same game after X (random) has placed 4. -/
def sampleGame1 : PlayVars ℚ :=
  { nn := sampleGame0.nn
    state := placeMove sampleGame0.state 4
    moveHistory := Function.update sampleGame0.moveHistory 0 4
    numMoves := 1
    draws := [3, 5] }

/-- The same game after O (network) has placed 0. -/
def sampleGame2 : PlayVars ℚ :=
  { nn := (getComputerMove constExp sampleGame1.state sampleGame1.nn false).1
    state := placeMove sampleGame1.state 0
    moveHistory := Function.update sampleGame1.moveHistory 1 0
    numMoves := 2
    draws := [3, 5] }

/-- The same game after X (random) has placed 3. -/
def sampleGame3 : PlayVars ℚ :=
  { nn := sampleGame2.nn
    state := placeMove sampleGame2.state 3
    moveHistory := Function.update sampleGame2.moveHistory 2 3
    numMoves := 3
    draws := [5] }

/-- The same game after O (network) has placed 1. -/
def sampleGame4 : PlayVars ℚ :=
  { nn := (getComputerMove constExp sampleGame3.state sampleGame3.nn false).1
    state := placeMove sampleGame3.state 1
    moveHistory := Function.update sampleGame3.moveHistory 3 1
    numMoves := 4
    draws := [5] }

/-- The same game after X (random) has placed 5 and won with the middle row. -/
def sampleGame5 : PlayVars ℚ :=
  { nn := sampleGame4.nn
    state := placeMove sampleGame4.state 5
    moveHistory := Function.update sampleGame4.moveHistory 4 5
    numMoves := 5
    draws := [] }

/-! ## Theorems: the terminal check -/
theorem rowCheck_0 (s : GameState) : rowCheck s 0 =
    if s.board 0 ≠ '.' ∧ s.board 0 = s.board 1 ∧ s.board 1 = s.board 2 then some (s.board 0) else none := rfl
theorem rowCheck_1 (s : GameState) : rowCheck s 1 =
    if s.board 3 ≠ '.' ∧ s.board 3 = s.board 4 ∧ s.board 4 = s.board 5 then some (s.board 3) else none := rfl
theorem rowCheck_2 (s : GameState) : rowCheck s 2 =
    if s.board 6 ≠ '.' ∧ s.board 6 = s.board 7 ∧ s.board 7 = s.board 8 then some (s.board 6) else none := rfl
theorem colCheck_0 (s : GameState) : colCheck s 0 =
    if s.board 0 ≠ '.' ∧ s.board 0 = s.board 3 ∧ s.board 3 = s.board 6 then some (s.board 0) else none := rfl
theorem colCheck_1 (s : GameState) : colCheck s 1 =
    if s.board 1 ≠ '.' ∧ s.board 1 = s.board 4 ∧ s.board 4 = s.board 7 then some (s.board 1) else none := rfl
theorem colCheck_2 (s : GameState) : colCheck s 2 =
    if s.board 2 ≠ '.' ∧ s.board 2 = s.board 5 ∧ s.board 5 = s.board 8 then some (s.board 2) else none := rfl

theorem checkGameOver_eq (state : GameState) :
    checkGameOver state =
      if state.board 0 ≠ '.' ∧ state.board 0 = state.board 1 ∧ state.board 1 = state.board 2 then
        some (state.board 0)
      else if state.board 3 ≠ '.' ∧ state.board 3 = state.board 4 ∧ state.board 4 = state.board 5 then
        some (state.board 3)
      else if state.board 6 ≠ '.' ∧ state.board 6 = state.board 7 ∧ state.board 7 = state.board 8 then
        some (state.board 6)
      else if state.board 0 ≠ '.' ∧ state.board 0 = state.board 3 ∧ state.board 3 = state.board 6 then
        some (state.board 0)
      else if state.board 1 ≠ '.' ∧ state.board 1 = state.board 4 ∧ state.board 4 = state.board 7 then
        some (state.board 1)
      else if state.board 2 ≠ '.' ∧ state.board 2 = state.board 5 ∧ state.board 5 = state.board 8 then
        some (state.board 2)
      else if state.board 0 ≠ '.' ∧ state.board 0 = state.board 4 ∧ state.board 4 = state.board 8 then
        some (state.board 0)
      else if state.board 2 ≠ '.' ∧ state.board 2 = state.board 4 ∧ state.board 4 = state.board 6 then
        some (state.board 2)
      else if emptyTiles state = 0 then some 'T'
      else none := by
  unfold checkGameOver
  rw [show List.finRange 3 = [0, 1, 2] from rfl]
  simp only [List.findSome?, rowCheck_0, rowCheck_1, rowCheck_2, colCheck_0, colCheck_1, colCheck_2]
  by_cases h0 : state.board 0 ≠ '.' ∧ state.board 0 = state.board 1 ∧ state.board 1 = state.board 2
  · simp only [if_pos h0]
  simp only [if_neg h0]
  by_cases h1 : state.board 3 ≠ '.' ∧ state.board 3 = state.board 4 ∧ state.board 4 = state.board 5
  · simp only [if_pos h1]
  simp only [if_neg h1]
  by_cases h2 : state.board 6 ≠ '.' ∧ state.board 6 = state.board 7 ∧ state.board 7 = state.board 8
  · simp only [if_pos h2]
  simp only [if_neg h2]
  by_cases h3 : state.board 0 ≠ '.' ∧ state.board 0 = state.board 3 ∧ state.board 3 = state.board 6
  · simp only [if_pos h3]
  simp only [if_neg h3]
  by_cases h4 : state.board 1 ≠ '.' ∧ state.board 1 = state.board 4 ∧ state.board 4 = state.board 7
  · simp only [if_pos h4]
  simp only [if_neg h4]
  by_cases h5 : state.board 2 ≠ '.' ∧ state.board 2 = state.board 5 ∧ state.board 5 = state.board 8
  · simp only [if_pos h5]
  simp only [if_neg h5]

theorem foldl_count_eq_zero {ι : Type} (p : ι → Prop) [DecidablePred p] (l : List ι) (n : Int)
    (hn : 0 ≤ n) :
    0 ≤ l.foldl (fun n i => if p i then n + 1 else n) n ∧
    (l.foldl (fun n i => if p i then n + 1 else n) n = 0 ↔ n = 0 ∧ ∀ i ∈ l, ¬ p i) := by
  induction l generalizing n with
  | nil => simp [hn]
  | cons a l ih =>
    simp only [List.foldl_cons, List.mem_cons, forall_eq_or_imp]
    by_cases ha : p a
    · have := ih (n + 1) (by omega)
      simp only [if_pos ha]
      refine ⟨this.1, ?_⟩
      rw [this.2]
      constructor
      · rintro ⟨h, -⟩; omega
      · rintro ⟨-, h, -⟩; exact absurd ha h
    · have := ih n hn
      simp only [if_neg ha]
      refine ⟨this.1, ?_⟩
      rw [this.2]
      tauto

theorem emptyTiles_eq_zero (state : GameState) :
    emptyTiles state = 0 ↔ ∀ i, state.board i ≠ '.' := by
  unfold emptyTiles forLoop
  rw [(foldl_count_eq_zero (fun i => state.board i = '.') (List.finRange 9) 0 le_rfl).2]
  simp

theorem hasLine_iff (b : Fin 9 → Char) (s : Char) :
    HasLine b s ↔
      (b 0 = s ∧ b 1 = s ∧ b 2 = s) ∨ (b 3 = s ∧ b 4 = s ∧ b 5 = s) ∨
      (b 6 = s ∧ b 7 = s ∧ b 8 = s) ∨ (b 0 = s ∧ b 3 = s ∧ b 6 = s) ∨
      (b 1 = s ∧ b 4 = s ∧ b 7 = s) ∨ (b 2 = s ∧ b 5 = s ∧ b 8 = s) ∨
      (b 0 = s ∧ b 4 = s ∧ b 8 = s) ∨ (b 2 = s ∧ b 4 = s ∧ b 6 = s) := by
  simp [HasLine, winLines]

theorem lineCond_iff (b : Fin 9 → Char) (x y z : Fin 9) :
    (b x ≠ '.' ∧ b x = b y ∧ b y = b z) ↔ ∃ s, s ≠ '.' ∧ b x = s ∧ b y = s ∧ b z = s := by
  constructor
  · rintro ⟨h1, h2, h3⟩
    exact ⟨b x, h1, rfl, h2.symm, by rw [← h3, ← h2]⟩
  · rintro ⟨s, h1, h2, h3, h4⟩
    subst h2
    exact ⟨h1, h3.symm, by rw [h3, h4]⟩



theorem checkGameOver_find (state : GameState) :
    checkGameOver state =
      match winLines.find? (lineFull state.board) with
      | some l => some (state.board l.1)
      | none => if emptyTiles state = 0 then some 'T' else none := by
  rw [checkGameOver_eq]
  unfold winLines
  simp only [List.find?, lineFull]
  by_cases h0 : state.board 0 ≠ '.' ∧ state.board 0 = state.board 1 ∧ state.board 1 = state.board 2
  · simp only [if_pos h0, decide_eq_true h0]
  simp only [if_neg h0, decide_eq_false h0]
  by_cases h1 : state.board 3 ≠ '.' ∧ state.board 3 = state.board 4 ∧ state.board 4 = state.board 5
  · simp only [if_pos h1, decide_eq_true h1]
  simp only [if_neg h1, decide_eq_false h1]
  by_cases h2 : state.board 6 ≠ '.' ∧ state.board 6 = state.board 7 ∧ state.board 7 = state.board 8
  · simp only [if_pos h2, decide_eq_true h2]
  simp only [if_neg h2, decide_eq_false h2]
  by_cases h3 : state.board 0 ≠ '.' ∧ state.board 0 = state.board 3 ∧ state.board 3 = state.board 6
  · simp only [if_pos h3, decide_eq_true h3]
  simp only [if_neg h3, decide_eq_false h3]
  by_cases h4 : state.board 1 ≠ '.' ∧ state.board 1 = state.board 4 ∧ state.board 4 = state.board 7
  · simp only [if_pos h4, decide_eq_true h4]
  simp only [if_neg h4, decide_eq_false h4]
  by_cases h5 : state.board 2 ≠ '.' ∧ state.board 2 = state.board 5 ∧ state.board 5 = state.board 8
  · simp only [if_pos h5, decide_eq_true h5]
  simp only [if_neg h5, decide_eq_false h5]
  by_cases h6 : state.board 0 ≠ '.' ∧ state.board 0 = state.board 4 ∧ state.board 4 = state.board 8
  · simp only [if_pos h6, decide_eq_true h6]
  simp only [if_neg h6, decide_eq_false h6]
  by_cases h7 : state.board 2 ≠ '.' ∧ state.board 2 = state.board 4 ∧ state.board 4 = state.board 6
  · simp only [if_pos h7, decide_eq_true h7]
  simp only [if_neg h7, decide_eq_false h7]

theorem lineFull_iff (b : Fin 9 → Char) (l : Fin 9 × Fin 9 × Fin 9) :
    lineFull b l = true ↔ ∃ s, s ≠ '.' ∧ b l.1 = s ∧ b l.2.1 = s ∧ b l.2.2 = s := by
  unfold lineFull
  rw [decide_eq_true_iff]
  exact lineCond_iff b l.1 l.2.1 l.2.2

theorem exists_line_iff (b : Fin 9 → Char) :
    (∃ s, s ≠ '.' ∧ HasLine b s) ↔ ∃ l ∈ winLines, lineFull b l = true := by
  simp only [HasLine, lineFull_iff]
  constructor
  · rintro ⟨s, hs, l, hl, h⟩
    exact ⟨l, hl, s, hs, h⟩
  · rintro ⟨l, hl, s, hs, h⟩
    exact ⟨s, hs, l, hl, h⟩

theorem checkGameOver_of_line (state : GameState) (h : ∃ s, s ≠ '.' ∧ HasLine state.board s) :
    ∃ w, w ≠ '.' ∧ HasLine state.board w ∧ checkGameOver state = some w := by
  rw [exists_line_iff] at h
  obtain ⟨l, hl, hfull⟩ := h
  rw [checkGameOver_find]
  cases hf : winLines.find? (lineFull state.board) with
  | none =>
    rw [List.find?_eq_none] at hf
    exact absurd hfull (hf l hl)
  | some l' =>
    have hmem := List.mem_of_find?_eq_some hf
    have hp := List.find?_some hf
    obtain ⟨s, hs, h1, h2, h3⟩ := (lineFull_iff _ _).1 hp
    exact ⟨state.board l'.1, by rw [h1]; exact hs, ⟨l', hmem, rfl, by rw [h2, h1], by rw [h3, h1]⟩, rfl⟩

theorem checkGameOver_of_no_line (state : GameState)
    (h : ¬ ∃ s, s ≠ '.' ∧ HasLine state.board s) :
    checkGameOver state = if ∀ i, state.board i ≠ '.' then some 'T' else none := by
  rw [exists_line_iff] at h
  rw [checkGameOver_find]
  have hf : winLines.find? (lineFull state.board) = none := by
    rw [List.find?_eq_none]
    intro l hl hfull
    exact h ⟨l, hl, hfull⟩
  rw [hf]
  simp only [emptyTiles_eq_zero]

theorem hasLine_symbol {b : Fin 9 → Char} (hv : ValidBoard b) {w : Char} (h : HasLine b w) :
    w = '.' ∨ w = 'X' ∨ w = 'O' := by
  obtain ⟨l, -, h1, -⟩ := h
  rw [← h1]
  exact hv l.1

/-- C1: on a board of '.', 'X', 'O' cells, `checkGameOver` reports a winner 'X' or 'O'
exactly when some row, column or diagonal holds three equal non-empty symbols, and the
reported winner is the symbol of such a line; it reports the tie 'T' exactly when there is no
such line and no empty cell; it returns false exactly in the remaining case.  The board
`[X,X,.,.,O,.,.,.,.]` is not over, placing X at cell 2 makes X the winner, and a full board
without a line is a tie. -/
theorem checkGameOver_spec :
    (∀ state : GameState, ValidBoard state.board →
      ((∃ w, (w = 'X' ∨ w = 'O') ∧ checkGameOver state = some w) ↔
          ∃ s, s ≠ '.' ∧ HasLine state.board s) ∧
      (∀ w, (w = 'X' ∨ w = 'O') → checkGameOver state = some w → HasLine state.board w) ∧
      (checkGameOver state = some 'T' ↔
          (¬ ∃ s, s ≠ '.' ∧ HasLine state.board s) ∧ ∀ i, state.board i ≠ '.') ∧
      (checkGameOver state = none ↔
          (¬ ∃ s, s ≠ '.' ∧ HasLine state.board s) ∧ ∃ i, state.board i = '.')) ∧
    checkGameOver ⟨boardOf ['X', 'X', '.', '.', 'O', '.', '.', '.', '.'], 0⟩ = none ∧
    checkGameOver
      ⟨Function.update (boardOf ['X', 'X', '.', '.', 'O', '.', '.', '.', '.']) 2 'X', 1⟩ =
        some 'X' ∧
    checkGameOver ⟨boardOf ['X', 'O', 'X', 'X', 'O', 'O', 'O', 'X', 'X'], 1⟩ = some 'T' := by
  refine ⟨?_, by decide, by decide, by decide⟩
  intro state hv
  by_cases hline : ∃ s, s ≠ '.' ∧ HasLine state.board s
  · obtain ⟨w, hw, hl, hres⟩ := checkGameOver_of_line state hline
    have hxo : w = 'X' ∨ w = 'O' := by
      rcases hasLine_symbol hv hl with h | h
      · exact absurd h hw
      · exact h
    have hT : w ≠ 'T' := by
      rcases hxo with h | h <;> rw [h] <;> decide
    rw [hres]
    refine ⟨⟨fun _ => hline, fun _ => ⟨w, hxo, rfl⟩⟩, ?_, ?_, ?_⟩
    · intro w' _ hw'
      rw [← Option.some.inj hw']
      exact hl
    · constructor
      · intro h
        exact absurd (Option.some.inj h) hT
      · intro h
        exact absurd hline h.1
    · constructor
      · intro h
        exact absurd h (by simp)
      · intro h
        exact absurd hline h.1
  · rw [checkGameOver_of_no_line state hline]
    by_cases hfull : ∀ i, state.board i ≠ '.'
    · rw [if_pos hfull]
      refine ⟨⟨?_, fun h => absurd h hline⟩, ?_, ?_, ?_⟩
      · rintro ⟨w, hw, h⟩
        have := Option.some.inj h
        rcases hw with hw | hw <;> rw [hw] at this <;> exact absurd this (by decide)
      · intro w hw h
        have := Option.some.inj h
        rcases hw with hw | hw <;> rw [hw] at this <;> exact absurd this (by decide)
      · exact ⟨fun _ => ⟨hline, hfull⟩, fun _ => rfl⟩
      · constructor
        · intro h
          exact absurd h (by simp)
        · rintro ⟨-, i, hi⟩
          exact absurd hi (hfull i)
    · rw [if_neg hfull]
      refine ⟨⟨?_, fun h => absurd h hline⟩, ?_, ?_, ?_⟩
      · rintro ⟨w, -, h⟩
        exact absurd h (by simp)
      · intro w _ h
        exact absurd h (by simp)
      · constructor
        · intro h
          exact absurd h (by simp)
        · intro h
          exact absurd h.2 hfull
      · refine ⟨fun _ => ⟨hline, ?_⟩, fun _ => rfl⟩
        by_contra hne
        exact hfull (fun i hi => hne ⟨i, hi⟩)

theorem checkGameOver_spec_witness :
    ValidBoard (boardOf ['X', 'X', 'X', '.', 'O', '.', 'O', '.', '.']) ∧
      ((∃ w, (w = 'X' ∨ w = 'O') ∧
          checkGameOver ⟨boardOf ['X', 'X', 'X', '.', 'O', '.', 'O', '.', '.'], 1⟩ = some w) ↔
        ∃ s, s ≠ '.' ∧ HasLine (boardOf ['X', 'X', 'X', '.', 'O', '.', 'O', '.', '.']) s) :=
  ⟨by decide,
    (checkGameOver_spec.1 ⟨boardOf ['X', 'X', 'X', '.', 'O', '.', 'O', '.', '.'], 1⟩
      (by decide)).1⟩


/-! ## Theorems: the board encoding -/

theorem update_pair_apply {α : Type} (inputs : Fin 18 → α) (a : Fin 9) (u v : α) (x : Fin 18) :
    Function.update (Function.update inputs ⟨a.val * 2, by omega⟩ u)
      ⟨a.val * 2 + 1, by omega⟩ v x =
      if x.val = a.val * 2 + 1 then v else if x.val = a.val * 2 then u else inputs x := by
  simp only [Function.update_apply, Fin.ext_iff]

section Encoding

variable {α : Type} [LinearOrderedField α]

theorem forLoop_eq_foldl {σ : Type} (n : Nat) (body : Fin n → σ → σ) (init : σ) :
    forLoop n body init = (List.finRange n).foldl (fun s i => body i s) init := rfl

theorem encode_foldl (state : GameState) (l : List (Fin 9)) (inputs : Fin 18 → α) (x : Fin 18) :
    (l.foldl (fun (inputs : Fin 18 → α) (i : Fin 9) =>
      if state.board i = '.' then
        Function.update (Function.update inputs ⟨i.val * 2, by omega⟩ 0)
          ⟨i.val * 2 + 1, by omega⟩ 0
      else if state.board i = 'X' then
        Function.update (Function.update inputs ⟨i.val * 2, by omega⟩ 1)
          ⟨i.val * 2 + 1, by omega⟩ 0
      else
        Function.update (Function.update inputs ⟨i.val * 2, by omega⟩ 0)
          ⟨i.val * 2 + 1, by omega⟩ 1) inputs) x =
      if (⟨x.val / 2, by omega⟩ : Fin 9) ∈ l then
        (if x.val % 2 = 0 then (if state.board ⟨x.val / 2, by omega⟩ = 'X' then 1 else 0)
         else (if state.board ⟨x.val / 2, by omega⟩ = '.' then 0
           else if state.board ⟨x.val / 2, by omega⟩ = 'X' then 0 else 1))
      else inputs x := by
  induction l generalizing inputs with
  | nil => simp
  | cons a l ih =>
    rw [List.foldl_cons, ih]
    by_cases hmem : (⟨x.val / 2, by omega⟩ : Fin 9) ∈ l
    · simp only [hmem, if_true, List.mem_cons, or_true]
    · simp only [hmem, if_false, List.mem_cons, or_false]
      by_cases hxa : (⟨x.val / 2, by omega⟩ : Fin 9) = a
      · have hv : x.val / 2 = a.val := congrArg Fin.val hxa
        rw [if_pos hxa, hxa]
        by_cases hdot : state.board a = '.'
        · have hX : state.board a ≠ 'X' := by rw [hdot]; decide
          simp only [if_pos hdot, if_neg hX, update_pair_apply]
          split_ifs <;> first | rfl | omega
        · by_cases hX : state.board a = 'X'
          · simp only [if_neg hdot, if_pos hX, update_pair_apply]
            split_ifs <;> first | rfl | omega
          · simp only [if_neg hdot, if_neg hX, update_pair_apply]
            split_ifs <;> first | rfl | omega
      · rw [if_neg hxa]
        have hv : x.val / 2 ≠ a.val := fun h => hxa (Fin.ext h)
        split_ifs <;> rw [update_pair_apply] <;> split_ifs <;> first | rfl | omega

theorem boardToInputs_apply (state : GameState) (inputs : Fin 18 → α) (x : Fin 18) :
    boardToInputs state inputs x =
      if x.val % 2 = 0 then (if state.board ⟨x.val / 2, by omega⟩ = 'X' then 1 else 0)
      else (if state.board ⟨x.val / 2, by omega⟩ = '.' then 0
        else if state.board ⟨x.val / 2, by omega⟩ = 'X' then 0 else 1) := by
  unfold boardToInputs
  rw [forLoop_eq_foldl, encode_foldl, if_pos (List.mem_finRange _)]

theorem initGame_board (state : GameState) (i : Fin 9) : (initGame state).board i = '.' := by
  unfold initGame
  simp only [forLoop_eq_foldl]
  have key : ∀ (l : List (Fin 9)) (b : Fin 9 → Char),
      (l.foldl (fun (board : Fin 9 → Char) (i : Fin 9) => Function.update board i '.') b) i =
        if i ∈ l then '.' else b i := by
    intro l
    induction l with
    | nil => intro b; simp
    | cons a l ih =>
      intro b
      rw [List.foldl_cons, ih]
      by_cases hmem : i ∈ l
      · simp [hmem]
      · by_cases hia : i = a
        · subst hia
          simp [hmem]
        · simp [hmem, hia, Function.update_apply]
  rw [key, if_pos (List.mem_finRange i)]

theorem boardToInputs_even (state : GameState) (inputs : Fin 18 → α) (i : Fin 9) :
    boardToInputs state inputs ⟨i.val * 2, by omega⟩ =
      if state.board i = 'X' then 1 else 0 := by
  have hdiv : (⟨i.val * 2 / 2, by omega⟩ : Fin 9) = i := Fin.ext (by simp only []; omega)
  have hm : i.val * 2 % 2 = 0 := by omega
  rw [boardToInputs_apply]
  simp only [Fin.val_mk, if_pos hm, hdiv]

theorem boardToInputs_odd (state : GameState) (inputs : Fin 18 → α) (i : Fin 9) :
    boardToInputs state inputs ⟨i.val * 2 + 1, by omega⟩ =
      if state.board i = '.' then 0 else if state.board i = 'X' then 0 else 1 := by
  have hdiv : (⟨(i.val * 2 + 1) / 2, by omega⟩ : Fin 9) = i := Fin.ext (by simp only []; omega)
  have hm : ¬ (i.val * 2 + 1) % 2 = 0 := by omega
  rw [boardToInputs_apply]
  simp only [Fin.val_mk, if_neg hm, hdiv]

theorem boardToInputs_cell (state : GameState) (inputs : Fin 18 → α) (i : Fin 9) :
    (state.board i = '.' →
      boardToInputs state inputs ⟨i.val * 2, by omega⟩ = 0 ∧
      boardToInputs state inputs ⟨i.val * 2 + 1, by omega⟩ = 0) ∧
    (state.board i = 'X' →
      boardToInputs state inputs ⟨i.val * 2, by omega⟩ = 1 ∧
      boardToInputs state inputs ⟨i.val * 2 + 1, by omega⟩ = 0) ∧
    (state.board i = 'O' →
      boardToInputs state inputs ⟨i.val * 2, by omega⟩ = 0 ∧
      boardToInputs state inputs ⟨i.val * 2 + 1, by omega⟩ = 1) := by
  refine ⟨?_, ?_, ?_⟩
  · intro h
    rw [boardToInputs_even, boardToInputs_odd, h]
    simp
  · intro h
    rw [boardToInputs_even, boardToInputs_odd, h]
    simp
  · intro h
    rw [boardToInputs_even, boardToInputs_odd, h]
    simp

/-- C5: for every cell `i`, `boardToInputs` writes the pair `(inputs[2i], inputs[2i+1])` as
`(0,0)` when the cell is '.', `(1,0)` when it is 'X' and `(0,1)` when it is 'O'; on a board of
'.', 'X', 'O' cells every one of the 18 written values is 0 or 1 and no pair is `(1,1)`. -/
theorem boardToInputs_pairs (state : GameState) (inputs : Fin 18 → α) :
    (∀ i : Fin 9,
      (state.board i = '.' →
        boardToInputs state inputs ⟨i.val * 2, by omega⟩ = 0 ∧
        boardToInputs state inputs ⟨i.val * 2 + 1, by omega⟩ = 0) ∧
      (state.board i = 'X' →
        boardToInputs state inputs ⟨i.val * 2, by omega⟩ = 1 ∧
        boardToInputs state inputs ⟨i.val * 2 + 1, by omega⟩ = 0) ∧
      (state.board i = 'O' →
        boardToInputs state inputs ⟨i.val * 2, by omega⟩ = 0 ∧
        boardToInputs state inputs ⟨i.val * 2 + 1, by omega⟩ = 1)) ∧
    (ValidBoard state.board →
      (∀ x : Fin 18, boardToInputs state inputs x = 0 ∨ boardToInputs state inputs x = 1) ∧
      ∀ i : Fin 9, ¬ (boardToInputs state inputs ⟨i.val * 2, by omega⟩ = 1 ∧
        boardToInputs state inputs ⟨i.val * 2 + 1, by omega⟩ = 1)) := by
  refine ⟨fun i => boardToInputs_cell state inputs i, ?_⟩
  intro _
  constructor
  · intro x
    rw [boardToInputs_apply]
    split_ifs <;> simp
  · intro i
    rw [boardToInputs_even, boardToInputs_odd]
    split_ifs <;> simp

theorem boardToInputs_pairs_witness :
    (boardOf ['X', 'X', '.', '.', 'O', '.', '.', '.', '.']) 4 = 'O' ∧
      (boardToInputs (⟨boardOf ['X', 'X', '.', '.', 'O', '.', '.', '.', '.'], 0⟩ : GameState)
          (fun _ => (0 : ℚ)) ⟨8, by omega⟩ = 0 ∧
        boardToInputs (⟨boardOf ['X', 'X', '.', '.', 'O', '.', '.', '.', '.'], 0⟩ : GameState)
          (fun _ => (0 : ℚ)) ⟨9, by omega⟩ = 1) :=
  ⟨by decide,
    ((boardToInputs_pairs ⟨boardOf ['X', 'X', '.', '.', 'O', '.', '.', '.', '.'], 0⟩
      (fun _ => (0 : ℚ))).1 4).2.2 (by decide)⟩

/-- C6: `boardToInputs` is injective on boards of '.', 'X', 'O' cells (two such boards that
differ in some cell are encoded to different 18-vectors, whatever the buffers held before), and
the empty board produced by `initGame` is encoded to the all-zero vector. -/
theorem boardToInputs_injective :
    (∀ (s t : GameState) (inputs inputs2 : Fin 18 → α),
      ValidBoard s.board → ValidBoard t.board → (∃ i, s.board i ≠ t.board i) →
        boardToInputs s inputs ≠ boardToInputs t inputs2) ∧
    (∀ (state : GameState) (inputs : Fin 18 → α),
      boardToInputs (initGame state) inputs = fun _ => 0) := by
  constructor
  · intro s t inputs inputs2 hs ht hdiff heq
    obtain ⟨i, hi⟩ := hdiff
    have hsP := boardToInputs_cell s inputs i
    have htP := boardToInputs_cell t inputs2 i
    rw [heq] at hsP
    have h01 : (0 : α) ≠ 1 := zero_ne_one
    rcases hs i with h1 | h1 | h1 <;> rcases ht i with h2 | h2 | h2
    · exact hi (h1.trans h2.symm)
    · exact h01 ((hsP.1 h1).1.symm.trans (htP.2.1 h2).1)
    · exact h01 ((hsP.1 h1).2.symm.trans (htP.2.2 h2).2)
    · exact h01 ((htP.1 h2).1.symm.trans (hsP.2.1 h1).1)
    · exact hi (h1.trans h2.symm)
    · exact h01 ((htP.2.2 h2).1.symm.trans (hsP.2.1 h1).1)
    · exact h01 ((htP.1 h2).2.symm.trans (hsP.2.2 h1).2)
    · exact h01 ((hsP.2.2 h1).1.symm.trans (htP.2.1 h2).1)
    · exact hi (h1.trans h2.symm)
  · intro state inputs
    funext x
    rw [boardToInputs_apply]
    have hd : ¬ ('.' = 'X') := by decide
    simp only [initGame_board, if_true, if_neg hd, ite_self]

theorem boardToInputs_injective_witness :
    ValidBoard (boardOf ['X', 'X', '.', '.', 'O', '.', '.', '.', '.']) ∧
      ValidBoard (boardOf ['X', 'X', 'X', '.', 'O', '.', '.', '.', '.']) ∧
      boardToInputs (⟨boardOf ['X', 'X', '.', '.', 'O', '.', '.', '.', '.'], 0⟩ : GameState)
          (fun _ => (0 : ℚ)) ≠
        boardToInputs (⟨boardOf ['X', 'X', 'X', '.', 'O', '.', '.', '.', '.'], 1⟩ : GameState)
          (fun _ => (0 : ℚ)) :=
  ⟨by decide, by decide,
    (boardToInputs_injective (α := ℚ)).1
      ⟨boardOf ['X', 'X', '.', '.', 'O', '.', '.', '.', '.'], 0⟩
      ⟨boardOf ['X', 'X', 'X', '.', 'O', '.', '.', '.', '.'], 1⟩
      (fun _ => 0) (fun _ => 0) (by decide) (by decide) ⟨2, by decide⟩⟩

end Encoding

/-! ## Theorems: move selection -/

section Selection

variable {α : Type} [LinearOrderedField α]

theorem scanMoves_eq (state : GameState) (outputs : Fin 9 → α) :
    scanMoves state outputs =
      (List.finRange 9).foldl (fun s i => scanStep state outputs i s)
        { highestProb := -1, highestProbIdx := -1, bestMove := -1, bestLegalProb := -1 } := rfl

theorem scanStep_best (state : GameState) (outputs : Fin 9 → α) (i : Fin 9) (s : MoveScan α) :
    ((scanStep state outputs i s).bestMove =
        if state.board i = '.' ∧ (s.bestMove = -1 ∨ outputs i > s.bestLegalProb) then
          (i.val : Int) else s.bestMove) ∧
    ((scanStep state outputs i s).bestLegalProb =
        if state.board i = '.' ∧ (s.bestMove = -1 ∨ outputs i > s.bestLegalProb) then
          outputs i else s.bestLegalProb) := by
  unfold scanStep
  by_cases h1 : outputs i > s.highestProb <;>
    by_cases h2 : state.board i = '.' ∧ (s.bestMove = -1 ∨ outputs i > s.bestLegalProb) <;>
    simp only [h1, h2, if_true, if_false, and_self]

theorem scanInv_foldl (state : GameState) (outputs : Fin 9 → α) (l : List (Fin 9))
    (hl : l.Pairwise (fun a b => a < b)) :
    ScanInv state outputs l
      (l.foldl (fun s i => scanStep state outputs i s)
        { highestProb := -1, highestProbIdx := -1, bestMove := -1, bestLegalProb := -1 }) := by
  induction l using List.reverseRecOn with
  | nil => exact Or.inl ⟨rfl, fun i hi => absurd hi (List.not_mem_nil i)⟩
  | append_singleton l a ih =>
    rw [List.pairwise_append] at hl
    obtain ⟨hl1, -, hlt⟩ := hl
    have hlt2 : ∀ x ∈ l, x < a := fun x hx => hlt x hx a (List.mem_singleton.2 rfl)
    rw [List.foldl_append, List.foldl_cons, List.foldl_nil]
    generalize l.foldl (fun s i => scanStep state outputs i s)
      { highestProb := -1, highestProbIdx := -1, bestMove := -1, bestLegalProb := -1 } = s at ih ⊢
    have ih2 := ih hl1
    obtain ⟨hbm, hbp⟩ := scanStep_best state outputs a s
    unfold ScanInv
    rw [hbm, hbp]
    by_cases ha : state.board a = '.'
    · rcases ih2 with ⟨hm1, hnone⟩ | ⟨m, hm, hml, hmb, hmp, hge, hgt⟩
      · right
        refine ⟨a, ?_, ?_, ha, ?_, ?_, ?_⟩
        · rw [if_pos ⟨ha, Or.inl hm1⟩]
        · simp
        · rw [if_pos ⟨ha, Or.inl hm1⟩]
        · intro i hi hib
          rcases List.mem_append.1 hi with h | h
          · exact absurd hib (hnone i h)
          · rw [List.mem_singleton.1 h]
        · intro i hi hib hia
          rcases List.mem_append.1 hi with h | h
          · exact absurd hib (hnone i h)
          · rw [List.mem_singleton.1 h] at hia
            exact absurd hia (lt_irrefl _)
      · have hne : s.bestMove ≠ -1 := by rw [hm]; omega
        by_cases hgt2 : outputs a > s.bestLegalProb
        · right
          rw [hmp] at hgt2
          refine ⟨a, ?_, ?_, ha, ?_, ?_, ?_⟩
          · rw [if_pos ⟨ha, Or.inr (by rw [hmp]; exact hgt2)⟩]
          · simp
          · rw [if_pos ⟨ha, Or.inr (by rw [hmp]; exact hgt2)⟩]
          · intro i hi hib
            rcases List.mem_append.1 hi with h | h
            · exact le_of_lt (lt_of_le_of_lt (hge i h hib) hgt2)
            · rw [List.mem_singleton.1 h]
          · intro i hi hib hia
            rcases List.mem_append.1 hi with h | h
            · exact lt_of_le_of_lt (hge i h hib) hgt2
            · have hia2 : i = a := List.mem_singleton.1 h
              rw [hia2] at hia
              exact absurd hia (lt_irrefl _)
        · right
          have hcond : ¬ (state.board a = '.' ∧ (s.bestMove = -1 ∨ outputs a > s.bestLegalProb)) :=
            fun h => h.2.elim hne hgt2
          rw [if_neg hcond, if_neg hcond]
          rw [hmp] at hgt2
          refine ⟨m, hm, List.mem_append.2 (Or.inl hml), hmb, hmp, ?_, ?_⟩
          · intro i hi hib
            rcases List.mem_append.1 hi with h | h
            · exact hge i h hib
            · rw [List.mem_singleton.1 h]
              exact not_lt.1 hgt2
          · intro i hi hib him
            rcases List.mem_append.1 hi with h | h
            · exact hgt i h hib him
            · rw [List.mem_singleton.1 h] at him
              exact absurd (lt_trans him (hlt2 m hml)) (lt_irrefl _)
    · have hcond : ¬ (state.board a = '.' ∧ (s.bestMove = -1 ∨ outputs a > s.bestLegalProb)) :=
        fun h => ha h.1
      rw [if_neg hcond, if_neg hcond]
      rcases ih2 with ⟨hm1, hnone⟩ | ⟨m, hm, hml, hmb, hmp, hge, hgt⟩
      · left
        refine ⟨hm1, ?_⟩
        intro i hi
        rcases List.mem_append.1 hi with h | h
        · exact hnone i h
        · rw [List.mem_singleton.1 h]
          exact ha
      · right
        refine ⟨m, hm, List.mem_append.2 (Or.inl hml), hmb, hmp, ?_, ?_⟩
        · intro i hi hib
          rcases List.mem_append.1 hi with h | h
          · exact hge i h hib
          · rw [List.mem_singleton.1 h] at hib
            exact absurd hib ha
        · intro i hi hib him
          rcases List.mem_append.1 hi with h | h
          · exact hgt i h hib him
          · rw [List.mem_singleton.1 h] at hib
            exact absurd hib ha

theorem scanMoves_inv (state : GameState) (outputs : Fin 9 → α) :
    ScanInv state outputs (List.finRange 9) (scanMoves state outputs) := by
  rw [scanMoves_eq]
  exact scanInv_foldl state outputs (List.finRange 9) (by decide)

/-- C3: `getComputerMove` never returns an occupied cell: it returns -1, and then the board
has no '.' cell, or it returns an index in 0..8 whose cell is '.'. -/
theorem getComputerMove_legal (exp : α → α) (state : GameState) (nn : NeuralNetwork α)
    (displayProbs : Bool) :
    ((getComputerMove exp state nn displayProbs).2 = -1 ∧ ∀ i, state.board i ≠ '.') ∨
    ∃ m : Fin 9, (getComputerMove exp state nn displayProbs).2 = (m.val : Int) ∧
      state.board m = '.' := by
  have h := scanMoves_inv state
    (forwardPass exp nn (boardToInputs state (fun _ => 0))).outputs
  unfold getComputerMove
  rcases h with ⟨h1, h2⟩ | ⟨m, hm, -, hmb, -⟩
  · exact Or.inl ⟨h1, fun i => h2 i (List.mem_finRange i)⟩
  · exact Or.inr ⟨m, hm, hmb⟩

/-- C4: on a board with an empty cell, the move `m` returned by `getComputerMove` is an empty
cell whose output probability (of the forward pass on the encoded board) is at least that of
every empty cell and strictly larger than that of every empty cell of smaller index. -/
theorem getComputerMove_argmax (exp : α → α) (state : GameState) (nn : NeuralNetwork α)
    (displayProbs : Bool) (hempty : ∃ i, state.board i = '.') :
    (getComputerMove exp state nn displayProbs).1 =
        forwardPass exp nn (boardToInputs state (fun _ => 0)) ∧
    ∃ m : Fin 9, (getComputerMove exp state nn displayProbs).2 = (m.val : Int) ∧
      state.board m = '.' ∧
      (∀ i, state.board i = '.' →
        (getComputerMove exp state nn displayProbs).1.outputs i ≤
          (getComputerMove exp state nn displayProbs).1.outputs m) ∧
      (∀ i, state.board i = '.' → i < m →
        (getComputerMove exp state nn displayProbs).1.outputs i <
          (getComputerMove exp state nn displayProbs).1.outputs m) := by
  have h := scanMoves_inv state
    (forwardPass exp nn (boardToInputs state (fun _ => 0))).outputs
  refine ⟨rfl, ?_⟩
  unfold getComputerMove
  rcases h with ⟨-, h2⟩ | ⟨m, hm, -, hmb, -, hge, hgt⟩
  · obtain ⟨i, hi⟩ := hempty
    exact absurd hi (h2 i (List.mem_finRange i))
  · exact ⟨m, hm, hmb, fun i hi => hge i (List.mem_finRange i) hi,
      fun i hi him => hgt i (List.mem_finRange i) hi him⟩

theorem getComputerMove_argmax_witness :
    (∃ i, sampleState.board i = '.') ∧
      ((getComputerMove (fun _ => (1 : ℚ)) sampleState zeroNet false).1 =
          forwardPass (fun _ => (1 : ℚ)) zeroNet (boardToInputs sampleState (fun _ => 0)) ∧
        ∃ m : Fin 9, (getComputerMove (fun _ => (1 : ℚ)) sampleState zeroNet false).2 =
            (m.val : Int) ∧
          sampleState.board m = '.' ∧
          (∀ i, sampleState.board i = '.' →
            (getComputerMove (fun _ => (1 : ℚ)) sampleState zeroNet false).1.outputs i ≤
              (getComputerMove (fun _ => (1 : ℚ)) sampleState zeroNet false).1.outputs m) ∧
          (∀ i, sampleState.board i = '.' → i < m →
            (getComputerMove (fun _ => (1 : ℚ)) sampleState zeroNet false).1.outputs i <
              (getComputerMove (fun _ => (1 : ℚ)) sampleState zeroNet false).1.outputs m)) :=
  ⟨⟨2, by decide⟩,
    getComputerMove_argmax (fun _ => (1 : ℚ)) sampleState zeroNet false ⟨2, by decide⟩⟩

end Selection

/-! ## Theorems: softmax and the forward pass -/

section Softmax

variable {α : Type} [LinearOrderedField α]

theorem foldl_update_each {ι β : Type} [DecidableEq ι] (g : ι → β → β) (l : List ι)
    (hl : l.Nodup) (o : ι → β) (x : ι) :
    (l.foldl (fun (o : ι → β) i => Function.update o i (g i (o i))) o) x =
      if x ∈ l then g x (o x) else o x := by
  induction l generalizing o with
  | nil => simp
  | cons a l ih =>
    rw [List.nodup_cons] at hl
    rw [List.foldl_cons, ih hl.2]
    by_cases hxa : x = a
    · subst hxa
      simp [hl.1]
    · by_cases hxl : x ∈ l
      · simp [hxl, hxa, Function.update_apply]
      · simp [hxl, hxa, Function.update_apply]

theorem softmaxExps_foldl (exp : α → α) {size : Nat} (maxVal : α) (input : Fin size → α)
    (l : List (Fin size)) (p : (Fin size → α) × α) :
    (l.foldl (fun (p : (Fin size → α) × α) i =>
        ((Function.update p.1 i (exp (input i - maxVal)),
          p.2 + Function.update p.1 i (exp (input i - maxVal)) i) : (Fin size → α) × α)) p) =
      ((fun x => if x ∈ l then exp (input x - maxVal) else p.1 x),
        p.2 + (l.map (fun i => exp (input i - maxVal))).sum) := by
  induction l generalizing p with
  | nil => simp
  | cons a l ih =>
    rw [List.foldl_cons, ih]
    refine Prod.ext ?_ ?_
    · funext x
      by_cases hxl : x ∈ l
      · simp [hxl]
      · by_cases hxa : x = a
        · subst hxa
          simp [hxl]
        · simp [hxl, hxa, Function.update_apply]
    · simp only [Function.update_same, List.map_cons, List.sum_cons]
      ring

theorem softmaxExps_eq (exp : α → α) {size : Nat} (maxVal : α) (input output : Fin size → α) :
    softmaxExps exp maxVal input output =
      ((fun x => exp (input x - maxVal)), ∑ i, exp (input i - maxVal)) := by
  unfold softmaxExps
  rw [forLoop_eq_foldl]
  have h := softmaxExps_foldl exp maxVal input (List.finRange size) (output, 0)
  simp only [List.mem_finRange, if_true, zero_add] at h
  rw [Fin.sum_univ_def]
  exact h

/-- With a positive exponential the sum of exponentials is positive, so `softmax` divides:
each output is the exponential of the shifted logit over the sum. -/
theorem softmax_apply (exp : α → α) (hexp : ∀ x, 0 < exp x) {size : Nat} (hsize : 0 < size)
    (input output : Fin size → α) (k : Fin size) :
    0 < ∑ i, exp (input i - softmaxMax hsize input) ∧
    softmax exp hsize input output k =
      exp (input k - softmaxMax hsize input) / ∑ i, exp (input i - softmaxMax hsize input) := by
  have hpos : 0 < ∑ i, exp (input i - softmaxMax hsize input) := by
    haveI : Nonempty (Fin size) := ⟨⟨0, hsize⟩⟩
    exact Finset.sum_pos (fun i _ => hexp _) Finset.univ_nonempty
  refine ⟨hpos, ?_⟩
  unfold softmax
  simp only [softmaxExps_eq]
  rw [if_pos hpos, forLoop_eq_foldl]
  rw [foldl_update_each (fun _ v => v / ∑ i, exp (input i - softmaxMax hsize input))
    (List.finRange size) (List.nodup_finRange size)]
  rw [if_pos (List.mem_finRange k)]

theorem softmax_distribution (exp : α → α) (hexp : ∀ x, 0 < exp x) {size : Nat}
    (hsize : 0 < size) (input output : Fin size → α) :
    (∀ k, 0 ≤ softmax exp hsize input output k) ∧
    ∑ k, softmax exp hsize input output k = 1 := by
  have hpos := (softmax_apply exp hexp hsize input output ⟨0, hsize⟩).1
  constructor
  · intro k
    rw [(softmax_apply exp hexp hsize input output k).2]
    exact le_of_lt (div_pos (hexp _) hpos)
  · simp only [(softmax_apply exp hexp hsize input output _).2]
    rw [← Finset.sum_div]
    exact div_self (ne_of_gt hpos)

theorem forwardPass_outputs (exp : α → α) (nn : NeuralNetwork α)
    (inputs : Fin NN_INPUT_SIZE → α) :
    (forwardPass exp nn inputs).outputs =
      softmax exp (by decide) (forwardPass exp nn inputs).rawLogits nn.outputs := rfl

/-- C2: over the reals, with `math.Exp` the real exponential, for every choice of network
parameters and every 18-element input vector the 9 entries of `nn.outputs` after
`forwardPass` are non-negative and sum to exactly 1; likewise `softmax` applied to any 9 real
logits yields a probability distribution. -/
theorem forwardPass_distribution :
    (∀ (nn : NeuralNetwork ℝ) (inputs : Fin NN_INPUT_SIZE → ℝ),
      (∀ k, 0 ≤ (forwardPass Real.exp nn inputs).outputs k) ∧
      ∑ k, (forwardPass Real.exp nn inputs).outputs k = 1) ∧
    (∀ (logits output : Fin 9 → ℝ),
      (∀ k, 0 ≤ softmax Real.exp (by decide) logits output k) ∧
      ∑ k, softmax Real.exp (by decide) logits output k = 1) := by
  constructor
  · intro nn inputs
    rw [forwardPass_outputs]
    exact softmax_distribution Real.exp Real.exp_pos _ _ _
  · intro logits output
    exact softmax_distribution Real.exp Real.exp_pos _ _ _

end Softmax

/-! ## Theorems: backpropagation -/

section Backprop

variable {α : Type} [LinearOrderedField α]

theorem foldl_add_eq_sum {ι : Type} (f : ι → α) (l : List ι) (init : α) :
    l.foldl (fun s j => s + f j) init = init + (l.map f).sum := by
  induction l generalizing init with
  | nil => simp
  | cons a l ih =>
    rw [List.foldl_cons, ih, List.map_cons, List.sum_cons]
    ring

theorem forLoop_add_eq_sum {n : Nat} (f : Fin n → α) (init : α) :
    forLoop n (fun j s => s + f j) init = init + ∑ j, f j := by
  rw [forLoop_eq_foldl, foldl_add_eq_sum, Fin.sum_univ_def]

theorem forLoop_update_each {n : Nat} {β : Type} (g : Fin n → β → β) (o : Fin n → β)
    (x : Fin n) :
    forLoop n (fun i (o : Fin n → β) => Function.update o i (g i (o i))) o x = g x (o x) := by
  rw [forLoop_eq_foldl, foldl_update_each g _ (List.nodup_finRange n),
    if_pos (List.mem_finRange x)]

theorem foldl_update_row {ι κ β : Type} [DecidableEq κ] (f : ι → κ)
    (hf : ∀ a b, f a = f b → a = b) (g : ι → β → β) (l : List ι) (hl : l.Nodup)
    (w : κ → β) :
    (∀ a ∈ l, (l.foldl (fun (w : κ → β) j => Function.update w (f j) (g j (w (f j)))) w) (f a) =
      g a (w (f a))) ∧
    (∀ y, (∀ a ∈ l, f a ≠ y) →
      (l.foldl (fun (w : κ → β) j => Function.update w (f j) (g j (w (f j)))) w) y = w y) := by
  induction l generalizing w with
  | nil =>
    exact ⟨fun a ha => absurd ha (List.not_mem_nil a), fun y _ => rfl⟩
  | cons b l ih =>
    rw [List.nodup_cons] at hl
    obtain ⟨ih1, ih2⟩ := ih hl.2 (Function.update w (f b) (g b (w (f b))))
    constructor
    · intro a ha
      rw [List.foldl_cons]
      rcases List.mem_cons.1 ha with hab | hal
      · subst hab
        rw [ih2 (f a) (fun c hc hfc => hl.1 (by rw [← hf c a hfc]; exact hc))]
        rw [Function.update_same]
      · rw [ih1 a hal]
        have hne : f a ≠ f b := fun h => hl.1 (by rw [← hf a b h]; exact hal)
        rw [Function.update_noteq hne]
    · intro y hy
      rw [List.foldl_cons, ih2 y (fun a ha => hy a (List.mem_cons_of_mem b ha))]
      exact Function.update_noteq (fun h => hy b (List.mem_cons_self b l) h.symm) _ _

theorem foldl_update_grid {ι₁ ι₂ κ β : Type} [DecidableEq κ] [DecidableEq ι₁] (idx : ι₁ → ι₂ → κ)
    (hidx : ∀ i j i2 j2, idx i j = idx i2 j2 → i = i2 ∧ j = j2) (g : ι₁ → ι₂ → β → β)
    (l₂ : List ι₂) (h₂ : l₂.Nodup) (hall : ∀ j, j ∈ l₂) (l₁ : List ι₁) (h₁ : l₁.Nodup)
    (w : κ → β) (i : ι₁) (j : ι₂) :
    (l₁.foldl (fun (w : κ → β) a =>
      l₂.foldl (fun (w : κ → β) b => Function.update w (idx a b) (g a b (w (idx a b)))) w) w)
        (idx i j) =
      if i ∈ l₁ then g i j (w (idx i j)) else w (idx i j) := by
  induction l₁ generalizing w with
  | nil => simp
  | cons a l ih =>
    rw [List.nodup_cons] at h₁
    rw [List.foldl_cons, ih h₁.2]
    obtain ⟨r1, r2⟩ := foldl_update_row (idx a) (fun b c h => (hidx a b a c h).2) (g a) l₂ h₂ w
    by_cases hia : i = a
    · subst hia
      rw [if_neg h₁.1, if_pos (List.mem_cons_self i l)]
      exact r1 j (hall j)
    · have hne : ∀ b ∈ l₂, idx a b ≠ idx i j := fun b _ h => hia (hidx a b i j h).1.symm
      rw [r2 (idx i j) hne]
      by_cases hil : i ∈ l
      · rw [if_pos hil, if_pos (List.mem_cons_of_mem a hil)]
      · rw [if_neg hil, if_neg (fun h => (List.mem_cons.1 h).elim hia hil)]

theorem forLoop_update_grid {n₁ n₂ : Nat} {κ β : Type} [DecidableEq κ]
    (idx : Fin n₁ → Fin n₂ → κ)
    (hidx : ∀ i j i2 j2, idx i j = idx i2 j2 → i = i2 ∧ j = j2) (g : Fin n₁ → Fin n₂ → β → β)
    (w : κ → β) (i : Fin n₁) (j : Fin n₂) :
    forLoop n₁ (fun a (w : κ → β) =>
      forLoop n₂ (fun b (w : κ → β) => Function.update w (idx a b) (g a b (w (idx a b)))) w) w
        (idx i j) = g i j (w (idx i j)) := by
  simp only [forLoop_eq_foldl]
  rw [foldl_update_grid idx hidx g _ (List.nodup_finRange n₂) List.mem_finRange _
    (List.nodup_finRange n₁), if_pos (List.mem_finRange i)]

theorem idxHO_inj (i : Fin NN_HIDDEN_SIZE) (j : Fin NN_OUTPUT_SIZE) (i2 : Fin NN_HIDDEN_SIZE)
    (j2 : Fin NN_OUTPUT_SIZE) (h : idxHO i j = idxHO i2 j2) : i = i2 ∧ j = j2 := by
  have h2 := congrArg Fin.val h
  have hj := j.isLt
  have hj2 := j2.isLt
  simp only [idxHO, NN_OUTPUT_SIZE] at h2 hj hj2
  constructor <;> apply Fin.ext <;> omega

theorem idxIH_inj (i : Fin NN_INPUT_SIZE) (j : Fin NN_HIDDEN_SIZE) (i2 : Fin NN_INPUT_SIZE)
    (j2 : Fin NN_HIDDEN_SIZE) (h : idxIH i j = idxIH i2 j2) : i = i2 ∧ j = j2 := by
  have h2 := congrArg Fin.val h
  have hj := j.isLt
  have hj2 := j2.isLt
  simp only [idxIH, NN_HIDDEN_SIZE] at h2 hj hj2
  constructor <;> apply Fin.ext <;> omega

theorem hiddenSum_eq (nn : NeuralNetwork α) (inputs : Fin NN_INPUT_SIZE → α)
    (i : Fin NN_HIDDEN_SIZE) :
    hiddenSum nn inputs i = nn.biasesH i + ∑ j, inputs j * nn.weightsIH (idxIH j i) := by
  unfold hiddenSum
  exact forLoop_add_eq_sum _ _

theorem forwardPass_hidden (exp : α → α) (nn : NeuralNetwork α)
    (inputs : Fin NN_INPUT_SIZE → α) (i : Fin NN_HIDDEN_SIZE) :
    (forwardPass exp nn inputs).hidden i = relu (hiddenSum nn inputs i) := by
  unfold forwardPass
  exact forLoop_update_each (fun i _ => relu (hiddenSum nn inputs i)) nn.hidden i

theorem reluDerivative_relu (x : α) :
    reluDerivative (relu x) = if x > 0 then 1 else 0 := by
  unfold reluDerivative relu
  by_cases h : x > 0
  · simp only [if_pos h]
  · simp only [if_neg h, gt_iff_lt, lt_self_iff_false, if_false]

theorem outputDeltas_apply (nn : NeuralNetwork α) (targetProbs : Fin NN_OUTPUT_SIZE → α)
    (rewardScaling : α) (k : Fin NN_OUTPUT_SIZE) :
    outputDeltas nn targetProbs rewardScaling k =
      (nn.outputs k - targetProbs k) * |rewardScaling| := by
  unfold outputDeltas
  exact forLoop_update_each (fun i _ => (nn.outputs i - targetProbs i) * |rewardScaling|) _ k

theorem hiddenDeltas_apply (nn : NeuralNetwork α) (d : Fin NN_OUTPUT_SIZE → α)
    (i : Fin NN_HIDDEN_SIZE) :
    hiddenDeltas nn d i =
      (∑ k, d k * nn.weightsHO (idxHO i k)) * reluDerivative (nn.hidden i) := by
  unfold hiddenDeltas
  rw [forLoop_update_each (fun i _ =>
    forLoop NN_OUTPUT_SIZE (fun j error => error + d j * nn.weightsHO (idxHO i j)) 0 *
      reluDerivative (nn.hidden i)) _ i]
  rw [forLoop_add_eq_sum, zero_add]

theorem backprop_weightsHO (nn : NeuralNetwork α) (t : Fin NN_OUTPUT_SIZE → α) (lr r : α)
    (i : Fin NN_HIDDEN_SIZE) (k : Fin NN_OUTPUT_SIZE) :
    (backprop nn t lr r).weightsHO (idxHO i k) =
      nn.weightsHO (idxHO i k) - lr * outputDeltas nn t r k * nn.hidden i := by
  unfold backprop
  exact forLoop_update_grid idxHO idxHO_inj
    (fun i j v => v - lr * outputDeltas nn t r j * nn.hidden i) nn.weightsHO i k

theorem backprop_biasesO (nn : NeuralNetwork α) (t : Fin NN_OUTPUT_SIZE → α) (lr r : α)
    (k : Fin NN_OUTPUT_SIZE) :
    (backprop nn t lr r).biasesO k = nn.biasesO k - lr * outputDeltas nn t r k := by
  unfold backprop
  exact forLoop_update_each (fun j v => v - lr * outputDeltas nn t r j) nn.biasesO k

theorem backprop_weightsIH (nn : NeuralNetwork α) (t : Fin NN_OUTPUT_SIZE → α) (lr r : α)
    (j : Fin NN_INPUT_SIZE) (i : Fin NN_HIDDEN_SIZE) :
    (backprop nn t lr r).weightsIH (idxIH j i) =
      nn.weightsIH (idxIH j i) -
        lr * hiddenDeltas nn (outputDeltas nn t r) i * nn.inputs j := by
  unfold backprop
  exact forLoop_update_grid idxIH idxIH_inj
    (fun a b v => v - lr * hiddenDeltas nn (outputDeltas nn t r) b * nn.inputs a)
    nn.weightsIH j i

theorem backprop_biasesH (nn : NeuralNetwork α) (t : Fin NN_OUTPUT_SIZE → α) (lr r : α)
    (i : Fin NN_HIDDEN_SIZE) :
    (backprop nn t lr r).biasesH i =
      nn.biasesH i - lr * hiddenDeltas nn (outputDeltas nn t r) i := by
  unfold backprop
  exact forLoop_update_each (fun j v => v - lr * hiddenDeltas nn (outputDeltas nn t r) j)
    nn.biasesH i

theorem idxHO_surj (f : Fin (NN_HIDDEN_SIZE * NN_OUTPUT_SIZE)) : ∃ i k, idxHO i k = f := by
  have hf := f.isLt
  simp only [NN_HIDDEN_SIZE, NN_OUTPUT_SIZE] at hf
  refine ⟨⟨f.val / 9, by simp only [NN_HIDDEN_SIZE]; omega⟩,
    ⟨f.val % 9, by simp only [NN_OUTPUT_SIZE]; omega⟩, ?_⟩
  apply Fin.ext
  simp only [idxHO, NN_OUTPUT_SIZE]
  omega

theorem idxIH_surj (f : Fin (NN_INPUT_SIZE * NN_HIDDEN_SIZE)) : ∃ j i, idxIH j i = f := by
  have hf := f.isLt
  simp only [NN_INPUT_SIZE, NN_HIDDEN_SIZE] at hf
  refine ⟨⟨f.val / 100, by simp only [NN_INPUT_SIZE]; omega⟩,
    ⟨f.val % 100, by simp only [NN_HIDDEN_SIZE]; omega⟩, ?_⟩
  apply Fin.ext
  simp only [idxIH, NN_HIDDEN_SIZE]
  omega

/-- C9: `backprop` after a `forwardPass` is the specified single gradient step.  With
`d k = (outputs[k] - target[k]) * |r|` and `e i = (∑ k, d k * W_HO[i,k]) * g i`, the weights
`W_HO` being those before the update and `g i` being 1 when the pre-activation
`biasesH[i] + ∑ j, inputs[j] * W_IH[j,i]` of that forward pass was positive and 0 otherwise, the
new parameters are `W_HO[i,k] - lr * d k * hidden[i]`, `biasesO[k] - lr * d k`,
`W_IH[j,i] - lr * e i * inputs[j]` and `biasesH[i] - lr * e i`.  The forward pass leaves the
four parameter arrays as they were, caches the inputs, and caches the ReLU of the
pre-activation as `hidden`; every entry of the two weight arrays is some `W[i,k]`. -/
theorem backprop_gradient_step (exp : α → α) (nn : NeuralNetwork α)
    (x : Fin NN_INPUT_SIZE → α) (t : Fin NN_OUTPUT_SIZE → α) (lr r : α) :
    (∀ i k, (backprop (forwardPass exp nn x) t lr r).weightsHO (idxHO i k) =
      nn.weightsHO (idxHO i k) -
        lr * (((forwardPass exp nn x).outputs k - t k) * |r|) * (forwardPass exp nn x).hidden i) ∧
    (∀ k, (backprop (forwardPass exp nn x) t lr r).biasesO k =
      nn.biasesO k - lr * (((forwardPass exp nn x).outputs k - t k) * |r|)) ∧
    (∀ j i, (backprop (forwardPass exp nn x) t lr r).weightsIH (idxIH j i) =
      nn.weightsIH (idxIH j i) -
        lr * ((∑ k, (((forwardPass exp nn x).outputs k - t k) * |r|) * nn.weightsHO (idxHO i k)) *
          (if nn.biasesH i + ∑ j, x j * nn.weightsIH (idxIH j i) > 0 then 1 else 0)) * x j) ∧
    (∀ i, (backprop (forwardPass exp nn x) t lr r).biasesH i =
      nn.biasesH i -
        lr * ((∑ k, (((forwardPass exp nn x).outputs k - t k) * |r|) * nn.weightsHO (idxHO i k)) *
          (if nn.biasesH i + ∑ j, x j * nn.weightsIH (idxIH j i) > 0 then 1 else 0))) ∧
    ((forwardPass exp nn x).weightsIH = nn.weightsIH ∧
      (forwardPass exp nn x).weightsHO = nn.weightsHO ∧
      (forwardPass exp nn x).biasesH = nn.biasesH ∧
      (forwardPass exp nn x).biasesO = nn.biasesO ∧
      (forwardPass exp nn x).inputs = x ∧
      ∀ i, (forwardPass exp nn x).hidden i =
        relu (nn.biasesH i + ∑ j, x j * nn.weightsIH (idxIH j i))) ∧
    (∀ f : Fin (NN_HIDDEN_SIZE * NN_OUTPUT_SIZE), ∃ i k, idxHO i k = f) ∧
    (∀ f : Fin (NN_INPUT_SIZE * NN_HIDDEN_SIZE), ∃ j i, idxIH j i = f) := by
  have hhid : ∀ i, (forwardPass exp nn x).hidden i =
      relu (nn.biasesH i + ∑ j, x j * nn.weightsIH (idxIH j i)) := fun i => by
    rw [forwardPass_hidden, hiddenSum_eq]
  have hdelta : ∀ i, hiddenDeltas (forwardPass exp nn x)
      (outputDeltas (forwardPass exp nn x) t r) i =
        (∑ k, (((forwardPass exp nn x).outputs k - t k) * |r|) * nn.weightsHO (idxHO i k)) *
          (if nn.biasesH i + ∑ j, x j * nn.weightsIH (idxIH j i) > 0 then 1 else 0) := by
    intro i
    rw [hiddenDeltas_apply, hhid, reluDerivative_relu]
    simp only [outputDeltas_apply]
    rfl
  refine ⟨?_, ?_, ?_, ?_, ⟨rfl, rfl, rfl, rfl, rfl, hhid⟩, idxHO_surj, idxIH_surj⟩
  · intro i k
    rw [backprop_weightsHO, outputDeltas_apply]
    rfl
  · intro k
    rw [backprop_biasesO, outputDeltas_apply]
    rfl
  · intro j i
    rw [backprop_weightsIH, hdelta]
    rfl
  · intro i
    rw [backprop_biasesH, hdelta]
    rfl

/-- C10: the reward enters `backprop` only through its magnitude: called with `r` and with
`-r` it produces the same network (the same four parameter arrays), each output-layer error
is `(outputs[k] - target[k]) * |r|`, these errors are the ones the four arrays returned by
`backprop` are updated with, and the step `backprop` takes on every entry of every
parameter array is `|r|` times the step it takes with reward 1. -/
theorem backprop_reward_sign (nn : NeuralNetwork α) (t : Fin NN_OUTPUT_SIZE → α) (lr r : α) :
    backprop nn t lr r = backprop nn t lr (-r) ∧
    (backprop nn t lr r).weightsIH = (backprop nn t lr (-r)).weightsIH ∧
    (backprop nn t lr r).weightsHO = (backprop nn t lr (-r)).weightsHO ∧
    (backprop nn t lr r).biasesH = (backprop nn t lr (-r)).biasesH ∧
    (backprop nn t lr r).biasesO = (backprop nn t lr (-r)).biasesO ∧
    (∀ k, outputDeltas nn t r k = (nn.outputs k - t k) * |r|) ∧
    (∀ k, outputDeltas nn t (-r) k = (nn.outputs k - t k) * |r|) ∧
    (∀ k, (backprop nn t lr r).biasesO k =
      nn.biasesO k - lr * ((nn.outputs k - t k) * |r|)) ∧
    (∀ i k, (backprop nn t lr r).weightsHO (idxHO i k) =
      nn.weightsHO (idxHO i k) - lr * ((nn.outputs k - t k) * |r|) * nn.hidden i) ∧
    (∀ i, (backprop nn t lr r).biasesH i =
      nn.biasesH i - lr * ((∑ k, (nn.outputs k - t k) * |r| * nn.weightsHO (idxHO i k)) *
        reluDerivative (nn.hidden i))) ∧
    (∀ j i, (backprop nn t lr r).weightsIH (idxIH j i) =
      nn.weightsIH (idxIH j i) -
        lr * ((∑ k, (nn.outputs k - t k) * |r| * nn.weightsHO (idxHO i k)) *
          reluDerivative (nn.hidden i)) * nn.inputs j) ∧
    (∀ k, (backprop nn t lr r).biasesO k - nn.biasesO k =
      |r| * ((backprop nn t lr 1).biasesO k - nn.biasesO k)) ∧
    (∀ f, (backprop nn t lr r).weightsHO f - nn.weightsHO f =
      |r| * ((backprop nn t lr 1).weightsHO f - nn.weightsHO f)) ∧
    (∀ i, (backprop nn t lr r).biasesH i - nn.biasesH i =
      |r| * ((backprop nn t lr 1).biasesH i - nn.biasesH i)) ∧
    (∀ f, (backprop nn t lr r).weightsIH f - nn.weightsIH f =
      |r| * ((backprop nn t lr 1).weightsIH f - nn.weightsIH f)) := by
  have h : backprop nn t lr r = backprop nn t lr (-r) := by
    unfold backprop outputDeltas
    simp only [abs_neg]
  have hhid : ∀ (s : α) (i : Fin NN_HIDDEN_SIZE), hiddenDeltas nn (outputDeltas nn t s) i =
      (∑ k, (nn.outputs k - t k) * |s| * nn.weightsHO (idxHO i k)) *
        reluDerivative (nn.hidden i) := by
    intro s i
    rw [hiddenDeltas_apply]
    simp only [outputDeltas_apply]
  have hscale : ∀ i : Fin NN_HIDDEN_SIZE,
      (∑ k, (nn.outputs k - t k) * |r| * nn.weightsHO (idxHO i k)) =
        |r| * ∑ k, (nn.outputs k - t k) * |(1 : α)| * nn.weightsHO (idxHO i k) := by
    intro i
    rw [Finset.mul_sum]
    refine Finset.sum_congr rfl (fun k _ => ?_)
    rw [abs_one]
    ring
  refine ⟨h, by rw [h], by rw [h], by rw [h], by rw [h], fun k => outputDeltas_apply nn t r k,
    fun k => ?_, fun k => ?_, fun i k => ?_, fun i => ?_, fun j i => ?_, fun k => ?_,
    fun f => ?_, fun i => ?_, fun f => ?_⟩
  · rw [outputDeltas_apply, abs_neg]
  · rw [backprop_biasesO, outputDeltas_apply]
  · rw [backprop_weightsHO, outputDeltas_apply]
  · rw [backprop_biasesH, hhid]
  · rw [backprop_weightsIH, hhid]
  · rw [backprop_biasesO, backprop_biasesO, outputDeltas_apply, outputDeltas_apply, abs_one]
    ring
  · obtain ⟨i, k, rfl⟩ := idxHO_surj f
    rw [backprop_weightsHO, backprop_weightsHO, outputDeltas_apply, outputDeltas_apply, abs_one]
    ring
  · rw [backprop_biasesH, backprop_biasesH, hhid, hhid, hscale]
    ring
  · obtain ⟨j, i, rfl⟩ := idxIH_surj f
    rw [backprop_weightsIH, backprop_weightsIH, hhid, hhid, hscale]
    ring

end Backprop

/-! ## Theorems: learning from a finished game -/

section LearningFacts

variable {α : Type} [LinearOrderedField α]

/-- C7: the terminal reward of `learnFromGame` is +1.0 when the winner is the learner's
symbol, -2.0 when it is the opponent's symbol and +0.3 when it is 'T'; the learner's symbol
is 'O' when `nnMovesEven` is true and 'X' when it is false; this reward is the one every
iteration of the loop of `learnFromGame` receives. -/
theorem reward_spec :
    nnSymbol true = 'O' ∧ nnSymbol false = 'X' ∧
    (∀ e : Bool, (reward e (nnSymbol e) : α) = 1) ∧
    (∀ e : Bool, (reward e (nnSymbol (!e)) : α) = -2) ∧
    (∀ e : Bool, (reward e 'T' : α) = 3 / 10) ∧
    (∀ (exp : α → α) (nn : NeuralNetwork α) (moveHistory : Fin 9 → Fin 9) (numMoves : Nat)
      (hnum : numMoves ≤ 9) (e : Bool) (winner : Char),
      learnFromGame exp nn moveHistory numMoves hnum e winner =
        (forLoop numMoves (fun moveIdx v =>
          learnStep exp moveHistory numMoves e (reward e winner) (Fin.castLE hnum moveIdx) v)
          { nn := nn
            state := { board := fun _ => Char.ofNat 0, currentPlayer := 0 }
            targetProbs := fun _ => 0 }).nn) := by
  refine ⟨rfl, rfl, ?_, ?_, ?_, fun _ _ _ _ _ _ _ => rfl⟩
  · intro e
    cases e <;> simp [reward, nnSymbol] <;> norm_num
  · intro e
    cases e <;> simp [reward, nnSymbol] <;> norm_num
  · intro e
    simp [reward]
    norm_num

theorem reward_spec_witness :
    (5 ≤ 9) ∧
      learnFromGame (fun _ => (1 : ℚ)) zeroNet sampleHistory 5 (by decide) true 'X' =
        (forLoop 5 (fun moveIdx v =>
          learnStep (fun _ => (1 : ℚ)) sampleHistory 5 true (reward true 'X')
            (Fin.castLE (by decide) moveIdx) v)
          { nn := zeroNet
            state := { board := fun _ => Char.ofNat 0, currentPlayer := 0 }
            targetProbs := fun _ => 0 }).nn :=
  ⟨by decide,
    (@reward_spec ℚ _).2.2.2.2.2 (fun _ => (1 : ℚ)) zeroNet sampleHistory 5 (by decide) true 'X'⟩

theorem replay_foldl_empty {ι : Type} (h : ι → Fin 9) (sym : ι → Char)
    (hsym : ∀ i, sym i ≠ '.') (l : List ι) (st : GameState) (c : Fin 9) :
    (l.foldl (fun (st : GameState) i =>
        ({ st with board := Function.update st.board (h i) (sym i) } : GameState)) st).board c =
        '.' ↔
      st.board c = '.' ∧ ∀ i ∈ l, h i ≠ c := by
  induction l generalizing st with
  | nil => simp
  | cons a l ih =>
    rw [List.foldl_cons, ih]
    simp only [List.mem_cons, forall_eq_or_imp]
    by_cases hac : h a = c
    · subst hac
      simp [hsym a]
    · simp [Function.update_noteq (Ne.symm hac), hac]

theorem replayBoard_empty_iff (st : GameState) (h : Fin 9 → Fin 9) (m c : Fin 9) :
    (replayBoard st h m).board c = '.' ↔ ∀ i : Fin 9, i.val < m.val → h i ≠ c := by
  unfold replayBoard
  rw [forLoop_eq_foldl]
  have key := replay_foldl_empty (fun i : Fin m.val => h ⟨i.val, by omega⟩)
    (fun i : Fin m.val => if i.val % 2 = 1 then 'O' else 'X')
    (fun i => by dsimp only; split_ifs <;> decide) (List.finRange m.val) (initGame st) c
  refine key.trans ?_
  simp only [initGame_board, true_and, List.mem_finRange, forall_true_left]
  constructor
  · intro hall i hi
    exact hall ⟨i.val, hi⟩
  · intro hall i
    exact hall ⟨i.val, by omega⟩ i.isLt

theorem foldl_cond_update {n : Nat} {β : Type} (p : Fin n → Prop) [DecidablePred p] (v : β)
    (l : List (Fin n)) (t : Fin n → β) (c : Fin n) :
    (l.foldl (fun (t : Fin n → β) i => if p i then Function.update t i v else t) t) c =
      if c ∈ l ∧ p c then v else t c := by
  induction l generalizing t with
  | nil => simp
  | cons a l ih =>
    rw [List.foldl_cons, ih]
    by_cases hcl : c ∈ l
    · by_cases hp : p c
      · simp [hcl, hp]
      · by_cases hca : c = a
        · subst hca
          simp [hp]
        · by_cases hpa : p a
          · simp [hp, hpa, Function.update_noteq hca]
          · simp [hp, hpa]
    · by_cases hca : c = a
      · subst hca
        by_cases hp : p c
        · simp [hcl, hp]
        · simp [hcl, hp]
      · by_cases hpa : p a
        · simp [hcl, hca, hpa, Function.update_noteq hca]
        · simp [hcl, hca, hpa]

theorem card_other_empty (h : Fin 9 → Fin 9) (m : Fin 9)
    (hinj : ∀ a b : Fin 9, a.val ≤ m.val → b.val ≤ m.val → h a = h b → a = b)
    (board : Fin 9 → Char)
    (hboard : ∀ c, board c = '.' ↔ ∀ i : Fin 9, i.val < m.val → h i ≠ c) :
    (Finset.univ.filter (fun c => board c = '.' ∧ c ≠ h m)).card + (m.val + 1) = 9 := by
  have hset : Finset.univ.filter (fun c => board c = '.' ∧ c ≠ h m) =
      ((Finset.Iic m).image h)ᶜ := by
    ext c
    simp only [Finset.mem_filter, Finset.mem_univ, true_and, Finset.mem_compl,
      Finset.mem_image, Finset.mem_Iic, not_exists, not_and, hboard]
    constructor
    · rintro ⟨h1, h2⟩ i hi hic
      rcases lt_or_eq_of_le (Fin.le_def.1 hi) with hlt | heq
      · exact h1 i hlt hic
      · have : i = m := Fin.ext heq
        rw [this] at hic
        exact h2 hic.symm
    · intro hall
      refine ⟨fun i hi => hall i (Fin.le_def.2 (le_of_lt hi)), fun hc => hall m le_rfl hc.symm⟩
  have hcard : ((Finset.Iic m).image h).card = m.val + 1 := by
    rw [Finset.card_image_of_injOn, Fin.card_Iic]
    intro a ha b hb hab
    have ha2 := Finset.mem_Iic.1 (Finset.mem_coe.1 ha)
    have hb2 := Finset.mem_Iic.1 (Finset.mem_coe.1 hb)
    exact hinj a b (Fin.le_def.1 ha2) (Fin.le_def.1 hb2) hab
  rw [hset, Finset.card_compl, hcard, Fintype.card_fin]
  have := m.isLt
  omega

theorem moveImportance_pos (moveIdx numMoves : Nat) :
    (0 : α) < moveImportance moveIdx numMoves := by
  unfold moveImportance
  have h1 : (0 : α) ≤ 0.5 * (moveIdx : α) / (numMoves : α) :=
    div_nonneg (mul_nonneg (by norm_num) (Nat.cast_nonneg _)) (Nat.cast_nonneg _)
  have h2 : (0 : α) < 0.5 := by norm_num
  linarith

theorem buildTarget_neg (targetProbs : Fin NN_OUTPUT_SIZE → α) (state : GameState)
    (move : Fin 9) (moveIdx : Nat) (scaledReward : α) (hneg : scaledReward < 0) (c : Fin 9) :
    buildTarget targetProbs state move moveIdx scaledReward c =
      if state.board c = '.' ∧ c ≠ move then
        1 / (((9 - (moveIdx : Int) - 1 : Int)) : α) else 0 := by
  unfold buildTarget
  rw [if_neg (not_le.2 hneg)]
  simp only [forLoop_eq_foldl]
  rw [foldl_cond_update (fun i => state.board i = '.' ∧ i ≠ move)]
  rw [← forLoop_eq_foldl, forLoop_update_each (fun _ _ => (0 : α))]
  simp only [List.mem_finRange, true_and]
  norm_num

/-- C8: for a history of `numMoves ≤ 9` pairwise distinct cells that the learner lost
(`nnMovesEven = true`, negative reward) and an odd move index `k < numMoves`, the target that
the iteration of `learnFromGame` passes to `backprop` is 0 on the move taken, 0 on every cell
occupied before that move, and `1 / N` on each other empty cell, `N` being the number of
those cells; the divisor `9 - k - 1` equals `N` and is at least 1, and the nine entries are
non-negative and sum to 1. -/
theorem loss_target (exp : α → α) (moveHistory : Fin 9 → Fin 9) (numMoves : Nat)
    (hnum : numMoves ≤ 9)
    (hdistinct : ∀ a b : Fin 9, a.val < numMoves → b.val < numMoves →
      moveHistory a = moveHistory b → a = b)
    (winner : Char) (hlost : (reward true winner : α) < 0)
    (k : Fin numMoves) (hodd : k.val % 2 = 1) (v : LearnVars α)
    (state : GameState) (hstate : state = replayBoard v.state moveHistory (Fin.castLE hnum k))
    (scaledReward : α)
    (hscaled : scaledReward = reward true winner * moveImportance k.val numMoves)
    (target : Fin 9 → α)
    (htarget : target = buildTarget v.targetProbs state (moveHistory (Fin.castLE hnum k))
      k.val scaledReward) :
    (learnStep exp moveHistory numMoves true (reward true winner) (Fin.castLE hnum k) v).nn =
      backprop (forwardPass exp v.nn (boardToInputs state (fun _ => 0))) target
        LEARNING_RATE scaledReward ∧
    target (moveHistory (Fin.castLE hnum k)) = 0 ∧
    (∀ i : Fin 9, i.val < k.val → state.board (moveHistory i) ≠ '.' ∧
      target (moveHistory i) = 0) ∧
    (∀ c, state.board c ≠ '.' → target c = 0) ∧
    (∀ c, state.board c = '.' → c ≠ moveHistory (Fin.castLE hnum k) →
      target c = 1 / (((Finset.univ.filter
        (fun c => state.board c = '.' ∧ c ≠ moveHistory (Fin.castLE hnum k))).card : Nat) : α)) ∧
    ((9 : Int) - (k.val : Int) - 1 = (((Finset.univ.filter
        (fun c => state.board c = '.' ∧ c ≠ moveHistory (Fin.castLE hnum k))).card : Nat) : Int)) ∧
    1 ≤ (Finset.univ.filter
        (fun c => state.board c = '.' ∧ c ≠ moveHistory (Fin.castLE hnum k))).card ∧
    (∀ c, 0 ≤ target c) ∧
    ∑ c, target c = 1 := by
  have hk := k.isLt
  have hk7 : k.val ≤ 7 := by omega
  have hneg : scaledReward < 0 := by
    rw [hscaled]
    exact mul_neg_of_neg_of_pos hlost (moveImportance_pos _ _)
  have hboard : ∀ c, state.board c = '.' ↔
      ∀ i : Fin 9, i.val < (Fin.castLE hnum k).val → moveHistory i ≠ c := by
    intro c
    rw [hstate]
    exact replayBoard_empty_iff _ _ _ _
  have hcard := card_other_empty moveHistory (Fin.castLE hnum k)
    (fun a b ha hb hab => hdistinct a b
      (lt_of_le_of_lt ha (by simp only [Fin.coe_castLE]; exact hk))
      (lt_of_le_of_lt hb (by simp only [Fin.coe_castLE]; exact hk)) hab)
    state.board hboard
  simp only [Fin.coe_castLE] at hcard hboard
  have hN : ((9 : Int) - (k.val : Int) - 1) = (((Finset.univ.filter
      (fun c => state.board c = '.' ∧ c ≠ moveHistory (Fin.castLE hnum k))).card : Nat) : Int) := by
    omega
  have hN1 : 1 ≤ (Finset.univ.filter
      (fun c => state.board c = '.' ∧ c ≠ moveHistory (Fin.castLE hnum k))).card := by
    omega
  have hval : ∀ c, target c =
      if state.board c = '.' ∧ c ≠ moveHistory (Fin.castLE hnum k) then
        1 / (((Finset.univ.filter
          (fun c => state.board c = '.' ∧ c ≠ moveHistory (Fin.castLE hnum k))).card : Nat) : α)
      else 0 := by
    intro c
    rw [htarget, buildTarget_neg _ _ _ _ _ hneg, hN, Int.cast_natCast]
  have hNpos : (0 : α) < (((Finset.univ.filter
      (fun c => state.board c = '.' ∧ c ≠ moveHistory (Fin.castLE hnum k))).card : Nat) : α) :=
    Nat.cast_pos.2 hN1
  refine ⟨?_, ?_, ?_, ?_, ?_, hN, hN1, ?_, ?_⟩
  · unfold learnStep
    have hl : isLearnerMove true (Fin.castLE hnum k).val = true := by
      simp [isLearnerMove, hodd]
    rw [if_pos hl, htarget, hscaled, hstate]
    rfl
  · rw [hval, if_neg (fun h => h.2 rfl)]
  · intro i hi
    have hocc : state.board (moveHistory i) ≠ '.' := fun h =>
      (hboard (moveHistory i)).1 h i hi rfl
    exact ⟨hocc, by rw [hval, if_neg (fun h => hocc h.1)]⟩
  · intro c hc
    rw [hval, if_neg (fun h => hc h.1)]
  · intro c hc hne
    rw [hval, if_pos ⟨hc, hne⟩]
  · intro c
    rw [hval]
    split_ifs
    · exact le_of_lt (div_pos one_pos hNpos)
    · exact le_rfl
  · simp only [hval]
    rw [Finset.sum_ite, Finset.sum_const_zero, add_zero, Finset.sum_const, nsmul_eq_mul]
    exact mul_one_div_cancel (ne_of_gt hNpos)

theorem loss_target_witness :
    (5 ≤ 9) ∧
    (∀ a b : Fin 9, a.val < 5 → b.val < 5 → sampleHistory a = sampleHistory b → a = b) ∧
    ((reward true 'X' : ℚ) < 0) ∧ ((3 : Fin 5).val % 2 = 1) ∧
    ∑ c, buildTarget sampleVars.targetProbs
      (replayBoard sampleVars.state sampleHistory (Fin.castLE (by decide) (3 : Fin 5)))
      (sampleHistory (Fin.castLE (by decide) (3 : Fin 5))) (3 : Fin 5).val
      (reward true 'X' * moveImportance (3 : Fin 5).val 5) c = (1 : ℚ) :=
  ⟨by decide, by decide,
    by rw [reward, if_neg (by decide), if_neg (by decide)]; norm_num, by decide,
    (loss_target (fun _ => (1 : ℚ)) sampleHistory 5 (by decide) (by decide) 'X'
      (by rw [reward, if_neg (by decide), if_neg (by decide)]; norm_num) (3 : Fin 5)
      (by decide) sampleVars _ rfl _ rfl _
      rfl).2.2.2.2.2.2.2.2⟩

end LearningFacts

/-! ## Theorems: lines completed by a move -/

theorem no_line_of_not_over (state : GameState) (h : checkGameOver state = none) :
    (∀ l ∈ winLines, lineFull state.board l = false) ∧ ∃ i, state.board i = '.' := by
  rw [checkGameOver_find] at h
  cases hf : winLines.find? (lineFull state.board) with
  | some l =>
    rw [hf] at h
    exact absurd h (by simp)
  | none =>
    rw [hf] at h
    rw [List.find?_eq_none] at hf
    constructor
    · intro l hl
      exact Bool.eq_false_iff.2 (hf l hl)
    · by_contra hne
      have hfull : emptyTiles state = 0 :=
        (emptyTiles_eq_zero state).2 (fun i hi => hne ⟨i, hi⟩)
      simp only [hfull, if_true] at h
      exact absurd h (by simp)

theorem lineFull_update (b : Fin 9 → Char) (m : Fin 9) (sym : Char)
    (l : Fin 9 × Fin 9 × Fin 9) (hold : lineFull b l = false)
    (hnew : lineFull (Function.update b m sym) l = true) :
    Function.update b m sym l.1 = sym ∧ (m = l.1 ∨ m = l.2.1 ∨ m = l.2.2) := by
  unfold lineFull at hold hnew
  rw [decide_eq_true_iff] at hnew
  rw [decide_eq_false_iff_not] at hold
  by_cases h1 : m = l.1
  · exact ⟨by rw [← h1, Function.update_same], Or.inl h1⟩
  · by_cases h2 : m = l.2.1
    · refine ⟨?_, Or.inr (Or.inl h2)⟩
      rw [hnew.2.1, ← h2, Function.update_same]
    · by_cases h3 : m = l.2.2
      · refine ⟨?_, Or.inr (Or.inr h3)⟩
        rw [hnew.2.1, hnew.2.2, ← h3, Function.update_same]
      · exfalso
        apply hold
        rw [Function.update_noteq (Ne.symm h1), Function.update_noteq (Ne.symm h2),
          Function.update_noteq (Ne.symm h3)] at hnew
        exact hnew

theorem placeMove_board (state : GameState) (m : Fin 9) :
    (placeMove state m).board =
      Function.update state.board m (if state.currentPlayer = 1 then 'O' else 'X') := rfl

theorem placeMove_lines (state : GameState) (m : Fin 9) (h : checkGameOver state = none)
    (l : Fin 9 × Fin 9 × Fin 9) (hl : l ∈ winLines)
    (hfull : lineFull (placeMove state m).board l = true) :
    (placeMove state m).board l.1 = (if state.currentPlayer = 1 then 'O' else 'X') ∧
      (m = l.1 ∨ m = l.2.1 ∨ m = l.2.2) := by
  rw [placeMove_board] at hfull ⊢
  exact lineFull_update state.board m _ l ((no_line_of_not_over state h).1 l hl) hfull

theorem checkGameOver_lineSymbol (state : GameState) (w : Char)
    (h : checkGameOver state = some w) (hw : w ≠ 'T') :
    ∃ l ∈ winLines, lineFull state.board l = true ∧ state.board l.1 = w := by
  rw [checkGameOver_find] at h
  cases hf : winLines.find? (lineFull state.board) with
  | some l =>
    rw [hf] at h
    exact ⟨l, List.mem_of_find?_eq_some hf, List.find?_some hf, Option.some.inj h⟩
  | none =>
    rw [hf] at h
    simp only [] at h
    split_ifs at h
    exact absurd (Option.some.inj h).symm hw

theorem winner_of_placeMove (state : GameState) (m : Fin 9) (w : Char)
    (h : checkGameOver state = none) (hres : checkGameOver (placeMove state m) = some w)
    (hw : w ≠ 'T') : w = (if state.currentPlayer = 1 then 'O' else 'X') := by
  obtain ⟨l, hl, hfull, hsym⟩ := checkGameOver_lineSymbol _ w hres hw
  rw [← hsym]
  exact (placeMove_lines state m h l hl hfull).1

theorem reachable_lines (state : GameState) (h : Reachable state) :
    ∃ sym : Char, ∃ c : Fin 9, ∀ l ∈ winLines, lineFull state.board l = true →
      state.board l.1 = sym ∧ (c = l.1 ∨ c = l.2.1 ∨ c = l.2.2) := by
  cases h with
  | start =>
    refine ⟨'.', 0, fun l _ hfull => ?_⟩
    unfold lineFull at hfull
    rw [decide_eq_true_iff] at hfull
    exact absurd rfl hfull.1
  | move m _ hnot _ =>
    exact ⟨_, m, fun l hl hfull => placeMove_lines _ m hnot l hl hfull⟩

theorem checkGameOverIn_winLines (state : GameState) :
    checkGameOverIn winLines state = checkGameOver state := by
  rw [checkGameOver_find]
  rfl

theorem checkGameOverIn_perm (state : GameState) (sym : Char)
    (hsame : ∀ l ∈ winLines, lineFull state.board l = true → state.board l.1 = sym)
    (lines : List (Fin 9 × Fin 9 × Fin 9)) (hperm : lines.Perm winLines) :
    checkGameOverIn lines state = checkGameOverIn winLines state := by
  unfold checkGameOverIn
  cases hf : lines.find? (lineFull state.board) with
  | some l =>
    have hl : l ∈ winLines := hperm.mem_iff.1 (List.mem_of_find?_eq_some hf)
    have hfull := List.find?_some hf
    cases hg : winLines.find? (lineFull state.board) with
    | some l2 =>
      have h1 := hsame l hl hfull
      have h2 := hsame l2 (List.mem_of_find?_eq_some hg) (List.find?_some hg)
      simp only [h1, h2]
    | none =>
      rw [List.find?_eq_none] at hg
      exact absurd hfull (hg l hl)
  | none =>
    cases hg : winLines.find? (lineFull state.board) with
    | some l2 =>
      rw [List.find?_eq_none] at hf
      exact absurd (List.find?_some hg)
        (hf l2 (hperm.mem_iff.2 (List.mem_of_find?_eq_some hg)))
    | none => rfl

theorem hasLine_lineFull (b : Fin 9 → Char) (s : Char) (hs : s ≠ '.') (h : HasLine b s) :
    ∃ l ∈ winLines, lineFull b l = true ∧ b l.1 = s := by
  obtain ⟨l, hl, h1, h2, h3⟩ := h
  exact ⟨l, hl, (lineFull_iff b l).2 ⟨s, hs, h1, h2, h3⟩, h1⟩

/-- C12: on every board of a valid game (reached from the empty board by X and O placing
alternately on empty cells, X first, no move being made once `checkGameOver` reports the end),
all lines holding three equal non-empty symbols hold the same symbol, and a terminal check
that examines the eight lines in any other order returns what `checkGameOver` returns. -/
theorem checkGameOver_order_irrelevant (state : GameState) (h : Reachable state) :
    (∀ s1 s2 : Char, s1 ≠ '.' → s2 ≠ '.' → HasLine state.board s1 → HasLine state.board s2 →
      s1 = s2) ∧
    (∀ lines : List (Fin 9 × Fin 9 × Fin 9), lines.Perm winLines →
      checkGameOverIn lines state = checkGameOver state) := by
  obtain ⟨sym, c, hsame⟩ := reachable_lines state h
  constructor
  · intro s1 s2 hs1 hs2 h1 h2
    obtain ⟨l1, hl1, hf1, e1⟩ := hasLine_lineFull _ s1 hs1 h1
    obtain ⟨l2, hl2, hf2, e2⟩ := hasLine_lineFull _ s2 hs2 h2
    rw [← e1, ← e2, (hsame l1 hl1 hf1).1, (hsame l2 hl2 hf2).1]
  · intro lines hperm
    rw [← checkGameOverIn_winLines]
    exact checkGameOverIn_perm state sym (fun l hl hf => (hsame l hl hf).1) lines hperm

theorem reachable_playMoves (state : GameState) (h : Reachable state) (moves : List (Fin 9))
    (hlegal : legalFrom state moves = true) : Reachable (playMoves state moves) := by
  induction moves generalizing state with
  | nil => exact h
  | cons m rest ih =>
    unfold legalFrom at hlegal
    simp only [Bool.and_eq_true, Option.isNone_iff_eq_none, decide_eq_true_eq] at hlegal
    exact ih (placeMove state m) (Reachable.move m h hlegal.1.1 hlegal.1.2) hlegal.2

theorem checkGameOver_order_irrelevant_witness :
    Reachable (playMoves { board := fun _ => '.', currentPlayer := 0 }
        [1, 4, 2, 5, 3, 7, 6, 8, 0]) ∧
      ((∀ s1 s2 : Char, s1 ≠ '.' → s2 ≠ '.' →
        HasLine (playMoves { board := fun _ => '.', currentPlayer := 0 }
          [1, 4, 2, 5, 3, 7, 6, 8, 0]).board s1 →
        HasLine (playMoves { board := fun _ => '.', currentPlayer := 0 }
          [1, 4, 2, 5, 3, 7, 6, 8, 0]).board s2 → s1 = s2) ∧
      (∀ lines : List (Fin 9 × Fin 9 × Fin 9), lines.Perm winLines →
        checkGameOverIn lines (playMoves { board := fun _ => '.', currentPlayer := 0 }
          [1, 4, 2, 5, 3, 7, 6, 8, 0]) =
        checkGameOver (playMoves { board := fun _ => '.', currentPlayer := 0 }
          [1, 4, 2, 5, 3, 7, 6, 8, 0]))) :=
  ⟨reachable_playMoves _ Reachable.start _ (by decide),
    checkGameOver_order_irrelevant _ (reachable_playMoves _ Reachable.start _ (by decide))⟩

/-- C14, as stated, fails: in the valid game X1 O4 X2 O5 X3 O7 X6 O8 X0 the last move
completes the top row and the left column at once, so two lines hold three equal non-empty
symbols. -/
theorem two_lines_reachable :
    ¬ ∀ state : GameState, Reachable state → fullLines state.board ≤ 1 := by
  intro h
  have h2 := h (playMoves { board := fun _ => '.', currentPlayer := 0 }
    [1, 4, 2, 5, 3, 7, 6, 8, 0]) (reachable_playMoves _ Reachable.start _ (by decide))
  revert h2
  decide

/-! ## Theorems: one iteration of the game loop -/

section Turn

variable {α : Type} [LinearOrderedField α]

theorem getRandomMove_some (state : GameState) (draws : List (Fin 9)) (m : Fin 9)
    (rest : List (Fin 9)) (h : getRandomMove state draws = some (m, rest)) :
    state.board m = '.' := by
  induction draws with
  | nil => exact absurd h (by simp [getRandomMove])
  | cons a l ih =>
    unfold getRandomMove at h
    by_cases ha : state.board a = '.'
    · rw [if_pos ha] at h
      have h2 := Option.some.inj h
      rw [← (Prod.mk.inj h2).1]
      exact ha
    · rw [if_neg ha] at h
      exact ih h

theorem getRandomMove_isSome (state : GameState) (draws : List (Fin 9))
    (h : ∃ m ∈ draws, state.board m = '.') : ∃ r, getRandomMove state draws = some r := by
  induction draws with
  | nil =>
    obtain ⟨m, hm, -⟩ := h
    exact absurd hm (List.not_mem_nil m)
  | cons a l ih =>
    unfold getRandomMove
    by_cases ha : state.board a = '.'
    · exact ⟨(a, l), by rw [if_pos ha]⟩
    · rw [if_neg ha]
      obtain ⟨m, hm, hb⟩ := h
      rcases List.mem_cons.1 hm with hma | hml
      · rw [hma] at hb
        exact absurd hb ha
      · exact ih ⟨m, hml, hb⟩

theorem getComputerMove_cell (exp : α → α) (state : GameState) (nn : NeuralNetwork α)
    (displayProbs : Bool) (hempty : ∃ i, state.board i = '.') :
    ∃ m : Fin 9, (getComputerMove exp state nn displayProbs).2 = (m.val : Int) ∧
      state.board m = '.' := by
  have h := scanMoves_inv state
    (forwardPass exp nn (boardToInputs state (fun _ => 0))).outputs
  unfold getComputerMove
  rcases h with ⟨-, h2⟩ | ⟨m, hm, -, hmb, -⟩
  · obtain ⟨i, hi⟩ := hempty
    exact absurd hi (h2 i (List.mem_finRange i))
  · exact ⟨m, hm, hmb⟩

theorem getComputerMove_cell_of_ne (exp : α → α) (state : GameState) (nn : NeuralNetwork α)
    (displayProbs : Bool) (hne : (getComputerMove exp state nn displayProbs).2 ≠ -1) :
    ∃ m : Fin 9, (getComputerMove exp state nn displayProbs).2 = (m.val : Int) ∧
      state.board m = '.' := by
  have h := scanMoves_inv state
    (forwardPass exp nn (boardToInputs state (fun _ => 0))).outputs
  unfold getComputerMove at hne ⊢
  rcases h with ⟨h1, -⟩ | ⟨m, hm, -, hmb, -⟩
  · exact absurd h1 hne
  · exact ⟨m, hm, hmb⟩

theorem playTurn_random (exp : α → α) (v : PlayVars α) (m : Fin 9) (rest : List (Fin 9))
    (hcp : v.state.currentPlayer = 0) (hdraw : getRandomMove v.state v.draws = some (m, rest))
    (hnum : v.numMoves < 9) :
    playTurn exp v = some
      { nn := v.nn
        state := placeMove v.state m
        moveHistory := Function.update v.moveHistory ⟨v.numMoves, hnum⟩ m
        numMoves := v.numMoves + 1
        draws := rest } := by
  unfold playTurn chooseMove
  rw [if_pos hcp, hdraw]
  have hm := m.isLt
  have hmove : (0 : Int) ≤ (m.val : Int) ∧ (m.val : Int) < 9 := by omega
  simp only [dif_pos hmove, dif_pos hnum, Int.toNat_ofNat, Fin.eta]

theorem playTurn_computer (exp : α → α) (v : PlayVars α) (m : Fin 9)
    (hcp : v.state.currentPlayer ≠ 0)
    (hmove : (getComputerMove exp v.state v.nn false).2 = (m.val : Int))
    (hnum : v.numMoves < 9) :
    playTurn exp v = some
      { nn := (getComputerMove exp v.state v.nn false).1
        state := placeMove v.state m
        moveHistory := Function.update v.moveHistory ⟨v.numMoves, hnum⟩ m
        numMoves := v.numMoves + 1
        draws := v.draws } := by
  unfold playTurn chooseMove
  rw [if_neg hcp]
  have hm := m.isLt
  have hmove2 : (0 : Int) ≤ (getComputerMove exp v.state v.nn false).2 ∧
      (getComputerMove exp v.state v.nn false).2 < 9 := by
    rw [hmove]
    omega
  have hfin : ∀ (hlt : (getComputerMove exp v.state v.nn false).2.toNat < 9),
      (⟨(getComputerMove exp v.state v.nn false).2.toNat, hlt⟩ : Fin 9) = m := fun hlt =>
    Fin.ext (by simp only [hmove, Int.toNat_ofNat])
  simp only [dif_pos hmove2, dif_pos hnum, hfin]

theorem playTurn_some (exp : α → α) (v v2 : PlayVars α) (h : playTurn exp v = some v2) :
    ∃ (m : Fin 9) (hnum : v.numMoves < 9), v.state.board m = '.' ∧
      v2.state = placeMove v.state m ∧
      v2.moveHistory = Function.update v.moveHistory ⟨v.numMoves, hnum⟩ m ∧
      v2.numMoves = v.numMoves + 1 := by
  by_cases hcp : v.state.currentPlayer = 0
  · cases hd : getRandomMove v.state v.draws with
    | none =>
      unfold playTurn chooseMove at h
      rw [if_pos hcp, hd] at h
      exact absurd h (by simp)
    | some r =>
      obtain ⟨m, rest⟩ := r
      by_cases hnum : v.numMoves < 9
      · rw [playTurn_random exp v m rest hcp hd hnum] at h
        have h2 := Option.some.inj h
        refine ⟨m, hnum, getRandomMove_some _ _ _ _ hd, ?_, ?_, ?_⟩ <;> rw [← h2]
      · unfold playTurn chooseMove at h
        rw [if_pos hcp, hd] at h
        simp only [dif_neg hnum, dite_eq_ite, ite_self] at h
        exact absurd h (by simp)
  · by_cases hne : (getComputerMove exp v.state v.nn false).2 = -1
    · unfold playTurn chooseMove at h
      rw [if_neg hcp] at h
      have hbad : ¬ ((0 : Int) ≤ (getComputerMove exp v.state v.nn false).2 ∧
          (getComputerMove exp v.state v.nn false).2 < 9) := by
        rw [hne]
        omega
      simp only [dif_neg hbad] at h
      exact absurd h (by simp)
    · obtain ⟨m, hm, hb⟩ := getComputerMove_cell_of_ne exp v.state v.nn false hne
      by_cases hnum : v.numMoves < 9
      · rw [playTurn_computer exp v m hcp hm hnum] at h
        have h2 := Option.some.inj h
        refine ⟨m, hnum, hb, ?_, ?_, ?_⟩ <;> rw [← h2]
      · unfold playTurn chooseMove at h
        rw [if_neg hcp] at h
        simp only [dif_neg hnum, dite_eq_ite, ite_self] at h
        exact absurd h (by simp)

/-- C13: on a board of '.', 'X', 'O' cells that `checkGameOver` does not report as over
there is an empty cell, so `getComputerMove` returns an index in 0..8 of an empty cell and
never -1; the board write of the loop of `playRandomGame` with that move is in range: on
the computer's turn, with room left in the history, the iteration completes and places the
returned move. -/
theorem move_selection_cannot_fail (exp : α → α) (state : GameState) (nn : NeuralNetwork α)
    (displayProbs : Bool) (_hvalid : ValidBoard state.board)
    (hnot : checkGameOver state = none) :
    (∃ i, state.board i = '.') ∧
    (getComputerMove exp state nn displayProbs).2 ≠ -1 ∧
    (0 ≤ (getComputerMove exp state nn displayProbs).2 ∧
      (getComputerMove exp state nn displayProbs).2 < 9) ∧
    (∃ m : Fin 9, (getComputerMove exp state nn displayProbs).2 = (m.val : Int) ∧
      state.board m = '.') ∧
    (∀ (moveHistory : Fin 9 → Fin 9) (numMoves : Nat) (draws : List (Fin 9)),
      state.currentPlayer ≠ 0 → numMoves < 9 →
      ∃ (m : Fin 9) (v2 : PlayVars α),
        (getComputerMove exp state nn false).2 = (m.val : Int) ∧
        playTurn exp
          { nn := nn
            state := state
            moveHistory := moveHistory
            numMoves := numMoves
            draws := draws } = some v2 ∧
        v2.state = placeMove state m) := by
  have hempty := (no_line_of_not_over state hnot).2
  obtain ⟨m, hm, hb⟩ := getComputerMove_cell exp state nn displayProbs hempty
  have hlt := m.isLt
  refine ⟨hempty, by rw [hm]; omega, by rw [hm]; omega, ⟨m, hm, hb⟩, ?_⟩
  intro moveHistory numMoves draws hcp hnum
  obtain ⟨m2, hm2, -⟩ := getComputerMove_cell exp state nn false hempty
  exact ⟨m2, _, hm2,
    playTurn_computer exp
      { nn := nn
        state := state
        moveHistory := moveHistory
        numMoves := numMoves
        draws := draws } m2 hcp hm2 hnum, rfl⟩

theorem move_selection_cannot_fail_witness :
    ValidBoard sampleState.board ∧ checkGameOver sampleState = none ∧
      (getComputerMove (fun _ => (1 : ℚ)) sampleState zeroNet false).2 ≠ -1 :=
  ⟨by decide, by decide,
    (move_selection_cannot_fail (fun _ => (1 : ℚ)) sampleState zeroNet false (by decide)
      (by decide)).2.1⟩

/-- C20: the winner is the side that just moved.  On a board of '.', 'X', 'O' cells that
`checkGameOver` does not report as over, after a symbol `s` among 'X', 'O' is written on an
empty cell every winner other than 'T' that `checkGameOver` reports is `s`; and in the loop
of `playRandomGame` a winner 'O' (the learner) is reported only after an iteration played by
side 1, which places 'O', and a winner 'X' only after an iteration that places 'X'. -/
theorem winner_just_moved :
    (∀ (board : Fin 9 → Char) (cp : Int) (m : Fin 9) (s w : Char),
      ValidBoard board → checkGameOver { board := board, currentPlayer := cp } = none →
      board m = '.' → (s = 'X' ∨ s = 'O') →
      checkGameOver { board := Function.update board m s, currentPlayer := 1 - cp } = some w →
      w ≠ 'T' → w = s) ∧
    (∀ (exp : α → α) (v v2 : PlayVars α) (w : Char), checkGameOver v.state = none →
      playTurn exp v = some v2 → checkGameOver v2.state = some w →
      (w = 'O' → v.state.currentPlayer = 1 ∧
        v2.state.board (v2.moveHistory ⟨v.numMoves % 9, Nat.mod_lt _ (by decide)⟩) = 'O') ∧
      (w = 'X' → v.state.currentPlayer ≠ 1 ∧
        v2.state.board (v2.moveHistory ⟨v.numMoves % 9, Nat.mod_lt _ (by decide)⟩) = 'X')) := by
  constructor
  · intro board cp m s w _ hnot _ _ hres hw
    obtain ⟨l, hl, hfull, hsym⟩ := checkGameOver_lineSymbol _ w hres hw
    rw [← hsym]
    exact (lineFull_update board m s l ((no_line_of_not_over _ hnot).1 l hl) hfull).1
  · intro exp v v2 w hnot hturn hres
    obtain ⟨m, hnum, -, hstate, hhist, -⟩ := playTurn_some exp v v2 hturn
    have hidx : (⟨v.numMoves % 9, Nat.mod_lt _ (by decide)⟩ : Fin 9) = ⟨v.numMoves, hnum⟩ :=
      Fin.ext (Nat.mod_eq_of_lt hnum)
    have hcell : v2.state.board (v2.moveHistory ⟨v.numMoves % 9, Nat.mod_lt _ (by decide)⟩) =
        (if v.state.currentPlayer = 1 then 'O' else 'X') := by
      rw [hidx, hhist, Function.update_same, hstate, placeMove_board, Function.update_same]
    rw [hstate] at hres
    constructor
    · intro hw
      have h := winner_of_placeMove v.state m w hnot hres (by rw [hw]; decide)
      have hcp : v.state.currentPlayer = 1 := by
        by_contra hne
        rw [if_neg hne, hw] at h
        exact absurd h (by decide)
      exact ⟨hcp, by rw [hcell, if_pos hcp]⟩
    · intro hw
      have h := winner_of_placeMove v.state m w hnot hres (by rw [hw]; decide)
      have hcp : v.state.currentPlayer ≠ 1 := by
        intro he
        rw [if_pos he, hw] at h
        exact absurd h (by decide)
      exact ⟨hcp, by rw [hcell, if_neg hcp]⟩

theorem winner_just_moved_witness :
    ValidBoard (boardOf ['X', 'X', '.', '.', 'O', '.', '.', '.', '.']) ∧
      checkGameOver
        { board := boardOf ['X', 'X', '.', '.', 'O', '.', '.', '.', '.']
          currentPlayer := 0 } = none ∧
      checkGameOver
        { board := Function.update (boardOf ['X', 'X', '.', '.', 'O', '.', '.', '.', '.']) 2 'X'
          currentPlayer := 1 - 0 } = some 'X' ∧
      'X' = 'X' :=
  ⟨by decide, by decide, by decide,
    (@winner_just_moved ℚ _).1 (boardOf ['X', 'X', '.', '.', 'O', '.', '.', '.', '.']) 0 2
      'X' 'X' (by decide) (by decide) (by decide) (Or.inl rfl) (by decide) (by decide)⟩

end Turn

/-! ## Theorems: the invariant of the game loop -/

theorem playStart_inv {α : Type} (nn : NeuralNetwork α) (moveHistory : Fin 9 → Fin 9)
    (draws : List (Fin 9)) : PlayInv (playStart nn moveHistory draws) := by
  have hb : ∀ c, (playStart nn moveHistory draws).state.board c = '.' := fun c =>
    initGame_board _ c
  refine ⟨rfl, by simp [playStart], ?_, ?_, ?_, ?_⟩
  · simp only [hb, ne_eq, not_true_eq_false, Finset.filter_False, Finset.card_empty]
    rfl
  · intro c
    simp only [hb, ne_eq, not_true_eq_false, false_iff, not_exists, not_and]
    intro i hi
    exact absurd hi (Nat.not_lt_zero _)
  · intro i hi
    exact absurd hi (Nat.not_lt_zero _)
  · intro i j hi
    exact absurd hi (Nat.not_lt_zero _)

section Loop

variable {α : Type} [LinearOrderedField α]

theorem playTurn_inv (exp : α → α) (v v2 : PlayVars α) (hinv : PlayInv v)
    (h : playTurn exp v = some v2) : PlayInv v2 := by
  obtain ⟨m, hnum, hm, hstate, hhist, hn2⟩ := playTurn_some exp v v2 h
  obtain ⟨hcp, -, hcard, hocc, hsym, hinj⟩ := hinv
  have hsymne : (if v.state.currentPlayer = 1 then 'O' else 'X') ≠ '.' := by
    split_ifs <;> decide
  have hboard : ∀ c, v2.state.board c =
      if c = m then (if v.state.currentPlayer = 1 then 'O' else 'X') else v.state.board c := by
    intro c
    rw [hstate, placeMove_board, Function.update_apply]
  have hh : ∀ i : Fin 9, v2.moveHistory i =
      if i = ⟨v.numMoves, hnum⟩ then m else v.moveHistory i := by
    intro i
    rw [hhist, Function.update_apply]
  have hold : ∀ i : Fin 9, i.val < v.numMoves → v.moveHistory i ≠ m := by
    intro i hi heq
    have := (hocc (v.moveHistory i)).2 ⟨i, hi, rfl⟩
    rw [heq] at this
    exact this hm
  have hidx : ∀ i : Fin 9, i.val < v.numMoves → i ≠ ⟨v.numMoves, hnum⟩ := by
    intro i hi heq
    have := congrArg Fin.val heq
    simp only [] at this
    omega
  refine ⟨?_, by omega, ?_, ?_, ?_, ?_⟩
  · rw [hstate, hn2]
    show (1 : Int) - v.state.currentPlayer = _
    rw [hcp]
    omega
  · have hset : Finset.univ.filter (fun c => v2.state.board c ≠ '.') =
        insert m (Finset.univ.filter (fun c => v.state.board c ≠ '.')) := by
      ext c
      simp only [Finset.mem_filter, Finset.mem_univ, true_and, Finset.mem_insert, hboard]
      by_cases hc : c = m
      · simp [hc, hsymne]
      · simp [hc]
    rw [hset, Finset.card_insert_of_not_mem, hcard, hn2]
    simp only [Finset.mem_filter, Finset.mem_univ, true_and, not_not]
    exact hm
  · intro c
    rw [hboard, hn2]
    by_cases hc : c = m
    · rw [if_pos hc]
      refine ⟨fun _ => ⟨⟨v.numMoves, hnum⟩, Nat.lt_succ_self _, ?_⟩, fun _ => hsymne⟩
      rw [hh, if_pos rfl, hc]
    · rw [if_neg hc, hocc]
      constructor
      · rintro ⟨i, hi, hic⟩
        exact ⟨i, Nat.lt_succ_of_lt hi, by rw [hh, if_neg (hidx i hi)]; exact hic⟩
      · rintro ⟨i, hi, hic⟩
        rw [hh] at hic
        by_cases hin : i = ⟨v.numMoves, hnum⟩
        · rw [if_pos hin] at hic
          exact absurd hic.symm hc
        · rw [if_neg hin] at hic
          refine ⟨i, ?_, hic⟩
          have : i.val ≠ v.numMoves := fun he => hin (Fin.ext he)
          omega
  · intro i hi
    rw [hn2] at hi
    rw [hh, hboard]
    by_cases hin : i = ⟨v.numMoves, hnum⟩
    · rw [if_pos hin, if_pos rfl]
      have hiv : i.val = v.numMoves := congrArg Fin.val hin
      rw [hcp, hiv]
      by_cases hpar : v.numMoves % 2 = 0
      · rw [if_pos hpar, if_neg (by omega)]
      · rw [if_neg hpar, if_pos (by omega)]
    · have hlt : i.val < v.numMoves := by
        have : i.val ≠ v.numMoves := fun he => hin (Fin.ext he)
        omega
      rw [if_neg hin, if_neg (hold i hlt)]
      exact hsym i hlt
  · intro i j hi hj heq
    rw [hn2] at hi hj
    rw [hh, hh] at heq
    by_cases hin : i = ⟨v.numMoves, hnum⟩
    · by_cases hjn : j = ⟨v.numMoves, hnum⟩
      · rw [hin, hjn]
      · have hlt : j.val < v.numMoves := by
          have : j.val ≠ v.numMoves := fun he => hjn (Fin.ext he)
          omega
        rw [if_pos hin, if_neg hjn] at heq
        exact absurd heq.symm (hold j hlt)
    · have hlt : i.val < v.numMoves := by
        have : i.val ≠ v.numMoves := fun he => hin (Fin.ext he)
        omega
      by_cases hjn : j = ⟨v.numMoves, hnum⟩
      · rw [if_neg hin, if_pos hjn] at heq
        exact absurd heq (hold i hlt)
      · have hlt2 : j.val < v.numMoves := by
          have : j.val ≠ v.numMoves := fun he => hjn (Fin.ext he)
          omega
        rw [if_neg hin, if_neg hjn] at heq
        exact hinj i j hlt hlt2 heq

theorem playRun_inv (exp : α → α) (n : Nat) (v v2 : PlayVars α) (hrun : PlayRun exp v n v2)
    (hinv : PlayInv v) :
    PlayInv v2 ∧ v2.numMoves = v.numMoves + n ∧
      ∀ i : Fin 9, i.val < v.numMoves → v2.moveHistory i = v.moveHistory i := by
  induction hrun with
  | refl => exact ⟨hinv, rfl, fun _ _ => rfl⟩
  | step _ _ hturn ih =>
    obtain ⟨ih1, ih2, ih3⟩ := ih
    obtain ⟨m, hnum, -, -, hhist, hn2⟩ := playTurn_some exp _ _ hturn
    refine ⟨playTurn_inv exp _ _ ih1 hturn, by omega, ?_⟩
    intro i hi
    rw [hhist, Function.update_noteq, ih3 i hi]
    intro heq
    have := congrArg Fin.val heq
    simp only [] at this
    omega

theorem playRun_cons (exp : α → α) (n : Nat) (v v1 v2 : PlayVars α)
    (hnot : checkGameOver v.state = none) (hturn : playTurn exp v = some v1)
    (hrun : PlayRun exp v1 n v2) : PlayRun exp v (n + 1) v2 := by
  induction hrun with
  | refl => exact PlayRun.step PlayRun.refl hnot hturn
  | step _ hnot2 hturn2 ih => exact PlayRun.step ih hnot2 hturn2

theorem playRun_uncons (exp : α → α) (n : Nat) (v v2 : PlayVars α)
    (hrun : PlayRun exp v (n + 1) v2) :
    ∃ v1, checkGameOver v.state = none ∧ playTurn exp v = some v1 ∧ PlayRun exp v1 n v2 := by
  induction n generalizing v2 with
  | zero =>
    cases hrun with
    | step hprev hnot hturn =>
      cases hprev
      exact ⟨_, hnot, hturn, PlayRun.refl⟩
  | succ k ih =>
    cases hrun with
    | step hprev hnot hturn =>
      obtain ⟨v1, h1, h2, h3⟩ := ih _ hprev
      exact ⟨v1, h1, h2, PlayRun.step h3 hnot hturn⟩

theorem playLoop_of_run (exp : α → α) (fuel n : Nat) (v v2 : PlayVars α) (w : Char)
    (hrun : PlayRun exp v n v2) (hover : checkGameOver v2.state = some w) (hfuel : n ≤ fuel) :
    playLoop exp fuel v = some (v2, w) := by
  induction fuel generalizing n v with
  | zero =>
    have hn : n = 0 := Nat.le_zero.1 hfuel
    subst hn
    cases hrun
    unfold playLoop
    rw [hover]
  | succ f ih =>
    cases n with
    | zero =>
      cases hrun
      unfold playLoop
      rw [hover]
    | succ k =>
      obtain ⟨v1, h1, h2, h3⟩ := playRun_uncons exp k v v2 hrun
      unfold playLoop
      rw [h1, h2]
      exact ih k v1 h3 (Nat.le_of_succ_le_succ hfuel)

theorem playLoop_run (exp : α → α) (fuel : Nat) (v vf : PlayVars α) (w : Char)
    (h : playLoop exp fuel v = some (vf, w)) :
    ∃ n, n ≤ fuel ∧ PlayRun exp v n vf ∧ checkGameOver vf.state = some w := by
  induction fuel generalizing v with
  | zero =>
    unfold playLoop at h
    cases hc : checkGameOver v.state with
    | none =>
      rw [hc] at h
      exact absurd h (by simp)
    | some w2 =>
      rw [hc] at h
      have h2 := Prod.mk.inj (Option.some.inj h)
      rw [← h2.1, ← h2.2]
      exact ⟨0, le_rfl, PlayRun.refl, hc⟩
  | succ f ih =>
    unfold playLoop at h
    cases hc : checkGameOver v.state with
    | some w2 =>
      rw [hc] at h
      have h2 := Prod.mk.inj (Option.some.inj h)
      rw [← h2.1, ← h2.2]
      exact ⟨0, Nat.zero_le _, PlayRun.refl, hc⟩
    | none =>
      rw [hc] at h
      cases ht : playTurn exp v with
      | none =>
        rw [ht] at h
        exact absurd h (by simp)
      | some v1 =>
        rw [ht] at h
        obtain ⟨n, hn, hrun, hover⟩ := ih v1 h
        exact ⟨n + 1, Nat.succ_le_succ hn, playRun_cons exp n v v1 vf hc ht hrun, hover⟩

theorem playRun_split (exp : α → α) (n k : Nat) (v v2 : PlayVars α)
    (hrun : PlayRun exp v n v2) (hk : k ≤ n) :
    ∃ vk, PlayRun exp v k vk ∧ PlayRun exp vk (n - k) v2 := by
  induction hrun with
  | refl =>
    have hk0 : k = 0 := Nat.le_zero.1 hk
    subst hk0
    exact ⟨v, PlayRun.refl, PlayRun.refl⟩
  | @step m w2 w3 hprev hnot hturn ih =>
    by_cases hkm : k ≤ m
    · obtain ⟨vk, h1, h2⟩ := ih hkm
      refine ⟨vk, h1, ?_⟩
      have he : m + 1 - k = (m - k) + 1 := by omega
      rw [he]
      exact PlayRun.step h2 hnot hturn
    · have he : k = m + 1 := by omega
      subst he
      refine ⟨w3, PlayRun.step hprev hnot hturn, ?_⟩
      rw [Nat.sub_self]
      exact PlayRun.refl

theorem getComputerMove_first_empty (exp : α → α) (hpos : ∀ x, 0 < exp x)
    (hconst : ∀ x y, exp x = exp y) (state : GameState) (nn : NeuralNetwork α)
    (displayProbs : Bool) (m : Fin 9) (hm : state.board m = '.')
    (hfirst : ∀ i, i < m → state.board i ≠ '.') :
    (getComputerMove exp state nn displayProbs).2 = (m.val : Int) := by
  have h := scanMoves_inv state
    (forwardPass exp nn (boardToInputs state (fun _ => 0))).outputs
  have heq : ∀ i j, (forwardPass exp nn (boardToInputs state (fun _ => 0))).outputs i =
      (forwardPass exp nn (boardToInputs state (fun _ => 0))).outputs j := by
    intro i j
    rw [forwardPass_outputs, (softmax_apply exp hpos _ _ _ i).2,
      (softmax_apply exp hpos _ _ _ j).2, hconst (_ - _) (_ - _)]
  unfold getComputerMove
  rcases h with ⟨-, h2⟩ | ⟨m2, hm2, -, hmb, -, -, hgt⟩
  · exact absurd hm (h2 m (List.mem_finRange m))
  · show (scanMoves state _).bestMove = _
    rw [hm2]
    rcases lt_trichotomy m2 m with hlt | heq2 | hlt
    · exact absurd hmb (hfirst m2 hlt)
    · rw [heq2]
    · have := hgt m (List.mem_finRange m) hm hlt
      rw [heq m m2] at this
      exact absurd this (lt_irrefl _)

theorem playTurn_isSome (exp : α → α) (v : PlayVars α) (hnot : checkGameOver v.state = none)
    (hnum : v.numMoves < 9)
    (hdraw : v.state.currentPlayer = 0 → ∃ m ∈ v.draws, v.state.board m = '.') :
    ∃ v2, playTurn exp v = some v2 := by
  by_cases hcp : v.state.currentPlayer = 0
  · obtain ⟨r, hr⟩ := getRandomMove_isSome v.state v.draws (hdraw hcp)
    obtain ⟨m, rest⟩ := r
    exact ⟨_, playTurn_random exp v m rest hcp hr hnum⟩
  · obtain ⟨m, hm, -⟩ := getComputerMove_cell exp v.state v.nn false
      (no_line_of_not_over v.state hnot).2
    exact ⟨_, playTurn_computer exp v m hcp hm hnum⟩

theorem not_over_numMoves {β : Type} (v : PlayVars β) (hinv : PlayInv v)
    (hnot : checkGameOver v.state = none) : v.numMoves < 9 := by
  obtain ⟨-, hle, hcard, -⟩ := hinv
  obtain ⟨c, hc⟩ := (no_line_of_not_over v.state hnot).2
  have hlt : (Finset.univ.filter (fun c => v.state.board c ≠ '.')).card <
      (Finset.univ : Finset (Fin 9)).card := by
    apply Finset.card_lt_card
    rw [Finset.ssubset_iff_of_subset (Finset.filter_subset _ _)]
    exact ⟨c, Finset.mem_univ c, by simp [hc]⟩
  rw [hcard, Finset.card_univ, Fintype.card_fin] at hlt
  exact hlt

/-- C18: invariant of the loop of `playRandomGame`.  After `n` completed iterations (the
random mover having returned in each of its turns) `numMoves = n`, the side to move is
`n mod 2`, the board has exactly `n` non-empty cells, namely the pairwise distinct cells
`moveHistory[0..n-1]`, with 'X' on those of even and 'O' on those of odd history positions.
Hence `n ≤ 9`, after 9 iterations `checkGameOver` reports the end, and while it does not,
`numMoves < 9`, so the write `moveHistory[numMoves]` is in range and the iteration completes
as soon as the random mover returns. -/
theorem playLoop_invariant (exp : α → α) (nn : NeuralNetwork α) (moveHistory : Fin 9 → Fin 9)
    (draws : List (Fin 9)) (n : Nat) (v : PlayVars α)
    (hrun : PlayRun exp (playStart nn moveHistory draws) n v) :
    v.numMoves = n ∧
    v.state.currentPlayer = ((n % 2 : Nat) : Int) ∧
    (Finset.univ.filter (fun c => v.state.board c ≠ '.')).card = n ∧
    (∀ c, v.state.board c ≠ '.' ↔ ∃ i : Fin 9, i.val < n ∧ v.moveHistory i = c) ∧
    (∀ i j : Fin 9, i.val < n → j.val < n → v.moveHistory i = v.moveHistory j → i = j) ∧
    (∀ i : Fin 9, i.val < n →
      v.state.board (v.moveHistory i) = if i.val % 2 = 0 then 'X' else 'O') ∧
    n ≤ 9 ∧
    (n = 9 → ∃ w, checkGameOver v.state = some w) ∧
    (checkGameOver v.state = none →
      v.numMoves < 9 ∧
      ((v.state.currentPlayer = 0 → ∃ m ∈ v.draws, v.state.board m = '.') →
        ∃ v2, playTurn exp v = some v2 ∧ PlayRun exp (playStart nn moveHistory draws) (n + 1) v2)) := by
  obtain ⟨hinv, hn, -⟩ := playRun_inv exp n _ v hrun (playStart_inv nn moveHistory draws)
  have hn2 : v.numMoves = n := by
    rw [hn]
    exact Nat.zero_add n
  obtain ⟨hcp, hle, hcard, hocc, hsym, hinj⟩ := hinv
  rw [hn2] at hcp hle hcard hocc hsym hinj
  refine ⟨hn2, hcp, hcard, hocc, hinj, hsym, hle, ?_, ?_⟩
  · intro h9
    cases hc : checkGameOver v.state with
    | some w => exact ⟨w, rfl⟩
    | none =>
      have := not_over_numMoves v (by
        rw [← hn2] at hcp hle hcard hocc hsym hinj
        exact ⟨hcp, hle, hcard, hocc, hsym, hinj⟩) hc
      omega
  · intro hnot
    have hlt := not_over_numMoves v (by
      rw [← hn2] at hcp hle hcard hocc hsym hinj
      exact ⟨hcp, hle, hcard, hocc, hsym, hinj⟩) hnot
    refine ⟨hlt, fun hdraw => ?_⟩
    obtain ⟨v2, hv2⟩ := playTurn_isSome exp v hnot hlt hdraw
    exact ⟨v2, hv2, PlayRun.step hrun hnot hv2⟩

end Loop

/-! ## Theorems: a concrete game -/

theorem sampleGame_turn1 : playTurn constExp sampleGame0 = some sampleGame1 := by
  rw [playTurn_random constExp sampleGame0 4 [3, 5] rfl (by decide) (by decide)]
  rfl

theorem sampleGame_turn2 : playTurn constExp sampleGame1 = some sampleGame2 := by
  rw [playTurn_computer constExp sampleGame1 0 (by decide)
    (getComputerMove_first_empty constExp (fun _ => one_pos) (fun _ _ => rfl) _ _ _ 0
      (by decide) (by decide)) (by decide)]
  rfl

theorem sampleGame_turn3 : playTurn constExp sampleGame2 = some sampleGame3 := by
  rw [playTurn_random constExp sampleGame2 3 [5] (by decide) (by decide) (by decide)]
  rfl

theorem sampleGame_turn4 : playTurn constExp sampleGame3 = some sampleGame4 := by
  rw [playTurn_computer constExp sampleGame3 1 (by decide)
    (getComputerMove_first_empty constExp (fun _ => one_pos) (fun _ _ => rfl) _ _ _ 1
      (by decide) (by decide)) (by decide)]
  rfl

theorem sampleGame_turn5 : playTurn constExp sampleGame4 = some sampleGame5 := by
  rw [playTurn_random constExp sampleGame4 5 [] (by decide) (by decide) (by decide)]
  rfl

theorem sampleGame_run2 : PlayRun constExp sampleGame0 2 sampleGame2 :=
  PlayRun.step (PlayRun.step PlayRun.refl (by decide) sampleGame_turn1) (by decide)
    sampleGame_turn2

theorem sampleGame_run5 : PlayRun constExp sampleGame0 5 sampleGame5 :=
  PlayRun.step (PlayRun.step (PlayRun.step sampleGame_run2 (by decide) sampleGame_turn3)
    (by decide) sampleGame_turn4) (by decide) sampleGame_turn5

theorem sampleGame_loop : playLoop constExp 9 sampleGame0 = some (sampleGame5, 'X') :=
  playLoop_of_run constExp 9 5 sampleGame0 sampleGame5 'X' sampleGame_run5 (by decide)
    (by decide)

theorem playLoop_invariant_witness :
    PlayRun constExp (playStart zeroNet sampleHistory [4, 3, 5]) 5 sampleGame5 ∧
      sampleGame5.numMoves = 5 ∧ (5 : Nat) ≤ 9 :=
  ⟨sampleGame_run5,
    (playLoop_invariant constExp zeroNet sampleHistory [4, 3, 5] 5 sampleGame5
      sampleGame_run5).1,
    (playLoop_invariant constExp zeroNet sampleHistory [4, 3, 5] 5 sampleGame5
      sampleGame_run5).2.2.2.2.2.2.1⟩

/-! ## Theorems: the learning pass replays the game -/

section Replay

variable {α : Type} [LinearOrderedField α]

theorem learnStep_eq (exp : α → α) (moveHistory : Fin 9 → Fin 9) (numMoves : Nat)
    (nnMovesEven : Bool) (reward : α) (moveIdx : Fin 9) (v : LearnVars α) :
    learnStep exp moveHistory numMoves nnMovesEven reward moveIdx v =
      if isLearnerMove nnMovesEven moveIdx.val then
        trainOn exp moveHistory numMoves reward moveIdx v
      else v := rfl

theorem foldl_ite_eq_filter {ι σ : Type} (p : ι → Bool) (f : σ → ι → σ) (l : List ι)
    (init : σ) :
    l.foldl (fun s i => if p i then f s i else s) init = (l.filter p).foldl f init := by
  induction l generalizing init with
  | nil => rfl
  | cons a l ih =>
    rw [List.foldl_cons, ih]
    by_cases ha : p a = true
    · rw [List.filter_cons_of_pos ha, List.foldl_cons, if_pos ha]
    · rw [List.filter_cons_of_neg ha, if_neg ha]

theorem isLearnerMove_true (k : Nat) : isLearnerMove true k = decide (k % 2 = 1) := by
  unfold isLearnerMove
  by_cases h : k % 2 = 1
  · simp [h]
  · simp [h]
    omega

theorem learnFromGame_eq_filter (exp : α → α) (nn : NeuralNetwork α)
    (moveHistory : Fin 9 → Fin 9) (numMoves : Nat) (hnum : numMoves ≤ 9) (winner : Char) :
    learnFromGame exp nn moveHistory numMoves hnum true winner =
      (((List.finRange numMoves).filter (fun k => decide (k.val % 2 = 1))).foldl
        (fun v k => trainOn exp moveHistory numMoves (reward true winner) (Fin.castLE hnum k) v)
        { nn := nn
          state := { board := fun _ => Char.ofNat 0, currentPlayer := 0 }
          targetProbs := fun _ => 0 }).nn := by
  unfold learnFromGame
  simp only [forLoop_eq_foldl, learnStep_eq, isLearnerMove_true, Fin.coe_castLE]
  rw [foldl_ite_eq_filter (fun k : Fin numMoves => decide (k.val % 2 = 1))
    (fun v k => trainOn exp moveHistory numMoves (reward true winner) (Fin.castLE hnum k) v)]

theorem board_foldl {ι : Type} (f : ι → Fin 9) (sym : ι → Char) (l : List ι)
    (st : GameState) :
    (l.foldl (fun (st : GameState) i =>
        ({ st with board := Function.update st.board (f i) (sym i) } : GameState)) st).board =
      l.foldl (fun (b : Fin 9 → Char) i => Function.update b (f i) (sym i)) st.board := by
  induction l generalizing st with
  | nil => rfl
  | cons a l ih => rw [List.foldl_cons, List.foldl_cons, ih]

theorem replayBoard_cell (st : GameState) (h : Fin 9 → Fin 9) (k : Fin 9)
    (hinj : ∀ i j : Fin 9, i.val < k.val → j.val < k.val → h i = h j → i = j)
    (i : Fin 9) (hi : i.val < k.val) :
    (replayBoard st h k).board (h i) = if i.val % 2 = 0 then 'X' else 'O' := by
  unfold replayBoard
  rw [forLoop_eq_foldl]
  have hb := board_foldl (fun a : Fin k.val => h ⟨a.val, by omega⟩)
    (fun a : Fin k.val => if a.val % 2 = 1 then 'O' else 'X') (List.finRange k.val)
    (initGame st)
  refine (congrFun hb (h i)).trans ?_
  have hrow := (foldl_update_row (fun a : Fin k.val => h ⟨a.val, by omega⟩)
    (fun a b hab => Fin.ext (by
      have h2 := congrArg Fin.val
        (hinj ⟨a.val, by omega⟩ ⟨b.val, by omega⟩ a.isLt b.isLt hab)
      exact h2))
    (fun a _ => if a.val % 2 = 1 then 'O' else 'X') (List.finRange k.val)
    (List.nodup_finRange k.val) (initGame st).board).1 ⟨i.val, hi⟩ (List.mem_finRange _)
  refine hrow.trans ?_
  by_cases hp : i.val % 2 = 0
  · rw [if_pos hp, if_neg (by simp only []; omega)]
  · rw [if_neg hp, if_pos (by simp only []; omega)]

theorem replayBoard_eq_game (st : GameState) (h : Fin 9 → Fin 9) (k : Fin 9) {β : Type}
    (vk : PlayVars β) (hinv : PlayInv vk) (hk : vk.numMoves = k.val)
    (hpre : ∀ i : Fin 9, i.val < k.val → h i = vk.moveHistory i) :
    (replayBoard st h k).board = vk.state.board := by
  obtain ⟨-, -, -, hocc, hsym, hinj⟩ := hinv
  rw [hk] at hocc hsym hinj
  funext c
  by_cases hc : vk.state.board c = '.'
  · rw [hc, replayBoard_empty_iff]
    intro i hi heq
    rw [hpre i hi] at heq
    exact (hocc c).2 ⟨i, hi, heq⟩ hc
  · obtain ⟨i, hi, hic⟩ := (hocc c).1 hc
    rw [← hic, ← hpre i hi, replayBoard_cell st h k ?_ i hi, hpre i hi, hsym i hi]
    intro a b ha hb hab
    rw [hpre a ha, hpre b hb] at hab
    exact hinj a b ha hb hab

/-- C17: for every game produced by the loop of `playRandomGame` (history `h`, `n` moves),
`learnFromGame` with `nnMovesEven = true` is the fold, over the odd indices `k < n` in
increasing order, of a step that runs one `forwardPass` and one `backprop`, even indices being
skipped; and for every odd `k < n` the board rebuilt from `h[0..k-1]` is the board the game had
after `k` iterations, the side to move on it was the learner, who then placed 'O' on `h[k]`,
an empty cell of the rebuilt board. -/
theorem learnFromGame_replays_game (exp : α → α) (fuel : Nat) (nn : NeuralNetwork α)
    (moveHistory : Fin 9 → Fin 9) (draws : List (Fin 9)) (vf : PlayVars α) (winner : Char)
    (hgame : playLoop exp fuel (playStart nn moveHistory draws) = some (vf, winner)) :
    ∃ hnum : vf.numMoves ≤ 9,
      playRandomGame exp fuel nn moveHistory draws =
        some (learnFromGame exp vf.nn vf.moveHistory vf.numMoves hnum true winner,
          vf.moveHistory, vf.numMoves, vf.draws, winner) ∧
      learnFromGame exp vf.nn vf.moveHistory vf.numMoves hnum true winner =
        (((List.finRange vf.numMoves).filter (fun k => decide (k.val % 2 = 1))).foldl
          (fun v k => trainOn exp vf.moveHistory vf.numMoves (reward true winner)
            (Fin.castLE hnum k) v)
          { nn := vf.nn
            state := { board := fun _ => Char.ofNat 0, currentPlayer := 0 }
            targetProbs := fun _ => 0 }).nn ∧
      (∀ (k : Fin 9) (v : LearnVars α),
        (trainOn exp vf.moveHistory vf.numMoves (reward true winner) k v).nn =
          backprop
            (forwardPass exp v.nn
              (boardToInputs (replayBoard v.state vf.moveHistory k) (fun _ => 0)))
            (buildTarget v.targetProbs (replayBoard v.state vf.moveHistory k)
              (vf.moveHistory k) k.val (reward true winner * moveImportance k.val vf.numMoves))
            LEARNING_RATE (reward true winner * moveImportance k.val vf.numMoves)) ∧
      (∀ k : Fin 9, k.val % 2 = 1 → k.val < vf.numMoves →
        ∃ vk vk2 : PlayVars α,
          PlayRun exp (playStart nn moveHistory draws) k.val vk ∧
          checkGameOver vk.state = none ∧
          playTurn exp vk = some vk2 ∧
          vk.state.currentPlayer = 1 ∧
          vk2.state = placeMove vk.state (vf.moveHistory k) ∧
          vk2.state.board (vf.moveHistory k) = 'O' ∧
          ∀ st : GameState,
            (replayBoard st vf.moveHistory k).board = vk.state.board ∧
            (replayBoard st vf.moveHistory k).board (vf.moveHistory k) = '.') := by
  obtain ⟨n, -, hrun, -⟩ := playLoop_run exp fuel _ vf winner hgame
  obtain ⟨hinvf, hnf, -⟩ := playRun_inv exp n _ vf hrun (playStart_inv nn moveHistory draws)
  have hn : vf.numMoves = n := by
    rw [hnf]
    exact Nat.zero_add n
  have hnum : vf.numMoves ≤ 9 := hinvf.2.1
  refine ⟨hnum, ?_, learnFromGame_eq_filter exp vf.nn vf.moveHistory vf.numMoves hnum winner,
    fun _ _ => rfl, ?_⟩
  · unfold playRandomGame
    rw [hgame]
    simp only [dif_pos hnum]
  · intro k hodd hkn
    rw [hn] at hkn
    obtain ⟨vk, hrunk, hrest⟩ := playRun_split exp n k.val _ vf hrun (le_of_lt hkn)
    have he : n - k.val = (n - k.val - 1) + 1 := by omega
    rw [he] at hrest
    obtain ⟨vk2, hnot, hturn, hrest2⟩ := playRun_uncons exp _ vk vf hrest
    obtain ⟨hinvk, hnk, -⟩ := playRun_inv exp k.val _ vk hrunk
      (playStart_inv nn moveHistory draws)
    have hnk2 : vk.numMoves = k.val := by
      rw [hnk]
      exact Nat.zero_add _
    obtain ⟨m, hlt9, hm, hstate, hhist, hn2⟩ := playTurn_some exp vk vk2 hturn
    obtain ⟨-, -, hpre2⟩ := playRun_inv exp _ vk2 vf hrest2 (playTurn_inv exp vk vk2 hinvk hturn)
    have hkidx : (⟨vk.numMoves, hlt9⟩ : Fin 9) = k := Fin.ext hnk2
    have hmk : vf.moveHistory k = m := by
      rw [hpre2 k (by rw [hn2, hnk2]; exact Nat.lt_succ_self _), hhist, hkidx,
        Function.update_same]
    have hcp : vk.state.currentPlayer = 1 := by
      rw [hinvk.1, hnk2, hodd]
      rfl
    refine ⟨vk, vk2, hrunk, hnot, hturn, hcp, by rw [hmk]; exact hstate, ?_, ?_⟩
    · rw [hmk, hstate, placeMove_board, Function.update_same, if_pos hcp]
    · intro st
      have hb := replayBoard_eq_game st vf.moveHistory k vk hinvk hnk2 (fun i hi => by
        rw [hpre2 i (by rw [hn2, hnk2]; exact Nat.lt_succ_of_lt hi), hhist,
          Function.update_noteq]
        intro heq
        have := congrArg Fin.val heq
        simp only [] at this
        omega)
      refine ⟨hb, ?_⟩
      rw [hb, hmk]
      exact hm

end Replay

theorem learnFromGame_replays_game_witness :
    playLoop constExp 9 (playStart zeroNet sampleHistory [4, 3, 5]) = some (sampleGame5, 'X') ∧
      ∃ hnum : sampleGame5.numMoves ≤ 9,
        playRandomGame constExp 9 zeroNet sampleHistory [4, 3, 5] =
          some (learnFromGame constExp sampleGame5.nn sampleGame5.moveHistory
            sampleGame5.numMoves hnum true 'X',
            sampleGame5.moveHistory, sampleGame5.numMoves, sampleGame5.draws, 'X') :=
  ⟨sampleGame_loop,
    let ⟨hnum, h, _⟩ := learnFromGame_replays_game constExp 9 zeroNet sampleHistory [4, 3, 5]
      sampleGame5 'X' sampleGame_loop
    ⟨hnum, h⟩⟩

/-! ## Theorems: how many lines a valid game can fill -/

theorem three_lines_cells (m : Fin 9) (a0 a1 a2 a3 a4 a5 a6 a7 a8 : Bool) :
    3 ≤ winLines.countP (fun l =>
        (decide (m = l.1) || decide (m = l.2.1) || decide (m = l.2.2)) &&
        (![a0, a1, a2, a3, a4, a5, a6, a7, a8] l.1 &&
          ![a0, a1, a2, a3, a4, a5, a6, a7, a8] l.2.1 &&
          ![a0, a1, a2, a3, a4, a5, a6, a7, a8] l.2.2)) →
    6 ≤ (Finset.univ.filter
      (fun c => ![a0, a1, a2, a3, a4, a5, a6, a7, a8] c = true)).card := by
  revert m a0 a1 a2 a3 a4 a5 a6 a7 a8
  decide

theorem three_lines_cells_fun (m : Fin 9) (f : Fin 9 → Bool)
    (h : 3 ≤ winLines.countP (fun l =>
        (decide (m = l.1) || decide (m = l.2.1) || decide (m = l.2.2)) &&
        (f l.1 && f l.2.1 && f l.2.2))) :
    6 ≤ (Finset.univ.filter (fun c => f c = true)).card := by
  have hf : f = ![f 0, f 1, f 2, f 3, f 4, f 5, f 6, f 7, f 8] := by
    funext c
    fin_cases c <;> rfl
  rw [hf] at h ⊢
  exact three_lines_cells m _ _ _ _ _ _ _ _ _ h

theorem card_symbol_update (b : Fin 9 → Char) (m : Fin 9) (sym s : Char) (hm : b m = '.')
    (hs : s ≠ '.') :
    (Finset.univ.filter (fun c => Function.update b m sym c = s)).card =
      (Finset.univ.filter (fun c => b c = s)).card + (if sym = s then 1 else 0) := by
  have hnot : m ∉ Finset.univ.filter (fun c => b c = s) := by
    simp only [Finset.mem_filter, Finset.mem_univ, true_and, hm]
    exact fun h => hs h.symm
  by_cases hsym : sym = s
  · rw [if_pos hsym]
    have hset : Finset.univ.filter (fun c => Function.update b m sym c = s) =
        insert m (Finset.univ.filter (fun c => b c = s)) := by
      ext c
      simp only [Finset.mem_filter, Finset.mem_univ, true_and, Finset.mem_insert,
        Function.update_apply]
      by_cases hc : c = m
      · simp [hc, hsym]
      · simp [hc]
    rw [hset, Finset.card_insert_of_not_mem hnot]
  · rw [if_neg hsym, add_zero]
    congr 1
    ext c
    simp only [Finset.mem_filter, Finset.mem_univ, true_and, Function.update_apply]
    by_cases hc : c = m
    · simp only [hc, if_true, hm]
      exact ⟨fun h => absurd h hsym, fun h => absurd h.symm hs⟩
    · simp only [hc, if_false]

theorem card_symbols_le (b : Fin 9 → Char) (m : Fin 9) (hm : b m = '.') :
    (Finset.univ.filter (fun c => b c = 'X')).card +
      (Finset.univ.filter (fun c => b c = 'O')).card ≤ 8 := by
  have hdisj : Disjoint (Finset.univ.filter (fun c => b c = 'X'))
      (Finset.univ.filter (fun c => b c = 'O')) := by
    rw [Finset.disjoint_filter]
    intro c _ h1 h2
    rw [h1] at h2
    exact absurd h2 (by decide)
  rw [← Finset.card_union_of_disjoint hdisj]
  have hsub : Finset.univ.filter (fun c => b c = 'X') ∪ Finset.univ.filter (fun c => b c = 'O') ⊆
      Finset.univ.erase m := by
    intro c hc
    rw [Finset.mem_erase]
    refine ⟨?_, Finset.mem_univ c⟩
    intro hcm
    rw [hcm] at hc
    simp only [Finset.mem_union, Finset.mem_filter, Finset.mem_univ, true_and, hm] at hc
    rcases hc with h | h <;> exact absurd h (by decide)
  have := Finset.card_le_card hsub
  rw [Finset.card_erase_of_mem (Finset.mem_univ m), Finset.card_univ, Fintype.card_fin] at this
  exact this

theorem reachable_counts (state : GameState) (h : Reachable state) :
    (state.currentPlayer = 0 ∧
      (Finset.univ.filter (fun c => state.board c = 'X')).card =
        (Finset.univ.filter (fun c => state.board c = 'O')).card) ∨
    (state.currentPlayer = 1 ∧
      (Finset.univ.filter (fun c => state.board c = 'X')).card =
        (Finset.univ.filter (fun c => state.board c = 'O')).card + 1) := by
  induction h with
  | start =>
    left
    refine ⟨rfl, ?_⟩
    simp
  | @move st m _ _ hm ih =>
    rw [placeMove_board]
    rw [card_symbol_update st.board m _ 'X' hm (by decide),
      card_symbol_update st.board m _ 'O' hm (by decide)]
    rcases ih with ⟨hcp, hc⟩ | ⟨hcp, hc⟩
    · right
      refine ⟨by show (1 : Int) - st.currentPlayer = 1; rw [hcp]; rfl, ?_⟩
      have h1 : ¬ st.currentPlayer = 1 := by rw [hcp]; decide
      rw [if_neg h1, if_pos rfl, if_neg (by decide), hc]
    · left
      refine ⟨by show (1 : Int) - st.currentPlayer = 0; rw [hcp]; rfl, ?_⟩
      rw [if_pos hcp, if_neg (by decide), if_pos rfl, hc]

theorem placeMove_fullLines (state : GameState) (h : Reachable state) (m : Fin 9)
    (hnot : checkGameOver state = none) (hm : state.board m = '.') :
    fullLines (placeMove state m).board ≤ 2 := by
  by_contra hcon
  have h3 : 3 ≤ fullLines (placeMove state m).board := by omega
  unfold fullLines at h3
  rw [← List.countP_eq_length_filter] at h3
  have hmono : winLines.countP (lineFull (placeMove state m).board) ≤
      winLines.countP (fun l =>
        (decide (m = l.1) || decide (m = l.2.1) || decide (m = l.2.2)) &&
        (decide ((placeMove state m).board l.1 =
            (if state.currentPlayer = 1 then 'O' else 'X')) &&
          decide ((placeMove state m).board l.2.1 =
            (if state.currentPlayer = 1 then 'O' else 'X')) &&
          decide ((placeMove state m).board l.2.2 =
            (if state.currentPlayer = 1 then 'O' else 'X')))) := by
    apply List.countP_mono_left
    intro l hl hfull
    obtain ⟨hsym, hcell⟩ := placeMove_lines state m hnot l hl hfull
    unfold lineFull at hfull
    rw [decide_eq_true_iff] at hfull
    simp only [Bool.and_eq_true, Bool.or_eq_true, decide_eq_true_eq]
    refine ⟨?_, ⟨hsym, ?_⟩, ?_⟩
    · rcases hcell with h1 | h1 | h1
      · exact Or.inl (Or.inl h1)
      · exact Or.inl (Or.inr h1)
      · exact Or.inr h1
    · rw [← hfull.2.1, hsym]
    · rw [← hfull.2.2, ← hfull.2.1, hsym]
  have h6 := three_lines_cells_fun m
    (fun c => decide ((placeMove state m).board c =
      (if state.currentPlayer = 1 then 'O' else 'X'))) (le_trans h3 hmono)
  simp only [decide_eq_true_eq] at h6
  have hle := card_symbols_le state.board m hm
  rw [placeMove_board] at h6
  rcases reachable_counts state h with ⟨hcp, hc⟩ | ⟨hcp, hc⟩
  · have h1 : ¬ state.currentPlayer = 1 := by rw [hcp]; decide
    rw [if_neg h1, card_symbol_update state.board m 'X' 'X' hm (by decide), if_pos rfl] at h6
    omega
  · rw [if_pos hcp, card_symbol_update state.board m 'O' 'O' hm (by decide), if_pos rfl] at h6
    omega

/-- C14, amended: on every board of a valid game at most two of the eight lines hold three
equal non-empty symbols; the lines that do all hold one and the same symbol and all pass
through one cell (the cell of the last move, which can complete two lines at once). -/
theorem reachable_full_lines (state : GameState) (h : Reachable state) :
    fullLines state.board ≤ 2 ∧
    ∃ (sym : Char) (c : Fin 9), ∀ l ∈ winLines, lineFull state.board l = true →
      (state.board l.1 = sym ∧ state.board l.2.1 = sym ∧ state.board l.2.2 = sym) ∧
      (c = l.1 ∨ c = l.2.1 ∨ c = l.2.2) := by
  constructor
  · cases h with
    | start => decide
    | move m hprev hnot hm => exact placeMove_fullLines _ hprev m hnot hm
  · obtain ⟨sym, c, hall⟩ := reachable_lines state h
    refine ⟨sym, c, fun l hl hfull => ?_⟩
    obtain ⟨h1, h2⟩ := hall l hl hfull
    unfold lineFull at hfull
    rw [decide_eq_true_iff] at hfull
    exact ⟨⟨h1, by rw [← hfull.2.1, h1], by rw [← hfull.2.2, ← hfull.2.1, h1]⟩, h2⟩

theorem reachable_full_lines_witness :
    Reachable (playMoves { board := fun _ => '.', currentPlayer := 0 }
        [0, 1, 2, 3, 8, 5, 6, 7, 4]) ∧
      fullLines (playMoves { board := fun _ => '.', currentPlayer := 0 }
        [0, 1, 2, 3, 8, 5, 6, 7, 4]).board ≤ 2 :=
  ⟨reachable_playMoves _ Reachable.start _ (by decide),
    (reachable_full_lines _ (reachable_playMoves _ Reachable.start _ (by decide))).1⟩

/-! ## Theorems: move importance and scaled rewards -/

section Importance

variable {α : Type} [LinearOrderedField α]

theorem moveImportance_eq (moveIdx numMoves : Nat) :
    (moveImportance moveIdx numMoves : α) = 1 / 2 + (moveIdx : α) / (2 * (numMoves : α)) := by
  unfold moveImportance
  have h5 : (0.5 : α) = 1 / 2 := by norm_num
  rw [h5]
  ring

/-- C15: for `0 ≤ moveIdx < numMoves` the weight `0.5 + 0.5*moveIdx/numMoves` lies between
0.5 and 1.0, is 0.5 exactly at `moveIdx = 0`, and increases strictly with `moveIdx` for fixed
`numMoves`. -/
theorem moveImportance_range (moveIdx numMoves : Nat) (hlt : moveIdx < numMoves) :
    (1 / 2 : α) ≤ moveImportance moveIdx numMoves ∧
    (moveImportance moveIdx numMoves : α) ≤ 1 ∧
    (moveImportance 0 numMoves : α) = 1 / 2 ∧
    (∀ later : Nat, moveIdx < later → later < numMoves →
      (moveImportance moveIdx numMoves : α) < moveImportance later numMoves) := by
  have hn : (0 : α) < (numMoves : α) := Nat.cast_pos.2 (by omega)
  have h2n : (0 : α) < 2 * (numMoves : α) := by linarith
  refine ⟨?_, ?_, ?_, ?_⟩
  · rw [moveImportance_eq]
    have : (0 : α) ≤ (moveIdx : α) / (2 * (numMoves : α)) :=
      div_nonneg (Nat.cast_nonneg _) (le_of_lt h2n)
    linarith
  · rw [moveImportance_eq]
    have hle : (moveIdx : α) ≤ (numMoves : α) := Nat.cast_le.2 (le_of_lt hlt)
    have : (moveIdx : α) / (2 * (numMoves : α)) ≤ 1 / 2 := by
      rw [div_le_iff₀ h2n]
      linarith
    linarith
  · rw [moveImportance_eq]
    simp
  · intro later hl _
    rw [moveImportance_eq, moveImportance_eq]
    have hcast : (moveIdx : α) < (later : α) := Nat.cast_lt.2 hl
    have : (moveIdx : α) / (2 * (numMoves : α)) < (later : α) / (2 * (numMoves : α)) :=
      div_lt_div_of_pos_right hcast h2n
    linarith

theorem moveImportance_range_witness :
    (3 < 7) ∧ (1 / 2 : ℚ) ≤ moveImportance 3 7 ∧ (moveImportance 3 7 : ℚ) ≤ 1 :=
  ⟨by decide, (moveImportance_range 3 7 (by decide)).1,
    (moveImportance_range 3 7 (by decide)).2.1⟩

theorem buildTarget_nonneg (targetProbs : Fin NN_OUTPUT_SIZE → α) (state : GameState)
    (move : Fin 9) (moveIdx : Nat) (scaledReward : α) (hpos : scaledReward ≥ 0) :
    buildTarget targetProbs state move moveIdx scaledReward =
      Function.update (fun _ => 0) move 1 := by
  unfold buildTarget
  rw [if_pos hpos]
  have hzero : forLoop NN_OUTPUT_SIZE
      (fun i (targetProbs : Fin NN_OUTPUT_SIZE → α) => Function.update targetProbs i 0)
      targetProbs = fun _ => 0 := by
    funext c
    exact forLoop_update_each (fun _ _ => (0 : α)) targetProbs c
  simp only [hzero]

theorem reward_values (e : Bool) (winner : Char) :
    (winner = 'T' → (reward e winner : α) = 3 / 10) ∧
    (winner = nnSymbol e → (reward e winner : α) = 1) ∧
    (winner ≠ 'T' → winner ≠ nnSymbol e → (reward e winner : α) = -2) := by
  unfold reward
  refine ⟨?_, ?_, ?_⟩
  · intro h
    rw [if_pos h]
    norm_num
  · intro h
    have hT : winner ≠ 'T' := by
      rw [h]
      cases e <;> decide
    rw [if_neg hT, if_pos h]
    norm_num
  · intro h1 h2
    rw [if_neg h1, if_neg h2]
    norm_num

/-- C16: for `0 ≤ moveIdx < numMoves`, at the same move importance the scaled reward of a loss
(-2.0 times the importance) is negative, that of a tie (0.3 times it) is positive and below
that of a win (1.0 times it), and the loss is larger in magnitude than the win; hence
`learnFromGame` builds the one-hot target on the move taken exactly when the learner won or
tied, and the push-away target exactly when it lost. -/
theorem scaledReward_order (e : Bool) (moveIdx numMoves : Nat) (_hlt : moveIdx < numMoves) :
    ((reward e (nnSymbol (!e)) : α) * moveImportance moveIdx numMoves < 0 ∧
      (0 : α) < reward e 'T' * moveImportance moveIdx numMoves ∧
      (reward e 'T' : α) * moveImportance moveIdx numMoves <
        reward e (nnSymbol e) * moveImportance moveIdx numMoves ∧
      (reward e (nnSymbol e) : α) * moveImportance moveIdx numMoves <
        -(reward e (nnSymbol (!e)) * moveImportance moveIdx numMoves)) ∧
    (∀ (winner : Char) (targetProbs : Fin NN_OUTPUT_SIZE → α) (state : GameState)
      (move : Fin 9),
      ((winner = 'T' ∨ winner = nnSymbol e) ↔
        (reward e winner : α) * moveImportance moveIdx numMoves ≥ 0) ∧
      ((winner = 'T' ∨ winner = nnSymbol e) →
        buildTarget targetProbs state move moveIdx
            (reward e winner * moveImportance moveIdx numMoves) =
          Function.update (fun _ => 0) move 1) ∧
      (¬ (winner = 'T' ∨ winner = nnSymbol e) →
        ∀ c, buildTarget targetProbs state move moveIdx
            (reward e winner * moveImportance moveIdx numMoves) c =
          if state.board c = '.' ∧ c ≠ move then
            1 / (((9 - (moveIdx : Int) - 1 : Int)) : α) else 0)) := by
  have himp : (0 : α) < moveImportance moveIdx numMoves := moveImportance_pos _ _
  have hopp : nnSymbol (!e) ≠ 'T' ∧ nnSymbol (!e) ≠ nnSymbol e := by
    cases e <;> exact ⟨by decide, by decide⟩
  have hloss : (reward e (nnSymbol (!e)) : α) = -2 :=
    (reward_values e _).2.2 hopp.1 hopp.2
  have htie : (reward e 'T' : α) = 3 / 10 := (reward_values e _).1 rfl
  have hwin : (reward e (nnSymbol e) : α) = 1 := (reward_values e _).2.1 rfl
  refine ⟨?_, ?_⟩
  · rw [hloss, htie, hwin]
    refine ⟨?_, ?_, ?_, ?_⟩ <;> nlinarith
  · intro winner targetProbs state move
    have hiff : (winner = 'T' ∨ winner = nnSymbol e) ↔
        (reward e winner : α) * moveImportance moveIdx numMoves ≥ 0 := by
      constructor
      · rintro (h | h)
        · rw [(reward_values e winner).1 h]
          nlinarith
        · rw [(reward_values e winner).2.1 h]
          nlinarith
      · intro hge
        by_contra hcon
        rw [not_or] at hcon
        rw [(reward_values e winner).2.2 hcon.1 hcon.2] at hge
        nlinarith
    refine ⟨hiff, fun h => buildTarget_nonneg _ _ _ _ _ (hiff.1 h), fun h c => ?_⟩
    exact buildTarget_neg _ _ _ _ _ (not_le.1 (fun hge => h (hiff.2 hge))) c

theorem scaledReward_order_witness :
    (3 < 7) ∧ (reward true (nnSymbol (!true)) : ℚ) * moveImportance 3 7 < 0 :=
  ⟨by decide, (scaledReward_order true 3 7 (by decide)).1.1⟩

end Importance

/-! ## Theorems: the shifted softmax -/

section Shifted

variable {α : Type} [LinearOrderedField α]

theorem foldl_max_spec {ι : Type} (z : ι → α) (l : List ι) (init : α) :
    init ≤ l.foldl (fun m i => if z i > m then z i else m) init ∧
    (∀ i ∈ l, z i ≤ l.foldl (fun m i => if z i > m then z i else m) init) ∧
    (l.foldl (fun m i => if z i > m then z i else m) init = init ∨
      ∃ i ∈ l, l.foldl (fun m i => if z i > m then z i else m) init = z i) := by
  induction l generalizing init with
  | nil => exact ⟨le_rfl, fun i hi => absurd hi (List.not_mem_nil i), Or.inl rfl⟩
  | cons a l ih =>
    rw [List.foldl_cons]
    obtain ⟨h1, h2, h3⟩ := ih (if z a > init then z a else init)
    have hstep : init ≤ (if z a > init then z a else init) ∧
        z a ≤ (if z a > init then z a else init) := by
      split_ifs with hgt
      · exact ⟨le_of_lt hgt, le_rfl⟩
      · exact ⟨le_rfl, not_lt.1 hgt⟩
    refine ⟨le_trans hstep.1 h1, ?_, ?_⟩
    · intro i hi
      rcases List.mem_cons.1 hi with hia | hil
      · rw [hia]
        exact le_trans hstep.2 h1
      · exact h2 i hil
    · rcases h3 with h3 | ⟨i, hi, h3⟩
      · by_cases hgt : z a > init
        · right
          rw [if_pos hgt] at h3 ⊢
          exact ⟨a, List.mem_cons_self a l, h3⟩
        · left
          rw [if_neg hgt] at h3 ⊢
          exact h3
      · exact Or.inr ⟨i, List.mem_cons_of_mem a hi, h3⟩

theorem softmaxMax_spec {size : Nat} (hsize : 0 < size) (z : Fin size → α) :
    (∀ j, z j ≤ softmaxMax hsize z) ∧ ∃ i, softmaxMax hsize z = z i := by
  unfold softmaxMax
  obtain ⟨h1, h2, h3⟩ := foldl_max_spec z (List.finRange size).tail (z ⟨0, hsize⟩)
  constructor
  · intro j
    cases size with
    | zero => exact absurd hsize (lt_irrefl 0)
    | succ n =>
      have hj : j ∈ List.finRange (n + 1) := List.mem_finRange j
      rw [List.finRange_succ_eq_map] at hj
      rcases List.mem_cons.1 hj with hj0 | hjt
      · rw [hj0]
        exact h1
      · apply h2
        rw [List.finRange_succ_eq_map]
        exact hjt
  · rcases h3 with h3 | ⟨i, -, h3⟩
    · exact ⟨⟨0, hsize⟩, h3⟩
    · exact ⟨i, h3⟩

theorem softmax_degenerate (exp : α → α) {size : Nat} (hsize : 0 < size)
    (input output : Fin size → α)
    (hsum : ∑ i, exp (input i - softmaxMax hsize input) ≤ 0) (k : Fin size) :
    softmax exp hsize input output k = 1 / (size : α) := by
  unfold softmax
  simp only [softmaxExps_eq]
  rw [if_neg (not_lt.2 hsum)]
  exact forLoop_update_each (fun _ _ => 1 / (size : α)) _ k

/-- C19: for 9 real logits the sum of exponentials that `softmax` computes after
subtracting the maximum logit is at least 1, hence positive, so the branch that emits the
uniform distribution is not taken, and each output is `exp(z_k) / ∑ exp(z_j)`, the unshifted
softmax; and whenever that sum is not positive (for some other `exp`), every output is
exactly `1/size`. -/
theorem softmax_unshifted :
    (∀ (z output : Fin 9 → ℝ),
      (softmaxExps Real.exp (softmaxMax (by decide) z) z output).2 =
        ∑ j, Real.exp (z j - softmaxMax (by decide) z) ∧
      1 ≤ ∑ j, Real.exp (z j - softmaxMax (by decide) z) ∧
      (∀ k, softmax Real.exp (by decide) z output k =
        Real.exp (z k - softmaxMax (by decide) z) /
          ∑ j, Real.exp (z j - softmaxMax (by decide) z)) ∧
      (∀ k, softmax Real.exp (by decide) z output k = Real.exp (z k) / ∑ j, Real.exp (z j))) ∧
    (∀ (exp : α → α) (size : Nat) (hsize : 0 < size) (z output : Fin size → α),
      (softmaxExps exp (softmaxMax hsize z) z output).2 ≤ 0 →
      ∀ k, softmax exp hsize z output k = 1 / (size : α)) := by
  constructor
  · intro z output
    have hsumeq : (softmaxExps Real.exp (softmaxMax (by decide) z) z output).2 =
        ∑ j, Real.exp (z j - softmaxMax (by decide) z) := by
      rw [softmaxExps_eq]
    obtain ⟨-, i0, hi0⟩ := softmaxMax_spec (by decide : 0 < 9) z
    have hone : 1 ≤ ∑ j, Real.exp (z j - softmaxMax (by decide) z) := by
      have hterm : Real.exp (z i0 - softmaxMax (by decide) z) = 1 := by
        rw [hi0, sub_self, Real.exp_zero]
      rw [← hterm]
      exact Finset.single_le_sum (f := fun j => Real.exp (z j - softmaxMax (by decide) z))
        (fun j _ => le_of_lt (Real.exp_pos _)) (Finset.mem_univ i0)
    have hshift : ∀ k, softmax Real.exp (by decide) z output k =
        Real.exp (z k - softmaxMax (by decide) z) /
          ∑ j, Real.exp (z j - softmaxMax (by decide) z) := fun k =>
      (softmax_apply Real.exp Real.exp_pos (by decide) z output k).2
    refine ⟨hsumeq, hone, hshift, fun k => ?_⟩
    rw [hshift]
    simp only [Real.exp_sub]
    rw [← Finset.sum_div]
    have hm : Real.exp (softmaxMax (by decide : 0 < 9) z) ≠ 0 := ne_of_gt (Real.exp_pos _)
    field_simp
  · intro exp size hsize z output hsum k
    rw [softmaxExps_eq] at hsum
    exact softmax_degenerate exp hsize z output hsum k

theorem softmax_unshifted_witness :
    (softmaxExps (fun _ : ℚ => (0 : ℚ)) (softmaxMax (by decide) (fun _ : Fin 9 => (0 : ℚ)))
        (fun _ : Fin 9 => (0 : ℚ)) (fun _ => 0)).2 ≤ 0 ∧
      softmax (fun _ : ℚ => (0 : ℚ)) (by decide) (fun _ : Fin 9 => (0 : ℚ)) (fun _ => 0) 0 =
        1 / ((9 : Nat) : ℚ) :=
  ⟨by rw [softmaxExps_eq]; simp,
    (@softmax_unshifted ℚ _).2 (fun _ => 0) 9 (by decide) (fun _ => 0) (fun _ => 0)
      (by rw [softmaxExps_eq]; simp) 0⟩

end Shifted

/-! ## Theorems: the forward pass after one gradient step -/

section SecondPass

variable {α : Type} [LinearOrderedField α]

theorem foldl_update_acc {n : Nat} (i : Fin n) {ι : Type} (c : ι → α) (l : List ι)
    (rl : Fin n → α) :
    l.foldl (fun (rl : Fin n → α) j => Function.update rl i (rl i + c j)) rl =
      Function.update rl i (rl i + (l.map c).sum) := by
  induction l generalizing rl with
  | nil => simp
  | cons a l ih =>
    rw [List.foldl_cons, ih, List.map_cons, List.sum_cons, Function.update_same,
      Function.update_idem, add_assoc]

theorem rawLogits_loop (hidden : Fin NN_HIDDEN_SIZE → α) (nn : NeuralNetwork α)
    (rl0 : Fin NN_OUTPUT_SIZE → α) (k : Fin NN_OUTPUT_SIZE) :
    forLoop NN_OUTPUT_SIZE (fun i (rawLogits : Fin NN_OUTPUT_SIZE → α) =>
      forLoop NN_HIDDEN_SIZE (fun j (rawLogits : Fin NN_OUTPUT_SIZE → α) =>
        Function.update rawLogits i (rawLogits i + hidden j * nn.weightsHO (idxHO j i)))
        (Function.update rawLogits i (nn.biasesO i))) rl0 k =
      nn.biasesO k + ∑ j, hidden j * nn.weightsHO (idxHO j k) := by
  have hinner : ∀ (i : Fin NN_OUTPUT_SIZE) (rl : Fin NN_OUTPUT_SIZE → α),
      forLoop NN_HIDDEN_SIZE (fun j (rawLogits : Fin NN_OUTPUT_SIZE → α) =>
        Function.update rawLogits i (rawLogits i + hidden j * nn.weightsHO (idxHO j i)))
        (Function.update rl i (nn.biasesO i)) =
      Function.update rl i (nn.biasesO i + ∑ j, hidden j * nn.weightsHO (idxHO j i)) := by
    intro i rl
    rw [forLoop_eq_foldl, foldl_update_acc, Function.update_same, Function.update_idem,
      Fin.sum_univ_def]
  simp only [hinner]
  exact forLoop_update_each (fun i _ =>
    nn.biasesO i + ∑ j, hidden j * nn.weightsHO (idxHO j i)) _ k

theorem forwardPass_rawLogits (exp : α → α) (nn : NeuralNetwork α)
    (x : Fin NN_INPUT_SIZE → α) (k : Fin NN_OUTPUT_SIZE) :
    (forwardPass exp nn x).rawLogits k =
      nn.biasesO k + ∑ i, (forwardPass exp nn x).hidden i * nn.weightsHO (idxHO i k) := by
  simp only [forwardPass]
  exact rawLogits_loop _ nn nn.rawLogits k

theorem forwardPass_hidden_preAct (exp : α → α) (nn : NeuralNetwork α)
    (x : Fin NN_INPUT_SIZE → α) (i : Fin NN_HIDDEN_SIZE) :
    (forwardPass exp nn x).hidden i = relu (preAct nn x i) := by
  rw [forwardPass_hidden, hiddenSum_eq]
  rfl

theorem hiddenDeltas_eq_hiddenErr (exp : α → α) (nn : NeuralNetwork α)
    (x : Fin NN_INPUT_SIZE → α) (d : Fin NN_OUTPUT_SIZE → α) (i : Fin NN_HIDDEN_SIZE) :
    hiddenDeltas (forwardPass exp nn x) d i = hiddenErr nn x d i := by
  rw [hiddenDeltas_apply, forwardPass_hidden_preAct, reluDerivative_relu]
  rfl

theorem secondPass_hidden (exp : α → α) (nn : NeuralNetwork α) (x : Fin NN_INPUT_SIZE → α)
    (t : Fin NN_OUTPUT_SIZE → α) (lr r : α) (i : Fin NN_HIDDEN_SIZE) :
    (forwardPass exp (backprop (forwardPass exp nn x) t lr r) x).hidden i =
      hiddenAfter nn x (outputDeltas (forwardPass exp nn x) t r) lr i := by
  rw [forwardPass_hidden_preAct]
  unfold hiddenAfter preAct
  rw [backprop_biasesH]
  simp only [backprop_weightsIH, hiddenDeltas_eq_hiddenErr]
  congr 1
  have h1 : (forwardPass exp nn x).biasesH = nn.biasesH := rfl
  have h2 : (forwardPass exp nn x).weightsIH = nn.weightsIH := rfl
  have h3 : (forwardPass exp nn x).inputs = x := rfl
  rw [h1, h2, h3]
  simp only [mul_sub, Finset.sum_sub_distrib, mul_add, Finset.mul_sum, preAct]
  have : ∀ j, x j * (lr * hiddenErr nn x (outputDeltas (forwardPass exp nn x) t r) i * x j) =
      lr * hiddenErr nn x (outputDeltas (forwardPass exp nn x) t r) i * (x j * x j) :=
    fun j => by ring
  simp only [this]
  ring

theorem secondPass_logits (exp : α → α) (nn : NeuralNetwork α) (x : Fin NN_INPUT_SIZE → α)
    (t : Fin NN_OUTPUT_SIZE → α) (lr r : α) (k : Fin NN_OUTPUT_SIZE) :
    (forwardPass exp (backprop (forwardPass exp nn x) t lr r) x).rawLogits k =
      logitsAfter nn x (outputDeltas (forwardPass exp nn x) t r) lr k := by
  rw [forwardPass_rawLogits]
  unfold logitsAfter
  rw [backprop_biasesO]
  simp only [secondPass_hidden, backprop_weightsHO]
  simp only [forwardPass_hidden_preAct]
  rfl

end SecondPass

/-! ## Theorems: one gradient step as a function of the learning rate -/

section Descent

open Filter Topology

theorem softmax_real (z output : Fin NN_OUTPUT_SIZE → ℝ) (k : Fin NN_OUTPUT_SIZE) :
    softmax Real.exp (by decide) z output k = Real.exp (z k) / ∑ j, Real.exp (z j) := by
  rw [(softmax_apply Real.exp Real.exp_pos (by decide) z output k).2]
  simp only [Real.exp_sub]
  rw [← Finset.sum_div]
  have hm : Real.exp (softmaxMax (by decide : 0 < NN_OUTPUT_SIZE) z) ≠ 0 :=
    ne_of_gt (Real.exp_pos _)
  field_simp

theorem logitsAfter_zero (exp : ℝ → ℝ) (nn : NeuralNetwork ℝ) (x : Fin NN_INPUT_SIZE → ℝ)
    (d : Fin NN_OUTPUT_SIZE → ℝ) (k : Fin NN_OUTPUT_SIZE) :
    logitsAfter nn x d 0 k = (forwardPass exp nn x).rawLogits k := by
  rw [forwardPass_rawLogits]
  unfold logitsAfter hiddenAfter
  simp only [zero_mul, sub_zero, forwardPass_hidden_preAct]

theorem firstPass_outputs (nn : NeuralNetwork ℝ) (x : Fin NN_INPUT_SIZE → ℝ)
    (d : Fin NN_OUTPUT_SIZE → ℝ) (k : Fin NN_OUTPUT_SIZE) :
    (forwardPass Real.exp nn x).outputs k =
      Real.exp (logitsAfter nn x d 0 k) / ∑ j, Real.exp (logitsAfter nn x d 0 j) := by
  rw [forwardPass_outputs, softmax_real]
  simp only [logitsAfter_zero Real.exp]

theorem secondPass_outputs (nn : NeuralNetwork ℝ) (x : Fin NN_INPUT_SIZE → ℝ)
    (t : Fin NN_OUTPUT_SIZE → ℝ) (lr r : ℝ) (k : Fin NN_OUTPUT_SIZE) :
    (forwardPass Real.exp (backprop (forwardPass Real.exp nn x) t lr r) x).outputs k =
      Real.exp (logitsAfter nn x (outputDeltas (forwardPass Real.exp nn x) t r) lr k) /
        ∑ j, Real.exp (logitsAfter nn x (outputDeltas (forwardPass Real.exp nn x) t r) lr j) := by
  rw [forwardPass_outputs, softmax_real]
  simp only [secondPass_logits]

theorem quadratic_hasDerivAt (a b c : ℝ) :
    HasDerivAt (fun lr : ℝ => a + b * lr + c * lr ^ 2) b 0 := by
  have h := (((hasDerivAt_id (0 : ℝ)).const_mul b).const_add a).add
    ((hasDerivAt_pow 2 (0 : ℝ)).const_mul c)
  convert h using 1
  simp

theorem hiddenAfter_eventually (nn : NeuralNetwork ℝ) (x : Fin NN_INPUT_SIZE → ℝ)
    (d : Fin NN_OUTPUT_SIZE → ℝ) :
    ∀ᶠ lr in 𝓝 (0 : ℝ), ∀ i, hiddenAfter nn x d lr i =
      relu (preAct nn x i) - lr * hiddenErr nn x d i * (1 + ∑ j, x j * x j) := by
  rw [Filter.eventually_all]
  intro i
  by_cases hpos : preAct nn x i > 0
  · have hcont : Tendsto (fun lr : ℝ =>
        preAct nn x i - lr * hiddenErr nn x d i * (1 + ∑ j, x j * x j)) (𝓝 0)
        (𝓝 (preAct nn x i - 0 * hiddenErr nn x d i * (1 + ∑ j, x j * x j))) := by
      apply Continuous.tendsto
      continuity
    rw [zero_mul, zero_mul, sub_zero] at hcont
    filter_upwards [hcont.eventually (lt_mem_nhds hpos)] with lr hlr
    unfold hiddenAfter relu
    rw [if_pos hlr, if_pos hpos]
  · apply Filter.Eventually.of_forall
    intro lr
    have he : hiddenErr nn x d i = 0 := by
      unfold hiddenErr
      rw [if_neg hpos, mul_zero]
    unfold hiddenAfter
    rw [he, mul_zero, zero_mul, sub_zero, sub_zero]

theorem logitsAfter_hasDerivAt (nn : NeuralNetwork ℝ) (x : Fin NN_INPUT_SIZE → ℝ)
    (d : Fin NN_OUTPUT_SIZE → ℝ) (k : Fin NN_OUTPUT_SIZE) :
    HasDerivAt (fun lr => logitsAfter nn x d lr k) (logitSlope nn x d k) 0 := by
  have hterm : ∀ i : Fin NN_HIDDEN_SIZE, HasDerivAt
      (fun lr : ℝ => (relu (preAct nn x i) - lr * hiddenErr nn x d i * (1 + ∑ j, x j * x j)) *
        (nn.weightsHO (idxHO i k) - lr * d k * relu (preAct nn x i)))
      (-(hiddenErr nn x d i * (1 + ∑ j, x j * x j) * nn.weightsHO (idxHO i k) +
        relu (preAct nn x i) * (d k * relu (preAct nn x i)))) 0 := by
    intro i
    have h := quadratic_hasDerivAt (relu (preAct nn x i) * nn.weightsHO (idxHO i k))
      (-(hiddenErr nn x d i * (1 + ∑ j, x j * x j) * nn.weightsHO (idxHO i k) +
        relu (preAct nn x i) * (d k * relu (preAct nn x i))))
      (hiddenErr nn x d i * (1 + ∑ j, x j * x j) * (d k * relu (preAct nn x i)))
    convert h using 1
    funext lr
    ring
  have hlin : HasDerivAt (fun lr : ℝ => nn.biasesO k - lr * d k) (-d k) 0 := by
    have h := quadratic_hasDerivAt (nn.biasesO k) (-d k) 0
    convert h using 1
    funext lr
    ring
  have hsum := hlin.add (HasDerivAt.sum (fun i (_ : i ∈ Finset.univ) => hterm i))
  have hslope : -d k + ∑ i : Fin NN_HIDDEN_SIZE,
      -(hiddenErr nn x d i * (1 + ∑ j, x j * x j) * nn.weightsHO (idxHO i k) +
        relu (preAct nn x i) * (d k * relu (preAct nn x i))) = logitSlope nn x d k := by
    unfold logitSlope
    rw [Finset.sum_neg_distrib]
    ring
  rw [hslope] at hsum
  refine hsum.congr_of_eventuallyEq ?_
  filter_upwards [hiddenAfter_eventually nn x d] with lr hlr
  unfold logitsAfter
  simp only [hlr, Pi.add_apply, Finset.sum_apply]


theorem firstPass_stepOutputs (nn : NeuralNetwork ℝ) (x : Fin NN_INPUT_SIZE → ℝ)
    (d : Fin NN_OUTPUT_SIZE → ℝ) :
    (forwardPass Real.exp nn x).outputs = stepOutputs Real.exp nn x d 0 :=
  funext fun k => firstPass_outputs nn x d k

theorem secondPass_stepOutputs (nn : NeuralNetwork ℝ) (x : Fin NN_INPUT_SIZE → ℝ)
    (t : Fin NN_OUTPUT_SIZE → ℝ) (lr r : ℝ) :
    (forwardPass Real.exp (backprop (forwardPass Real.exp nn x) t lr r) x).outputs =
      stepOutputs Real.exp nn x (outputDeltas (forwardPass Real.exp nn x) t r) lr :=
  funext fun k => secondPass_outputs nn x t lr r k

theorem stepOutputs_pos (nn : NeuralNetwork ℝ) (x : Fin NN_INPUT_SIZE → ℝ)
    (d : Fin NN_OUTPUT_SIZE → ℝ) (lr : ℝ) (k : Fin NN_OUTPUT_SIZE) :
    0 < stepOutputs Real.exp nn x d lr k :=
  div_pos (Real.exp_pos _) (Finset.sum_pos (fun _ _ => Real.exp_pos _) Finset.univ_nonempty)

theorem stepOutputs_hasDerivAt (nn : NeuralNetwork ℝ) (x : Fin NN_INPUT_SIZE → ℝ)
    (d : Fin NN_OUTPUT_SIZE → ℝ) (k : Fin NN_OUTPUT_SIZE) :
    HasDerivAt (fun lr => stepOutputs Real.exp nn x d lr k)
      (stepOutputs Real.exp nn x d 0 k *
        (logitSlope nn x d k - ∑ j, stepOutputs Real.exp nn x d 0 j * logitSlope nn x d j)) 0 := by
  have hE : ∀ j : Fin NN_OUTPUT_SIZE, HasDerivAt (fun lr => Real.exp (logitsAfter nn x d lr j))
      (Real.exp (logitsAfter nn x d 0 j) * logitSlope nn x d j) 0 :=
    fun j => (logitsAfter_hasDerivAt nn x d j).exp
  have hS := HasDerivAt.sum (fun j (_ : j ∈ Finset.univ) => hE j)
  have hpos : 0 < ∑ j, Real.exp (logitsAfter nn x d 0 j) :=
    Finset.sum_pos (fun j _ => Real.exp_pos _) Finset.univ_nonempty
  have hdiv := (hE k).div hS (ne_of_gt hpos)
  convert hdiv using 1
  unfold stepOutputs
  have hsum : ∑ j, Real.exp (logitsAfter nn x d 0 j) /
      (∑ j, Real.exp (logitsAfter nn x d 0 j)) * logitSlope nn x d j =
      (∑ j, Real.exp (logitsAfter nn x d 0 j) * logitSlope nn x d j) /
        ∑ j, Real.exp (logitsAfter nn x d 0 j) := by
    rw [Finset.sum_div]
    exact Finset.sum_congr rfl (fun j _ => by ring)
  rw [hsum]
  field_simp
  ring

theorem decrease_of_hasDerivAt_neg (f : ℝ → ℝ) (c : ℝ) (h : HasDerivAt f c 0) (hc : c < 0) :
    ∃ eps > 0, ∀ lr, 0 < lr → lr < eps → f lr < f 0 := by
  rw [hasDerivAt_iff_tendsto_slope] at h
  have hev := h.eventually (gt_mem_nhds hc)
  rw [eventually_nhdsWithin_iff, Metric.eventually_nhds_iff] at hev
  obtain ⟨eps, heps, hball⟩ := hev
  refine ⟨eps, heps, fun lr h0 h1 => ?_⟩
  have hs := hball (y := lr) (by rw [Real.dist_eq, sub_zero, abs_of_pos h0]; exact h1)
    (ne_of_gt h0)
  rw [slope_def_field, sub_zero] at hs
  by_contra hge
  exact absurd hs (not_lt.2 (div_nonneg (sub_nonneg.2 (not_lt.1 hge)) (le_of_lt h0)))

theorem increase_of_hasDerivAt_pos (f : ℝ → ℝ) (c : ℝ) (h : HasDerivAt f c 0) (hc : 0 < c) :
    ∃ eps > 0, ∀ lr, 0 < lr → lr < eps → f 0 < f lr := by
  obtain ⟨eps, heps, hlt⟩ := decrease_of_hasDerivAt_neg (fun lr => -f lr) (-c) h.neg
    (neg_lt_zero.2 hc)
  exact ⟨eps, heps, fun lr h0 h1 => neg_lt_neg_iff.1 (hlt lr h0 h1)⟩


theorem logitsAfter_of_zero (nn : NeuralNetwork ℝ) (x : Fin NN_INPUT_SIZE → ℝ)
    (d : Fin NN_OUTPUT_SIZE → ℝ) (hd : ∀ k, d k = 0) (lr : ℝ) (k : Fin NN_OUTPUT_SIZE) :
    logitsAfter nn x d lr k = logitsAfter nn x d 0 k := by
  have he : ∀ i, hiddenErr nn x d i = 0 := by
    intro i
    unfold hiddenErr
    simp only [hd, zero_mul, Finset.sum_const_zero]
  unfold logitsAfter hiddenAfter
  simp only [he, hd, mul_zero, zero_mul, sub_zero]

theorem slope_inner_le (nn : NeuralNetwork ℝ) (x : Fin NN_INPUT_SIZE → ℝ)
    (d : Fin NN_OUTPUT_SIZE → ℝ) :
    ∑ k, d k * logitSlope nn x d k ≤ -∑ k, d k ^ 2 := by
  have hX : 0 ≤ 1 + ∑ j, x j * x j :=
    add_nonneg zero_le_one (Finset.sum_nonneg fun j _ => mul_self_nonneg _)
  have hk : ∀ k, d k * logitSlope nn x d k =
      -(d k ^ 2) -
        ((∑ i, hiddenErr nn x d i * (1 + ∑ j, x j * x j) * (d k * nn.weightsHO (idxHO i k))) +
          ∑ i, (d k * relu (preAct nn x i)) ^ 2) := by
    intro k
    unfold logitSlope
    rw [mul_sub, Finset.mul_sum, ← Finset.sum_add_distrib]
    congr 1
    · ring
    · exact Finset.sum_congr rfl (fun i _ => by ring)
  simp only [hk, Finset.sum_sub_distrib, Finset.sum_neg_distrib, Finset.sum_add_distrib]
  have h1 : 0 ≤ ∑ k, ∑ i,
      hiddenErr nn x d i * (1 + ∑ j, x j * x j) * (d k * nn.weightsHO (idxHO i k)) := by
    rw [Finset.sum_comm]
    apply Finset.sum_nonneg
    intro i _
    rw [← Finset.mul_sum]
    unfold hiddenErr
    by_cases hpos : preAct nn x i > 0
    · rw [if_pos hpos, mul_one]
      have hrw : (∑ k, d k * nn.weightsHO (idxHO i k)) * (1 + ∑ j, x j * x j) *
          (∑ k, d k * nn.weightsHO (idxHO i k)) =
          (1 + ∑ j, x j * x j) * ((∑ k, d k * nn.weightsHO (idxHO i k)) *
            (∑ k, d k * nn.weightsHO (idxHO i k))) := by ring
      rw [hrw]
      exact mul_nonneg hX (mul_self_nonneg _)
    · rw [if_neg hpos, mul_zero, zero_mul, zero_mul]
  have h2 : 0 ≤ ∑ k, ∑ i, (d k * relu (preAct nn x i)) ^ 2 :=
    Finset.sum_nonneg fun k _ => Finset.sum_nonneg fun i _ => sq_nonneg _
  linarith

theorem crossEntropy_hasDerivAt (nn : NeuralNetwork ℝ) (x : Fin NN_INPUT_SIZE → ℝ)
    (d t : Fin NN_OUTPUT_SIZE → ℝ) (ht : ∑ k, t k = 1) :
    HasDerivAt (fun lr => crossEntropy Real.log t (stepOutputs Real.exp nn x d lr))
      (∑ k, (stepOutputs Real.exp nn x d 0 k - t k) * logitSlope nn x d k) 0 := by
  have hlog : ∀ k, HasDerivAt (fun lr => t k * Real.log (stepOutputs Real.exp nn x d lr k))
      (t k * (logitSlope nn x d k -
        ∑ j, stepOutputs Real.exp nn x d 0 j * logitSlope nn x d j)) 0 := by
    intro k
    have hne := ne_of_gt (stepOutputs_pos nn x d 0 k)
    have h := ((stepOutputs_hasDerivAt nn x d k).log hne).const_mul (t k)
    convert h using 1
    field_simp
  have hsum := (HasDerivAt.sum (fun k (_ : k ∈ Finset.univ) => hlog k)).neg
  have hval : -∑ k, t k * (logitSlope nn x d k -
      ∑ j, stepOutputs Real.exp nn x d 0 j * logitSlope nn x d j) =
      ∑ k, (stepOutputs Real.exp nn x d 0 k - t k) * logitSlope nn x d k := by
    simp only [mul_sub, sub_mul, Finset.sum_sub_distrib]
    rw [← Finset.sum_mul, ht, one_mul]
    ring
  rw [hval] at hsum
  exact hsum

/-- C11 (amended): over the reals, for every parameter set, input vector `x`, target
probability distribution `t` and non-zero reward magnitude there is an `eps > 0` such that
for every learning rate `0 < lr < eps`, running `forwardPass` on `x`, then
`backprop(t, lr, reward)` once, then `forwardPass` on `x` again yields an output whose
cross-entropy against `t` is not larger than that of the output before the update, and is
strictly smaller when the first output differs from `t`. -/
theorem backprop_crossEntropy_descent (nn : NeuralNetwork ℝ) (x : Fin NN_INPUT_SIZE → ℝ)
    (t : Fin NN_OUTPUT_SIZE → ℝ) (r : ℝ) (_hnonneg : ∀ k, 0 ≤ t k) (hsum : ∑ k, t k = 1)
    (hr : r ≠ 0) :
    ∃ eps > 0, ∀ lr, 0 < lr → lr < eps →
      crossEntropy Real.log t
          (forwardPass Real.exp (backprop (forwardPass Real.exp nn x) t lr r) x).outputs ≤
        crossEntropy Real.log t (forwardPass Real.exp nn x).outputs ∧
      ((forwardPass Real.exp nn x).outputs ≠ t →
        crossEntropy Real.log t
            (forwardPass Real.exp (backprop (forwardPass Real.exp nn x) t lr r) x).outputs <
          crossEntropy Real.log t (forwardPass Real.exp nn x).outputs) := by
  have hfirst := firstPass_stepOutputs nn x (outputDeltas (forwardPass Real.exp nn x) t r)
  by_cases hpt : (forwardPass Real.exp nn x).outputs = t
  · have hd : ∀ k, outputDeltas (forwardPass Real.exp nn x) t r k = 0 := by
      intro k
      rw [outputDeltas_apply, hpt, sub_self, zero_mul]
    refine ⟨1, one_pos, fun lr _ _ => ⟨le_of_eq ?_, fun hne => absurd hpt hne⟩⟩
    rw [secondPass_stepOutputs, hfirst]
    congr 1
    funext k
    unfold stepOutputs
    simp only [logitsAfter_of_zero nn x _ hd lr]
  · obtain ⟨k0, hk0⟩ := Function.ne_iff.1 hpt
    have habs : 0 < |r| := abs_pos.2 hr
    have hdk : ∀ k, outputDeltas (forwardPass Real.exp nn x) t r k =
        (stepOutputs Real.exp nn x (outputDeltas (forwardPass Real.exp nn x) t r) 0 k - t k) *
          |r| := by
      intro k
      rw [outputDeltas_apply, hfirst]
    have hder := crossEntropy_hasDerivAt nn x (outputDeltas (forwardPass Real.exp nn x) t r) t
      hsum
    have hle := slope_inner_le nn x (outputDeltas (forwardPass Real.exp nn x) t r)
    have hsq : 0 < ∑ k, outputDeltas (forwardPass Real.exp nn x) t r k ^ 2 := by
      refine Finset.sum_pos' (fun k _ => sq_nonneg _) ⟨k0, Finset.mem_univ k0, ?_⟩
      rw [outputDeltas_apply]
      exact lt_of_le_of_ne (sq_nonneg _)
        (Ne.symm (pow_ne_zero 2 (mul_ne_zero (sub_ne_zero.2 hk0) (ne_of_gt habs))))
    have hc : (∑ k, (stepOutputs Real.exp nn x
        (outputDeltas (forwardPass Real.exp nn x) t r) 0 k - t k) *
          logitSlope nn x (outputDeltas (forwardPass Real.exp nn x) t r) k) * |r| =
        ∑ k, outputDeltas (forwardPass Real.exp nn x) t r k *
          logitSlope nn x (outputDeltas (forwardPass Real.exp nn x) t r) k := by
      rw [Finset.sum_mul]
      refine Finset.sum_congr rfl (fun k _ => ?_)
      rw [hdk k]
      ring
    have hneg : ∑ k, (stepOutputs Real.exp nn x
        (outputDeltas (forwardPass Real.exp nn x) t r) 0 k - t k) *
          logitSlope nn x (outputDeltas (forwardPass Real.exp nn x) t r) k < 0 := by
      by_contra hge
      have hmul := mul_nonneg (not_lt.1 hge) (le_of_lt habs)
      linarith
    obtain ⟨eps, heps, hlt⟩ := decrease_of_hasDerivAt_neg _ _ hder hneg
    refine ⟨eps, heps, fun lr h0 h1 => ?_⟩
    have hstep := hlt lr h0 h1
    rw [secondPass_stepOutputs, hfirst]
    exact ⟨le_of_lt hstep, fun _ => hstep⟩


theorem sum_fin9 (f : Fin NN_OUTPUT_SIZE → ℝ) :
    ∑ k, f k = f 0 + f 1 + f 2 + f 3 + f 4 + f 5 + f 6 + f 7 + f 8 := by
  simp only [Fin.sum_univ_succ, Fin.sum_univ_zero]
  simp only [add_zero, ← add_assoc]
  rfl

theorem sum_hidden_single (f : Fin NN_HIDDEN_SIZE → ℝ) (h : ∀ i, i.val ≠ 0 → f i = 0) :
    ∑ i, f i = f ⟨0, by decide⟩ :=
  Finset.sum_eq_single _ (fun i _ hi => h i (fun h0 => hi (Fin.ext h0)))
    (fun hn => absurd (Finset.mem_univ _) hn)

theorem descentNet_preAct (b0 b1 b2 : ℝ) (i : Fin NN_HIDDEN_SIZE) :
    preAct (descentNet b0 b1 b2) (fun _ => 0) i = if i.val = 0 then 1 else 0 := by
  unfold preAct descentNet
  simp only [zero_mul, Finset.sum_const_zero, add_zero]

theorem descentNet_relu (b0 b1 b2 : ℝ) (i : Fin NN_HIDDEN_SIZE) :
    relu (preAct (descentNet b0 b1 b2) (fun _ => 0) i) = if i.val = 0 then 1 else 0 := by
  rw [descentNet_preAct]
  unfold relu
  by_cases hi : i.val = 0
  · rw [if_pos hi, if_pos one_pos]
  · rw [if_neg hi, if_neg (lt_irrefl _)]

theorem descentNet_weightsHO (b0 b1 b2 : ℝ) (i : Fin NN_HIDDEN_SIZE) (k : Fin NN_OUTPUT_SIZE) :
    (descentNet b0 b1 b2).weightsHO (idxHO i k) =
      if i.val = 0 then (if k.val = 0 then 10 else 0) else 0 := by
  unfold descentNet idxHO
  by_cases hi : i.val = 0
  · by_cases hk : k.val = 0
    · simp [hi, hk]
    · simp [hi, hk]
  · simp [hi]

theorem descentNet_hiddenErr (b0 b1 b2 : ℝ) (d : Fin NN_OUTPUT_SIZE → ℝ)
    (i : Fin NN_HIDDEN_SIZE) :
    hiddenErr (descentNet b0 b1 b2) (fun _ => 0) d i = if i.val = 0 then d 0 * 10 else 0 := by
  unfold hiddenErr
  rw [descentNet_preAct]
  simp only [descentNet_weightsHO]
  by_cases hi : i.val = 0
  · simp only [hi, if_true, gt_iff_lt, one_pos, mul_one]
    rw [Finset.sum_eq_single (0 : Fin NN_OUTPUT_SIZE)]
    · simp
    · intro k _ hk
      have hk0 : k.val ≠ 0 := fun h0 => hk (Fin.ext h0)
      rw [if_neg hk0, mul_zero]
    · intro hn
      exact absurd (Finset.mem_univ _) hn
  · simp [hi]

theorem descentNet_logitSlope (b0 b1 b2 : ℝ) (d : Fin NN_OUTPUT_SIZE → ℝ)
    (k : Fin NN_OUTPUT_SIZE) :
    logitSlope (descentNet b0 b1 b2) (fun _ => 0) d k =
      -(2 * d k) - (if k.val = 0 then 100 * d 0 else 0) := by
  unfold logitSlope
  simp only [descentNet_hiddenErr, descentNet_relu, descentNet_weightsHO]
  rw [sum_hidden_single]
  · by_cases hk : k.val = 0
    · simp only [hk, if_true]
      ring
    · simp only [hk, if_true, if_false]
      ring
  · intro i hi
    simp only [hi, if_false]
    ring

theorem descentNet_logits (b0 b1 b2 : ℝ) (d : Fin NN_OUTPUT_SIZE → ℝ)
    (k : Fin NN_OUTPUT_SIZE) :
    logitsAfter (descentNet b0 b1 b2) (fun _ => 0) d 0 k =
      threeCase b0 b1 b2 k + (if k.val = 0 then 10 else 0) := by
  unfold logitsAfter hiddenAfter
  simp only [zero_mul, sub_zero, descentNet_relu, descentNet_weightsHO]
  rw [sum_hidden_single]
  · simp only [if_true, one_mul]
    rfl
  · intro i hi
    simp only [hi, if_false, zero_mul]


theorem threeCase_values (a b c : ℝ) :
    threeCase a b c 0 = a ∧ threeCase a b c 1 = b ∧ threeCase a b c 2 = c ∧
    threeCase a b c 3 = c ∧ threeCase a b c 4 = c ∧ threeCase a b c 5 = c ∧
    threeCase a b c 6 = c ∧ threeCase a b c 7 = c ∧ threeCase a b c 8 = c :=
  ⟨rfl, rfl, rfl, rfl, rfl, rfl, rfl, rfl, rfl⟩

theorem sum_threeCase_eq (a b c : ℝ) : ∑ k, threeCase a b c k = a + b + 7 * c := by
  obtain ⟨h0, h1, h2, h3, h4, h5, h6, h7, h8⟩ := threeCase_values a b c
  rw [sum_fin9, h0, h1, h2, h3, h4, h5, h6, h7, h8]
  ring

theorem descentTarget_nonneg (k : Fin NN_OUTPUT_SIZE) : 0 ≤ (descentTarget k : ℝ) := by
  unfold descentTarget threeCase
  split_ifs <;> norm_num

theorem descentTarget_sum : ∑ k, (descentTarget k : ℝ) = 1 := by
  unfold descentTarget
  rw [sum_threeCase_eq]
  norm_num

theorem descentNet_exp_logits (d : Fin NN_OUTPUT_SIZE → ℝ) (k : Fin NN_OUTPUT_SIZE) :
    Real.exp (logitsAfter (descentNet (Real.log (1 / 10) - 10) (Real.log (8 / 10))
      (Real.log (1 / 70))) (fun _ => 0) d 0 k) = threeCase (1 / 10) (8 / 10) (1 / 70) k := by
  rw [descentNet_logits]
  unfold threeCase
  by_cases h0 : k.val = 0
  · rw [if_pos h0, if_pos h0, if_pos h0, sub_add_cancel, Real.exp_log (by norm_num)]
  · rw [if_neg h0, if_neg h0, if_neg h0, add_zero]
    by_cases h1 : k.val = 1
    · rw [if_pos h1, if_pos h1, Real.exp_log (by norm_num)]
    · rw [if_neg h1, if_neg h1, Real.exp_log (by norm_num)]

theorem descentNet_outputs (d : Fin NN_OUTPUT_SIZE → ℝ) (k : Fin NN_OUTPUT_SIZE) :
    stepOutputs Real.exp (descentNet (Real.log (1 / 10) - 10) (Real.log (8 / 10))
      (Real.log (1 / 70))) (fun _ => 0) d 0 k = threeCase (1 / 10) (8 / 10) (1 / 70) k := by
  unfold stepOutputs
  simp only [descentNet_exp_logits]
  rw [sum_threeCase_eq]
  norm_num

theorem descentNet_deltas (k : Fin NN_OUTPUT_SIZE) :
    outputDeltas (forwardPass Real.exp (descentNet (Real.log (1 / 10) - 10) (Real.log (8 / 10))
      (Real.log (1 / 70))) (fun _ => 0)) descentTarget 1 k =
      threeCase (1 / 20) (1 / 2) (-(11 / 140)) k := by
  rw [outputDeltas_apply, firstPass_stepOutputs _ _ (fun _ => 0), descentNet_outputs]
  unfold descentTarget threeCase
  split_ifs <;> norm_num

theorem descentNet_slope (k : Fin NN_OUTPUT_SIZE) :
    logitSlope (descentNet (Real.log (1 / 10) - 10) (Real.log (8 / 10)) (Real.log (1 / 70)))
      (fun _ => 0)
      (outputDeltas (forwardPass Real.exp (descentNet (Real.log (1 / 10) - 10)
        (Real.log (8 / 10)) (Real.log (1 / 70))) (fun _ => 0)) descentTarget 1) k =
      threeCase (-(51 / 10)) (-1) (11 / 70) k := by
  rw [descentNet_logitSlope]
  simp only [descentNet_deltas]
  rw [(threeCase_values (1 / 20 : ℝ) (1 / 2) (-(11 / 140))).1]
  unfold threeCase
  split_ifs <;> norm_num

theorem sqDist_hasDerivAt (nn : NeuralNetwork ℝ) (x : Fin NN_INPUT_SIZE → ℝ)
    (d t : Fin NN_OUTPUT_SIZE → ℝ) :
    HasDerivAt (fun lr => sqDist (stepOutputs Real.exp nn x d lr) t)
      (∑ k, 2 * (stepOutputs Real.exp nn x d 0 k - t k) *
        (stepOutputs Real.exp nn x d 0 k *
          (logitSlope nn x d k - ∑ j, stepOutputs Real.exp nn x d 0 j * logitSlope nn x d j)))
      0 := by
  have hk : ∀ k, HasDerivAt (fun lr => (stepOutputs Real.exp nn x d lr k - t k) ^ 2)
      (2 * (stepOutputs Real.exp nn x d 0 k - t k) *
        (stepOutputs Real.exp nn x d 0 k *
          (logitSlope nn x d k - ∑ j, stepOutputs Real.exp nn x d 0 j * logitSlope nn x d j)))
      0 := by
    intro k
    have h := ((stepOutputs_hasDerivAt nn x d k).sub_const (t k)).pow 2
    convert h using 1
    simp
  exact HasDerivAt.sum (fun k (_ : k ∈ Finset.univ) => hk k)

theorem descentNet_sqDist_slope :
    0 < ∑ k, 2 * (stepOutputs Real.exp (descentNet (Real.log (1 / 10) - 10)
        (Real.log (8 / 10)) (Real.log (1 / 70))) (fun _ => 0)
        (outputDeltas (forwardPass Real.exp (descentNet (Real.log (1 / 10) - 10)
          (Real.log (8 / 10)) (Real.log (1 / 70))) (fun _ => 0)) descentTarget 1) 0 k -
          descentTarget k) *
      (stepOutputs Real.exp (descentNet (Real.log (1 / 10) - 10)
        (Real.log (8 / 10)) (Real.log (1 / 70))) (fun _ => 0)
        (outputDeltas (forwardPass Real.exp (descentNet (Real.log (1 / 10) - 10)
          (Real.log (8 / 10)) (Real.log (1 / 70))) (fun _ => 0)) descentTarget 1) 0 k *
        (logitSlope (descentNet (Real.log (1 / 10) - 10)
          (Real.log (8 / 10)) (Real.log (1 / 70))) (fun _ => 0)
          (outputDeltas (forwardPass Real.exp (descentNet (Real.log (1 / 10) - 10)
            (Real.log (8 / 10)) (Real.log (1 / 70))) (fun _ => 0)) descentTarget 1) k -
          ∑ j, stepOutputs Real.exp (descentNet (Real.log (1 / 10) - 10)
            (Real.log (8 / 10)) (Real.log (1 / 70))) (fun _ => 0)
            (outputDeltas (forwardPass Real.exp (descentNet (Real.log (1 / 10) - 10)
              (Real.log (8 / 10)) (Real.log (1 / 70))) (fun _ => 0)) descentTarget 1) 0 j *
            logitSlope (descentNet (Real.log (1 / 10) - 10)
              (Real.log (8 / 10)) (Real.log (1 / 70))) (fun _ => 0)
              (outputDeltas (forwardPass Real.exp (descentNet (Real.log (1 / 10) - 10)
                (Real.log (8 / 10)) (Real.log (1 / 70))) (fun _ => 0)) descentTarget 1) j)) := by
  simp only [descentNet_outputs, descentNet_slope]
  obtain ⟨h0, h1, h2, h3, h4, h5, h6, h7, h8⟩ :=
    threeCase_values (1 / 10 : ℝ) (8 / 10) (1 / 70)
  obtain ⟨a0, a1, a2, a3, a4, a5, a6, a7, a8⟩ :=
    threeCase_values (-(51 / 10) : ℝ) (-1) (11 / 70)
  obtain ⟨t0, t1, t2, t3, t4, t5, t6, t7, t8⟩ :=
    threeCase_values (1 / 20 : ℝ) (3 / 10) (13 / 140)
  simp only [sum_fin9, descentTarget, h0, h1, h2, h3, h4, h5, h6, h7, h8, a0, a1, a2, a3, a4,
    a5, a6, a7, a8, t0, t1, t2, t3, t4, t5, t6, t7, t8]
  norm_num


theorem sqDist_nonneg (a b : Fin NN_OUTPUT_SIZE → ℝ) : 0 ≤ sqDist a b :=
  Finset.sum_nonneg fun _ _ => sq_nonneg _

theorem descentNet_distance_grows :
    ∃ eps > 0, ∀ lr : ℝ, 0 < lr → lr < eps →
      Real.sqrt (sqDist (forwardPass Real.exp (descentNet (Real.log (1 / 10) - 10)
        (Real.log (8 / 10)) (Real.log (1 / 70))) (fun _ => 0)).outputs descentTarget) <
      Real.sqrt (sqDist (forwardPass Real.exp (backprop (forwardPass Real.exp
        (descentNet (Real.log (1 / 10) - 10) (Real.log (8 / 10)) (Real.log (1 / 70)))
        (fun _ => 0)) descentTarget lr 1) (fun _ => 0)).outputs descentTarget) := by
  obtain ⟨eps, heps, hinc⟩ := increase_of_hasDerivAt_pos _ _
    (sqDist_hasDerivAt _ _ _ descentTarget) descentNet_sqDist_slope
  refine ⟨eps, heps, fun lr h0 h1 => ?_⟩
  rw [secondPass_stepOutputs, firstPass_stepOutputs _ _
    (outputDeltas (forwardPass Real.exp (descentNet (Real.log (1 / 10) - 10)
      (Real.log (8 / 10)) (Real.log (1 / 70))) (fun _ => 0)) descentTarget 1)]
  exact Real.sqrt_lt_sqrt (sqDist_nonneg _ _) (hinc lr h0 h1)

/-- C11 (as stated, refuted): for the network `descentNet` with output biases
`log(1/10) - 10`, `log(8/10)`, `log(1/70)`, the zero input, the target distribution
`descentTarget` and reward 1, the first output is `(1/10, 8/10, 1/70, …)` and there is an
`eps > 0` such that for every learning rate `0 < lr < eps` the Euclidean distance to the
target after `forwardPass`, `backprop`, `forwardPass` is strictly larger than before; hence
the Euclidean single-step descent property does not hold for every parameter set. -/
theorem euclidean_descent_fails :
    ((∀ k, 0 ≤ (descentTarget k : ℝ)) ∧ ∑ k, (descentTarget k : ℝ) = 1 ∧
      ∃ eps > 0, ∀ lr : ℝ, 0 < lr → lr < eps →
        Real.sqrt (sqDist (forwardPass Real.exp (descentNet (Real.log (1 / 10) - 10)
          (Real.log (8 / 10)) (Real.log (1 / 70))) (fun _ => 0)).outputs descentTarget) <
        Real.sqrt (sqDist (forwardPass Real.exp (backprop (forwardPass Real.exp
          (descentNet (Real.log (1 / 10) - 10) (Real.log (8 / 10)) (Real.log (1 / 70)))
          (fun _ => 0)) descentTarget lr 1) (fun _ => 0)).outputs descentTarget)) ∧
    ¬ ∀ (nn : NeuralNetwork ℝ) (x : Fin NN_INPUT_SIZE → ℝ) (t : Fin NN_OUTPUT_SIZE → ℝ)
      (r : ℝ), (∀ k, 0 ≤ t k) → ∑ k, t k = 1 → r ≠ 0 →
      ∃ eps > 0, ∀ lr, 0 < lr → lr < eps →
        Real.sqrt (sqDist
            (forwardPass Real.exp (backprop (forwardPass Real.exp nn x) t lr r) x).outputs t) ≤
          Real.sqrt (sqDist (forwardPass Real.exp nn x).outputs t) ∧
        ((forwardPass Real.exp nn x).outputs ≠ t →
          Real.sqrt (sqDist
              (forwardPass Real.exp (backprop (forwardPass Real.exp nn x) t lr r) x).outputs t) <
            Real.sqrt (sqDist (forwardPass Real.exp nn x).outputs t)) := by
  refine ⟨⟨descentTarget_nonneg, descentTarget_sum, descentNet_distance_grows⟩, fun h => ?_⟩
  obtain ⟨e1, he1, h1⟩ := h (descentNet (Real.log (1 / 10) - 10) (Real.log (8 / 10))
    (Real.log (1 / 70))) (fun _ => 0) descentTarget 1 descentTarget_nonneg descentTarget_sum
    one_ne_zero
  obtain ⟨e2, he2, h2⟩ := descentNet_distance_grows
  have hmin : 0 < min e1 e2 := lt_min he1 he2
  have hl1 : min e1 e2 / 2 < e1 := lt_of_lt_of_le (half_lt_self hmin) (min_le_left _ _)
  have hl2 : min e1 e2 / 2 < e2 := lt_of_lt_of_le (half_lt_self hmin) (min_le_right _ _)
  exact absurd (h1 _ (half_pos hmin) hl1).1 (not_le.2 (h2 _ (half_pos hmin) hl2))

theorem backprop_crossEntropy_descent_witness :
    (∀ k, 0 ≤ (descentTarget k : ℝ)) ∧ ∑ k, (descentTarget k : ℝ) = 1 ∧ (1 : ℝ) ≠ 0 ∧
    ∃ eps > 0, ∀ lr, 0 < lr → lr < eps →
      crossEntropy Real.log descentTarget
          (forwardPass Real.exp (backprop (forwardPass Real.exp (descentNet 0 0 0)
            (fun _ => 0)) descentTarget lr 1) (fun _ => 0)).outputs ≤
        crossEntropy Real.log descentTarget
          (forwardPass Real.exp (descentNet 0 0 0) (fun _ => 0)).outputs ∧
      ((forwardPass Real.exp (descentNet 0 0 0) (fun _ => 0)).outputs ≠ descentTarget →
        crossEntropy Real.log descentTarget
            (forwardPass Real.exp (backprop (forwardPass Real.exp (descentNet 0 0 0)
              (fun _ => 0)) descentTarget lr 1) (fun _ => 0)).outputs <
          crossEntropy Real.log descentTarget
            (forwardPass Real.exp (descentNet 0 0 0) (fun _ => 0)).outputs) :=
  ⟨descentTarget_nonneg, descentTarget_sum, one_ne_zero,
    backprop_crossEntropy_descent (descentNet 0 0 0) (fun _ => 0) descentTarget 1
      descentTarget_nonneg descentTarget_sum one_ne_zero⟩

end Descent

end TTT
